import Mathlib

/-!
HtmlParser: the tag tokenizer and the tree builder of `html_to_json.c`.

A shallow embedding of the functions `is_valid_tag`, `get_tag_type`,
`open_close_tags_match`, `remove_chr`, `str_in_arr`, `char_in`, `readline`,
`create_tag_from_string`, `add_child`, `add_attribute`, `next_tag` and
`parse_tags`, followed by the properties proved about them.

Conventions of the embedding.

* A C string is the list of its bytes before the terminating NUL; one `Char`
  stands for one byte.  A line returned by `readline` is the list of the bytes
  it stored (the newline included); reading the byte after the last one gives
  the terminator, and reading further is outside the buffer.
* The `calloc`ed scratch buffers of `next_tag` are zero-filled arrays of a fixed
  capacity.  A buffer is represented by its bytes up to the last one written;
  the rest of the array is NUL.  Writing at an index that is not below the
  capacity, or reading a string that fills the whole array, leaves the buffer.
* `exit(1)` is the outcome `Outcome.exit`, labelled with the diagnostic that is
  printed before it; an access outside a buffer or through a null pointer is
  the outcome `Outcome.undefined`.
* The test `chr != EOF` of the scanning loop compares an `int` that was read
  from a `char`; `char` is signed, so the byte 0xFF has the value of `EOF` and
  ends the loop like a newline.  That byte is the character `EOF_BYTE`.
* The `parent` pointer of the open tags is the list `current_tag`: its head is
  the tag `current_tag` points to, its tail is the chain `current_tag->parent`,
  `current_tag->parent->parent`, ...; the empty list is the null pointer.
-/

namespace HtmlParser

/-! ## Data model -/

/-- The terminator of a C string. -/
abbrev NUL : Char := Char.ofNat 0

/-- The newline character. -/
abbrev NL : Char := Char.ofNat 10

/-- The byte 0xFF, which the scanning loop of `next_tag` reads as `EOF`. -/
abbrev EOF_BYTE : Char := Char.ofNat 255

/-- The double quote character. -/
abbrev DQUOTE : Char := Char.ofNat 34

/-- The single quote character. -/
abbrev SQUOTE : Char := Char.ofNat 39

/-- The diagnostics printed before `exit(1)`. -/
inductive Fatal where
  /-- Message "Got invalid tag" of `get_tag_type`. -/
  | InvalidTag
  /-- Message "Expected ...: Bad tag" of `next_tag`. -/
  | BadTagSyntax
  /-- Message "Invalid comment syntax." of `next_tag`. -/
  | BadCommentSyntax
  /-- Message "No opening quotes in attribute value" of `next_tag`. -/
  | MissingAttributeQuote
  /-- Message "Closing tag must be preceeded with opening one" of `parse_tags`. -/
  | UnmatchedClose
  /-- Message "Opening and closing tags do not match." of `parse_tags`. -/
  | TagMismatch
  deriving DecidableEq, Repr

/-- The result of running a piece of the program. -/
inductive Outcome (α : Type) where
  /-- Normal return. -/
  | ok (a : α)
  /-- The process ended with `exit(1)`. -/
  | exit (e : Fatal)
  /-- An access outside a buffer or through a null pointer. -/
  | undefined
  /-- The iteration bound of the embedding was used up. -/
  | fuel
  deriving DecidableEq, Repr

/-- Sequencing of two pieces of the program. -/
def Outcome.bind {α β : Type} (x : Outcome α) (f : α → Outcome β) : Outcome β :=
  match x with
  | .ok a => f a
  | .exit e => .exit e
  | .undefined => .undefined
  | .fuel => .fuel

/-- The struct `Attribute`. -/
structure Attribute where
  name : List Char
  value : List Char
  deriving DecidableEq, Repr

/-- The struct `HTMLTag` without its `parent` pointer (see the conventions);
`children_length` and `attribute_length` are the lengths of the two lists. -/
inductive HTMLTag where
  | mk (name : List Char) (content : Option (List Char))
      (attributes : List Attribute) (children : List HTMLTag)

/-- Field `name`. -/
def HTMLTag.name : HTMLTag → List Char
  | .mk n _ _ _ => n

/-- Field `content`; `none` is the null pointer. -/
def HTMLTag.content : HTMLTag → Option (List Char)
  | .mk _ c _ _ => c

/-- Field `attributes`. -/
def HTMLTag.attributes : HTMLTag → List Attribute
  | .mk _ _ a _ => a

/-- Field `children`. -/
def HTMLTag.children : HTMLTag → List HTMLTag
  | .mk _ _ _ c => c

/-- The array `valid_tags`. -/
def valid_tags : List (List Char) :=
  [ "body".toList, "form".toList, "input".toList, "p".toList, "span".toList,
    "div".toList, "a".toList, "strong".toList, "section".toList,
    "h1".toList, "h2".toList, "h3".toList, "h4".toList, "h5".toList, "h6".toList,
    "button".toList, "br".toList, "img".toList, "ul".toList, "ol".toList,
    "li".toList ]

/-- The array `non_closing_tags`. -/
def non_closing_tags : List (List Char) :=
  [ "br".toList, "img".toList, "input".toList ]

/-- The macro `VALID_ATTR_SPECIAL_CHARS`. -/
def VALID_ATTR_SPECIAL_CHARS : List Char :=
  [ '%', '?', '!', '#', '$', '%', '&', SQUOTE, '=', '(', ')', '*', '+', ',', '-',
    '.', '/', ':', ';', '[', ']', ' ' ]

/-! ## Utilities -/

/-- Function `strlength`, on the bytes that follow a pointer: the number of
bytes before the first NUL. -/
def strlength (str : List Char) : Nat :=
  (str.takeWhile (fun c => c != NUL)).length

/-- Function `strequals`. -/
def strequals (str1 str2 : List Char) : Bool :=
  str1 == str2

/-- Function `str_in_arr`. -/
def str_in_arr (str : List Char) : List (List Char) → Bool
  | [] => false
  | a :: arr => if strequals str a then true else str_in_arr str arr

/-- Function `char_in`. -/
def char_in : List Char → Char → Bool
  | [], _ => false
  | x :: str, c => if x = c then true else char_in str c

/-- Function `remove_chr`: a copy of `str` without the first occurrence of `c`;
`none` is the null pointer returned when `c` does not occur. -/
def remove_chr (str : List Char) (c : Char) : Option (List Char) :=
  let left := str.takeWhile (fun x => x != c)
  if left.length = str.length then none
  else some (left ++ str.drop (left.length + 1))

/-- Function `is_valid_tag`, on the tag's name.  `remove_chr` is only called
on a name that starts with the slash. -/
def is_valid_tag (tag : HTMLTag) : Outcome Bool :=
  if tag.name.head? = some '/' then
    match remove_chr tag.name '/' with
    | none => .undefined
    | some tmp_tag => .ok (str_in_arr tmp_tag valid_tags)
  else .ok (str_in_arr tag.name valid_tags)

/-- The three strings returned by `get_tag_type`. -/
inductive TagType where
  | opening
  | closing
  | non_closing
  deriving DecidableEq, Repr

/-- Function `get_tag_type`. -/
def get_tag_type (tag : HTMLTag) : Outcome TagType :=
  (is_valid_tag tag).bind fun valid =>
    if valid then
      if str_in_arr tag.name non_closing_tags then .ok .non_closing
      else if tag.name.head? = some '/' then .ok .closing
      else .ok .opening
    else .exit .InvalidTag

/-- Function `is_opening_tag`. -/
def is_opening_tag (tag : HTMLTag) : Outcome Bool :=
  (get_tag_type tag).bind fun t => .ok (decide (t = .opening))

/-- Function `is_closing_tag`. -/
def is_closing_tag (tag : HTMLTag) : Outcome Bool :=
  (get_tag_type tag).bind fun t => .ok (decide (t = .closing))

/-- Function `is_non_closing_tag`. -/
def is_non_closing_tag (tag : HTMLTag) : Outcome Bool :=
  (get_tag_type tag).bind fun t => .ok (decide (t = .non_closing))

/-- Function `open_close_tags_match`; `none` when `remove_chr` returns the
null pointer, which `strcmp` then reads. -/
def open_close_tags_match (open_tag close_tag : List Char) : Option Bool :=
  match remove_chr close_tag '/' with
  | none => none
  | some new_close_tag => some (strequals open_tag new_close_tag)

/-- Function `readline` on the bytes left in the stream: the line read, its
newline included, and the bytes left after it; `none` when no byte is left. -/
def readline (stream : List Char) : Option (List Char × List Char) :=
  let body := stream.takeWhile (fun c => c != NL)
  match stream.drop body.length with
  | [] => if body = [] then none else some (body, [])
  | c :: rest => some (body ++ [c], rest)

/-- Function `create_attribute`. -/
def create_attribute (name value : List Char) : Attribute :=
  { name := name, value := value }

/-- Function `create_tag_from_string`, called with a name that is not null. -/
def create_tag_from_string (name : List Char) (content : Option (List Char)) : HTMLTag :=
  .mk name content [] []

/-- Function `add_child`. -/
def add_child (parent child : HTMLTag) : HTMLTag :=
  .mk parent.name parent.content parent.attributes (parent.children ++ [child])

/-- Function `add_attribute`. -/
def add_attribute (tag : HTMLTag) (attr : Attribute) : HTMLTag :=
  .mk tag.name tag.content (tag.attributes ++ [attr]) tag.children

/-! ## The tokenizer `next_tag` -/

/-- The values of `expected_token`. -/
inductive Expected where
  | open_tag
  | tag_name
  | attr_name
  | attr_value_open
  | attr_value
  | attr_separator_or_close_tag
  deriving DecidableEq, Repr

/-- The statement `buf[offset] = chr` on a zero-filled buffer of `cap` bytes;
`none` when `offset` is outside the buffer. -/
def buf_write (cap : Nat) (buf : List Char) (offset : Nat) (chr : Char) :
    Option (List Char) :=
  if offset < cap then
    if offset < buf.length then some (buf.set offset chr)
    else some (buf ++ List.replicate (offset - buf.length) NUL ++ [chr])
  else none

/-- The C string held by a zero-filled buffer of `cap` bytes; `none` when the
buffer holds no NUL, so that the read runs past its end. -/
def buf_str (cap : Nat) (buf : List Char) : Option (List Char) :=
  let s := buf.takeWhile (fun c => c != NUL)
  if s.length < cap then some s else none

/-- The local variables of `next_tag` together with the global flag
`COMMENT_OPENED`.  `attr` is not kept: it is null outside the two statements
that create and attach it.  `attr_name` and `attr_value` are freed and null
between the closing quote of a value and the next space, where they are not
read; they are kept as empty buffers there. -/
structure State where
  expected_token : Expected
  attr_name : List Char
  attr_value : List Char
  tag : Option HTMLTag
  tag_name : List Char
  tag_content : List Char
  line : List Char
  offset : Nat
  COMMENT_OPENED : Bool

/-- The result of one pass through the body of the scanning loop. -/
inductive Step where
  /-- The loop goes on (end of the body or `continue`). -/
  | next (s : State)
  /-- A `break`, with the value of `error_exit`. -/
  | stop (s : State) (error_exit : Option Fatal)
  /-- An access outside a buffer. -/
  | undefined

/-- The statement `line++` followed by the next test of the loop: at the
terminator the pointer leaves the line. -/
def advance (s : State) : Step :=
  match s.line with
  | [] => .undefined
  | _ :: rest => .next { s with line := rest }

/-- One pass through the body of the `while` loop of `next_tag`. -/
def step (s : State) : Step :=
  let chr := s.line.headD NUL
  if s.COMMENT_OPENED then
    if chr = '-' ∧ 3 ≤ strlength s.line ∧ s.line.getD 1 NUL = '-' ∧ s.line.getD 2 NUL = '>' then
      .next { s with COMMENT_OPENED := false, expected_token := .open_tag,
                     line := s.line.drop 3 }
    else advance s
  else
    match s.expected_token with
    | .open_tag =>
      if chr = '<' then advance { s with expected_token := .tag_name, offset := 0 }
      else
        match (if chr = ' ' then (buf_str 1024 s.tag_content).map (fun c => decide (c.length = 0))
               else some false) with
        | none => .undefined
        | some true => advance s
        | some false =>
          match buf_write 1024 s.tag_content s.offset chr with
          | none => .undefined
          | some b => advance { s with tag_content := b, offset := s.offset + 1 }
    | .tag_name =>
      if chr.isAlphanum ∨ chr = '/' then
        match buf_write 128 s.tag_name s.offset chr with
        | none => .undefined
        | some b => advance { s with tag_name := b, offset := s.offset + 1 }
      else if chr = '>' then
        match buf_str 128 s.tag_name with
        | none => .undefined
        | some name =>
          if 0 < name.length then
            if name.head? ≠ some '/' then
              .stop { s with tag := some (create_tag_from_string name none),
                             line := s.line.drop 1 } none
            else
              match buf_str 1024 s.tag_content with
              | none => .undefined
              | some content =>
                .stop { s with tag := some (create_tag_from_string name (some content)),
                               line := s.line.drop 1 } none
          else .stop s (some .BadTagSyntax)
      else if chr = ' ' then
        match buf_str 128 s.tag_name with
        | none => .undefined
        | some name =>
          if 0 < name.length then
            advance { s with tag := some (create_tag_from_string name none),
                             expected_token := .attr_name, offset := 0 }
          else .stop s (some .BadTagSyntax)
      else if chr = '!' then
        if 3 ≤ strlength s.line then
          if s.line.getD 1 NUL = '-' ∧ s.line.getD 2 NUL = '-' then
            .next { s with COMMENT_OPENED := true, line := s.line.drop 3 }
          else .stop s (some .BadCommentSyntax)
        else .stop s (some .BadCommentSyntax)
      else .stop s (some .BadTagSyntax)
    | .attr_name =>
      if chr.isAlpha then
        match buf_write 128 s.attr_name s.offset chr with
        | none => .undefined
        | some b => advance { s with attr_name := b, offset := s.offset + 1 }
      else if chr = '=' then
        match buf_str 128 s.attr_name with
        | none => .undefined
        | some name =>
          if 0 < name.length then
            advance { s with expected_token := .attr_value_open, offset := 0 }
          else .stop s (some .BadTagSyntax)
      else .stop s (some .BadTagSyntax)
    | .attr_value_open =>
      if chr = DQUOTE then advance { s with expected_token := .attr_value }
      else .stop s (some .MissingAttributeQuote)
    | .attr_value =>
      if chr.isAlphanum ∨ char_in VALID_ATTR_SPECIAL_CHARS chr then
        match buf_write 128 s.attr_value s.offset chr with
        | none => .undefined
        | some b => advance { s with attr_value := b, offset := s.offset + 1 }
      else if chr = DQUOTE then
        match buf_str 128 s.attr_name, buf_str 128 s.attr_value with
        | some name, some value =>
          advance { s with expected_token := .attr_separator_or_close_tag, offset := 0,
                           tag := s.tag.map (fun t => add_attribute t (create_attribute name value)),
                           attr_name := [], attr_value := [] }
        | _, _ => .undefined
      else .stop s (some .BadTagSyntax)
    | .attr_separator_or_close_tag =>
      if chr = ' ' then
        advance { s with expected_token := .attr_name, attr_name := [], attr_value := [] }
      else if chr = '>' then .stop { s with line := s.line.drop 1 } none
      else .stop s (some .BadTagSyntax)

/-- What `next_tag` hands back: the returned tag (`none` is the null pointer),
the new value of `*line_ptr` and the new value of `COMMENT_OPENED`. -/
structure Token where
  tag : Option HTMLTag
  line : List Char
  COMMENT_OPENED : Bool

/-- The `while` loop of `next_tag` and the code after it, with a bound on the
number of passes. -/
def next_tag_loop : Nat → State → Outcome Token
  | 0, _ => .fuel
  | n + 1, s =>
    if s.line.headD NUL = EOF_BYTE ∨ s.line.headD NUL = NL then
      .ok ⟨s.tag, s.line, s.COMMENT_OPENED⟩
    else
      match step s with
      | .next s1 => next_tag_loop n s1
      | .stop s1 none => .ok ⟨s1.tag, s1.line, s1.COMMENT_OPENED⟩
      | .stop _ (some e) => .exit e
      | .undefined => .undefined

/-- The values of the local variables when the loop of `next_tag` starts. -/
def init (line : List Char) (comment : Bool) : State :=
  { expected_token := .open_tag, attr_name := [], attr_value := [], tag := none,
    tag_name := [], tag_content := [], line := line, offset := 0,
    COMMENT_OPENED := comment }

/-- Function `next_tag`, from the line `*line_ptr` and the value of
`COMMENT_OPENED`.  Every pass that goes on moves the pointer forward, so the
bound is never used up. -/
def next_tag (line : List Char) (comment : Bool) : Outcome Token :=
  next_tag_loop (line.length + 1) (init line comment)

/-! ## The tree builder `parse_tags` -/

/-- The chain of tests of `parse_tags` on a tag returned by `next_tag`. -/
def handle_tag (current_tag : List HTMLTag) (tag : HTMLTag) : Outcome (List HTMLTag) :=
  match current_tag with
  | [] =>
    (is_opening_tag tag).bind fun o =>
      if o then .ok [tag]
      else (is_closing_tag tag).bind fun c =>
        if c then .exit .UnmatchedClose
        else .ok []
  | cur :: parents =>
    (is_opening_tag tag).bind fun o =>
      if o then .ok (tag :: cur :: parents)
      else (is_non_closing_tag tag).bind fun n =>
        if n then .ok (add_child cur tag :: parents)
        else (is_closing_tag tag).bind fun c =>
          if c then
            match open_close_tags_match cur.name tag.name with
            | none => .undefined
            | some true =>
              match parents with
              | [] => .ok [cur]
              | parent :: rest =>
                let closed : HTMLTag :=
                  match tag.content with
                  | some text => .mk cur.name (some text) cur.attributes cur.children
                  | none => cur
                .ok (add_child parent closed :: rest)
            | some false => .exit .TagMismatch
          else .ok (cur :: parents)

/-- The builder between two tokens: `current_tag` with its parent chain and
the flag `COMMENT_OPENED`. -/
structure Builder where
  current_tag : List HTMLTag
  COMMENT_OPENED : Bool

/-- The inner loop `while (*line)` of `parse_tags`, with a bound on the number
of passes. -/
def line_loop : Nat → List Char → Builder → Outcome Builder
  | 0, _, _ => .fuel
  | n + 1, line, b =>
    if line.headD NUL = NUL then .ok b
    else
      match next_tag line b.COMMENT_OPENED with
      | .ok ⟨none, _, comment⟩ => .ok ⟨b.current_tag, comment⟩
      | .ok ⟨some tag, rest, comment⟩ =>
        match handle_tag b.current_tag tag with
        | .ok cur => line_loop n rest ⟨cur, comment⟩
        | .exit e => .exit e
        | .undefined => .undefined
        | .fuel => .fuel
      | .exit e => .exit e
      | .undefined => .undefined
      | .fuel => .fuel

/-- The outer loop of `parse_tags` and the code after it, with a bound on the
number of lines.  After the last line `print_all_tags` reads
`current_tag->name`, and `current_tag` is returned. -/
def stream_loop : Nat → List Char → Builder → Outcome (List HTMLTag)
  | 0, _, _ => .fuel
  | n + 1, stream, b =>
    match readline stream with
    | none =>
      match b.current_tag with
      | [] => .undefined
      | cur :: parents => .ok (cur :: parents)
    | some (line, rest) =>
      match line_loop (line.length + 1) line b with
      | .ok b1 => stream_loop n rest b1
      | .exit e => .exit e
      | .undefined => .undefined
      | .fuel => .fuel

/-- Function `parse_tags` on the bytes of the stream, called with
`COMMENT_OPENED` at its initial value.  The result is the returned tag
followed by its parent chain. -/
def parse_tags (stream : List Char) : Outcome (List HTMLTag) :=
  stream_loop (stream.length + 1) stream ⟨[], false⟩


/-! ## Vocabulary of the specification -/

/-- The allowed tag names as the specification lists them. -/
def vocabulary : List (List Char) :=
  [ "body".toList, "form".toList, "input".toList, "p".toList, "span".toList,
    "div".toList, "a".toList, "strong".toList, "section".toList,
    "h1".toList, "h2".toList, "h3".toList, "h4".toList, "h5".toList, "h6".toList,
    "button".toList, "br".toList, "img".toList, "ul".toList, "ol".toList,
    "li".toList ]

/-- The void names as the specification lists them. -/
def void_names : List (List Char) :=
  [ "br".toList, "img".toList, "input".toList ]

/-- A name with one leading slash removed when it starts with a slash. -/
def strip_slash : List Char → List Char
  | '/' :: rest => rest
  | name => name

/-! ## The loops at their own bound -/

/-- The loop of `next_tag` from a state, bounded by what is left of the line. -/
def run (s : State) : Outcome Token :=
  next_tag_loop (s.line.length + 1) s

/-- The inner loop of `parse_tags` on a line, bounded by the line's length. -/
def run_line (line : List Char) (b : Builder) : Outcome Builder :=
  line_loop (line.length + 1) line b

/-- The outer loop of `parse_tags`, bounded by the length of the stream. -/
def run_stream (stream : List Char) (b : Builder) : Outcome (List HTMLTag) :=
  stream_loop (stream.length + 1) stream b

/-! ## Shapes of input used by the properties -/

/-- A character of a tag name: alphanumeric or the slash. -/
def name_char (c : Char) : Bool :=
  c.isAlphanum || c == '/'

/-- A character of an attribute value: alphanumeric or one of the listed
punctuation characters (the space included). -/
def value_char (c : Char) : Bool :=
  c.isAlphanum ||
    (['%', '?', '!', '#', '$', '&', SQUOTE, '=', '(', ')', '*', '+', ',', '-',
      '.', '/', ':', ';', '[', ']', ' '] : List Char).contains c

/-- A text without its leading spaces. -/
def strip_spaces (t : List Char) : List Char :=
  t.dropWhile (fun c => c == ' ')

/-- The text of one attribute after a tag name: a space, the name, the equals
sign and the value between double quotes. -/
def attr_text (a : Attribute) : List Char :=
  ' ' :: a.name ++ '=' :: DQUOTE :: a.value ++ [DQUOTE]

/-- The text of a list of attributes. -/
def attrs_text : List Attribute → List Char
  | [] => []
  | a :: rest => attr_text a ++ attrs_text rest

/-- An attribute that fits the syntax and the buffers of `next_tag`: a
non-empty alphabetic name and a value of value characters, both shorter than
the 128 bytes of their buffers. -/
def attr_ok (a : Attribute) : Prop :=
  a.name ≠ [] ∧ (∀ c ∈ a.name, c.isAlpha = true) ∧ a.name.length < 128 ∧
    (∀ c ∈ a.value, value_char c = true) ∧ a.value.length < 128

instance (a : Attribute) : Decidable (attr_ok a) := by
  unfold attr_ok
  infer_instance

/-- The values `current_tag` can take between two tokens: the null pointer at
the start, and what the chain of tests of `parse_tags` makes of a reachable
value and a token. -/
inductive Reachable : List HTMLTag → Prop where
  | start : Reachable []
  | token (s s1 : List HTMLTag) (tag : HTMLTag) :
      Reachable s → handle_tag s tag = .ok s1 → Reachable s1

/-- The first tag that `next_tag` returns on the stream, read with the given
value of `COMMENT_OPENED`, is classified `closing`: the calls before it
returned no tag (each of them ends its line), or their line started with NUL. -/
inductive FirstTokenClosing : List Char → Bool → Prop where
  | here (stream line more rest : List Char) (comment c : Bool) (tag : HTMLTag) :
      readline stream = some (line, more) → line.headD NUL ≠ NUL →
      next_tag line comment = .ok ⟨some tag, rest, c⟩ →
      get_tag_type tag = .ok .closing → FirstTokenClosing stream comment
  | no_tag (stream line more rest : List Char) (comment c : Bool) :
      readline stream = some (line, more) → line.headD NUL ≠ NUL →
      next_tag line comment = .ok ⟨none, rest, c⟩ →
      FirstTokenClosing more c → FirstTokenClosing stream comment
  | no_call (stream line more : List Char) (comment : Bool) :
      readline stream = some (line, more) → line.headD NUL = NUL →
      FirstTokenClosing more comment → FirstTokenClosing stream comment

/-! ## Documents of the specification -/

/-- A finite tree of tag names, the children in document order. -/
inductive Node where
  | node (name : List Char) (children : List Node)

mutual
/-- The text of a tree on one line: a node with a void name is written as its
opening tag alone, every other node as its opening tag, its children and its
closing tag. -/
def render : Node → List Char
  | .node n cs =>
    if n ∈ void_names then '<' :: (n ++ ['>'])
    else '<' :: (n ++ '>' :: (render_list cs ++ '<' :: '/' :: (n ++ ['>'])))
/-- The text of a list of trees. -/
def render_list : List Node → List Char
  | [] => []
  | t :: ts => render t ++ render_list ts
end

mutual
/-- A tree whose void-named nodes are leaves and whose other nodes carry
vocabulary names. -/
def well_formed : Node → Bool
  | .node n cs =>
    if n ∈ void_names then cs.isEmpty
    else decide (n ∈ vocabulary) && well_formed_list cs
/-- Every tree of a list is well formed. -/
def well_formed_list : List Node → Bool
  | [] => true
  | t :: ts => well_formed t && well_formed_list ts
end

mutual
/-- The names of a tag and of its descendants, in the order of `children`. -/
def names_of : HTMLTag → Node
  | .mk n _ _ cs => .node n (names_of_list cs)
/-- The names of a list of tags and of their descendants. -/
def names_of_list : List HTMLTag → List Node
  | [] => []
  | t :: ts => names_of t :: names_of_list ts
end

mutual
/-- The tag that the builder makes of a tree below the root: no attributes,
content none for a void leaf and the empty string for a closed element. -/
def built : Node → HTMLTag
  | .node n cs =>
    if n ∈ void_names then .mk n none [] []
    else .mk n (some []) [] (built_list cs)
/-- The tags that the builder makes of a list of trees. -/
def built_list : List Node → List HTMLTag
  | [] => []
  | t :: ts => built t :: built_list ts
end

mutual
/-- Neither the tag nor a tag below it is classified `closing`. -/
def closing_free : HTMLTag → Bool
  | .mk n c a cs =>
    decide (get_tag_type (.mk n c a cs) ≠ .ok .closing) && closing_free_list cs
/-- No tag of the list, and no tag below one, is classified `closing`. -/
def closing_free_list : List HTMLTag → Bool
  | [] => true
  | t :: ts => closing_free t && closing_free_list ts
end

/-- A line that ends with the newline character, as `readline` returns it
for every line but an unterminated last one. -/
def newline_terminated (line : List Char) : Prop :=
  ∃ body : List Char, line = body ++ [NL]

/-- A well-formed token: a non-empty name of name characters, no children,
and attributes with non-empty alphabetic names and values of value
characters. -/
def token_ok (t : HTMLTag) : Prop :=
  t.name ≠ [] ∧ (∀ c ∈ t.name, name_char c = true) ∧ t.children = [] ∧
    ∀ a ∈ t.attributes, a.name ≠ [] ∧ (∀ c ∈ a.name, c.isAlpha = true) ∧
      (∀ c ∈ a.value, value_char c = true)

/-- What holds of the local variables of `next_tag` at every pass of its
loop: the three name and value buffers hold only characters of their kind (or
NUL), the tag in progress is a well-formed token, and while a value is
expected or read the attribute name in its buffer is not empty. -/
def scan_ok (s : State) : Prop :=
  (∀ c ∈ s.tag_name, name_char c = true ∨ c = NUL) ∧
  (∀ c ∈ s.attr_name, c.isAlpha = true ∨ c = NUL) ∧
  (∀ c ∈ s.attr_value, value_char c = true ∨ c = NUL) ∧
  (∀ t, s.tag = some t → token_ok t) ∧
  (s.expected_token = .attr_value_open ∨ s.expected_token = .attr_value →
    s.attr_name.headD NUL ≠ NUL)

/-! ## Lemmas on the utilities -/

theorem str_in_arr_eq_decide (str : List Char) (arr : List (List Char)) :
    str_in_arr str arr = decide (str ∈ arr) := by
  induction arr with
  | nil => simp [str_in_arr]
  | cons a arr ih =>
    by_cases h : str = a
    · simp [str_in_arr, strequals, h]
    · simp [str_in_arr, strequals, h, ih]

theorem remove_chr_head (c : Char) (rest : List Char) :
    remove_chr (c :: rest) c = some rest := by
  simp [remove_chr]

theorem is_valid_tag_eq (tag : HTMLTag) :
    is_valid_tag tag = .ok (decide (strip_slash tag.name ∈ valid_tags)) := by
  unfold is_valid_tag
  cases hn : tag.name with
  | nil => simp [strip_slash, str_in_arr_eq_decide]
  | cons c rest =>
    by_cases hc : c = '/'
    · subst hc
      simp [remove_chr_head, strip_slash, str_in_arr_eq_decide]
    · have hs : strip_slash (c :: rest) = c :: rest := by
        unfold strip_slash
        split
        · rename_i h; injection h with h1 _; exact absurd h1 hc
        · rfl
      simp [hc, hs, str_in_arr_eq_decide]

/-! ## Properties -/

/-- C1: `is_valid_tag` returns true exactly when the name, with one leading
slash removed when it starts with one, is one of the 21 names of the
vocabulary; every vocabulary name is accepted with and without the slash, and
the names DIV, spon, section/, stro/ng and //div are rejected. -/
theorem is_valid_tag_vocabulary :
    (∀ tag : HTMLTag,
      is_valid_tag tag = .ok (decide (strip_slash tag.name ∈ vocabulary))) ∧
    vocabulary.length = 21 ∧
    (∀ t ∈ vocabulary, ∀ content attrs children,
      is_valid_tag (.mk t content attrs children) = .ok true ∧
      is_valid_tag (.mk ('/' :: t) content attrs children) = .ok true) ∧
    (∀ content attrs children,
      is_valid_tag (.mk "DIV".toList content attrs children) = .ok false ∧
      is_valid_tag (.mk "spon".toList content attrs children) = .ok false ∧
      is_valid_tag (.mk "section/".toList content attrs children) = .ok false ∧
      is_valid_tag (.mk "stro/ng".toList content attrs children) = .ok false ∧
      is_valid_tag (.mk "//div".toList content attrs children) = .ok false) := by
  have hv : vocabulary = valid_tags := rfl
  refine ⟨fun tag => by rw [hv]; exact is_valid_tag_eq tag, rfl, ?_, ?_⟩
  · intro t ht content attrs children
    rw [hv] at ht
    constructor
    · rw [is_valid_tag_eq]
      have : strip_slash t = t :=
        (by decide : ∀ u ∈ valid_tags, strip_slash u = u) t ht
      simp [HTMLTag.name, this, ht]
    · rw [is_valid_tag_eq]
      simp [HTMLTag.name, strip_slash, ht]
  · intro content attrs children
    exact ⟨rfl, rfl, rfl, rfl, rfl⟩

theorem get_tag_type_eq (tag : HTMLTag) :
    get_tag_type tag =
      if strip_slash tag.name ∈ vocabulary then
        if tag.name ∈ void_names then .ok .non_closing
        else if tag.name.head? = some '/' then .ok .closing
        else .ok .opening
      else .exit .InvalidTag := by
  have hv : vocabulary = valid_tags := rfl
  have hn : void_names = non_closing_tags := rfl
  unfold get_tag_type
  rw [is_valid_tag_eq, hv, hn]
  by_cases h : strip_slash tag.name ∈ valid_tags
  · simp [Outcome.bind, h, str_in_arr_eq_decide]
  · simp [Outcome.bind, h]

/-- C2: `get_tag_type` is a total decision on the name: the fatal InvalidTag
error exactly when `is_valid_tag` fails; otherwise `non_closing` for br, img,
input, else `closing` for a name that starts with a slash, else `opening`.
For every valid name exactly one of `is_opening_tag`, `is_closing_tag` and
`is_non_closing_tag` holds. -/
theorem get_tag_type_decision :
    (∀ tag : HTMLTag,
      get_tag_type tag =
        if strip_slash tag.name ∈ vocabulary then
          if tag.name ∈ void_names then .ok .non_closing
          else if tag.name.head? = some '/' then .ok .closing
          else .ok .opening
        else .exit .InvalidTag) ∧
    (∀ tag : HTMLTag,
      get_tag_type tag = .exit .InvalidTag ↔ is_valid_tag tag = .ok false) ∧
    (∀ tag : HTMLTag, is_valid_tag tag = .ok true →
      (is_opening_tag tag = .ok true ∧ is_closing_tag tag = .ok false ∧
          is_non_closing_tag tag = .ok false) ∨
      (is_opening_tag tag = .ok false ∧ is_closing_tag tag = .ok true ∧
          is_non_closing_tag tag = .ok false) ∨
      (is_opening_tag tag = .ok false ∧ is_closing_tag tag = .ok false ∧
          is_non_closing_tag tag = .ok true)) := by
  have hv : vocabulary = valid_tags := rfl
  refine ⟨get_tag_type_eq, ?_, ?_⟩
  · intro tag
    rw [get_tag_type_eq, is_valid_tag_eq, hv]
    by_cases h : strip_slash tag.name ∈ valid_tags
    · simp only [h, if_true, decide_True]
      constructor
      · intro h1; split_ifs at h1
      · intro h1; cases h1
    · simp [h]
  · intro tag hvalid
    rw [is_valid_tag_eq] at hvalid
    have h : strip_slash tag.name ∈ vocabulary := by
      rw [hv]; simpa using hvalid
    unfold is_opening_tag is_closing_tag is_non_closing_tag
    rw [get_tag_type_eq]
    simp only [h, if_true]
    by_cases h1 : tag.name ∈ void_names
    · simp [h1, Outcome.bind]
    · by_cases h2 : tag.name.head? = some '/'
      · simp [h1, h2, Outcome.bind]
      · simp [h1, h2, Outcome.bind]

/-- Witness for C2 at the names div, /div and br. -/
theorem get_tag_type_decision_witness :
    (get_tag_type (.mk "div".toList none [] []) = .ok .opening ∧
      get_tag_type (.mk "/div".toList none [] []) = .ok .closing ∧
      get_tag_type (.mk "br".toList none [] []) = .ok .non_closing ∧
      get_tag_type (.mk "/br".toList none [] []) = .ok .closing ∧
      get_tag_type (.mk "dib".toList none [] []) = .exit .InvalidTag) ∧
    ((is_opening_tag (.mk "div".toList none [] []) = .ok true ∧
        is_closing_tag (.mk "div".toList none [] []) = .ok false ∧
        is_non_closing_tag (.mk "div".toList none [] []) = .ok false) ∨
      (is_opening_tag (.mk "div".toList none [] []) = .ok false ∧
        is_closing_tag (.mk "div".toList none [] []) = .ok true ∧
        is_non_closing_tag (.mk "div".toList none [] []) = .ok false) ∨
      (is_opening_tag (.mk "div".toList none [] []) = .ok false ∧
        is_closing_tag (.mk "div".toList none [] []) = .ok false ∧
        is_non_closing_tag (.mk "div".toList none [] []) = .ok true)) :=
  ⟨⟨rfl, rfl, rfl, rfl, rfl⟩,
    get_tag_type_decision.2.2 (.mk "div".toList none [] []) rfl⟩

/-! ## Termination of the scanning loop -/

theorem strlength_le (l : List Char) : strlength l ≤ l.length := by
  unfold strlength
  induction l with
  | nil => simp
  | cons a l ih =>
    simp only [List.takeWhile_cons]
    split
    · simp only [List.length_cons]; omega
    · simp

theorem advance_next {s s1 : State} (h : advance s = .next s1) :
    s1.line.length < s.line.length := by
  unfold advance at h
  split at h
  · cases h
  · rename_i hl
    injection h with h
    subst h
    simp [hl]

theorem drop3_lt {l : List Char} (h : 3 ≤ strlength l) : (l.drop 3).length < l.length := by
  have := strlength_le l
  simp only [List.length_drop]
  omega

theorem step_next_lt {s s1 : State} (h : step s = .next s1) :
    s1.line.length < s.line.length := by
  unfold step at h
  simp only at h
  repeat' split at h
  all_goals first
    | cases h; done
    | (have h2 := advance_next h; exact h2)
    | (injection h with h; subst h; simp only; apply drop3_lt; tauto)

theorem step_stop_lt {s s1 : State} (h : step s = .stop s1 none) :
    s1.line.length < s.line.length := by
  have hgt : s.line.headD NUL = '>' → (s.line.drop 1).length < s.line.length := by
    intro hc
    cases hl : s.line with
    | nil => rw [hl] at hc; exact absurd hc (by decide)
    | cons a l => simp
  unfold step at h
  simp only at h
  repeat' split at h
  all_goals first
    | cases h; done
    | (unfold advance at h; split at h <;> cases h)
    | (injection h with h _; subst h; simp only; apply hgt; assumption)

theorem next_tag_loop_irrel (n : Nat) :
    ∀ s : State, s.line.length < n →
      next_tag_loop n s = next_tag_loop (s.line.length + 1) s := by
  induction n using Nat.strong_induction_on with
  | _ n ih =>
    intro s hs
    cases n with
    | zero => omega
    | succ n =>
      by_cases heq : s.line.length = n
      · rw [heq]
      · have hlt : s.line.length < n := by omega
        unfold next_tag_loop
        split
        · rfl
        · cases hstep : step s with
          | next s1 =>
            have h1 := step_next_lt hstep
            simp only
            rw [ih n (by omega) s1 (by omega), ih s.line.length (by omega) s1 h1]
          | stop s1 e => cases e <;> rfl
          | undefined => rfl

theorem run_eq (s : State) :
    run s =
      if s.line.headD NUL = EOF_BYTE ∨ s.line.headD NUL = NL then
        .ok ⟨s.tag, s.line, s.COMMENT_OPENED⟩
      else
        match step s with
        | .next s1 => run s1
        | .stop s1 none => .ok ⟨s1.tag, s1.line, s1.COMMENT_OPENED⟩
        | .stop _ (some e) => .exit e
        | .undefined => .undefined := by
  unfold run
  conv => lhs; unfold next_tag_loop
  split
  · rfl
  · cases hstep : step s with
    | next s1 =>
      simp only
      exact next_tag_loop_irrel _ s1 (step_next_lt hstep)
    | stop s1 e => cases e <;> rfl
    | undefined => rfl

theorem next_tag_eq_run (line : List Char) (comment : Bool) :
    next_tag line comment = run (init line comment) := rfl

theorem run_ne_fuel (s : State) : run s ≠ .fuel := by
  generalize hn : s.line.length = n
  induction n using Nat.strong_induction_on generalizing s with
  | _ n ih =>
    rw [run_eq]
    split
    · simp
    · cases hstep : step s with
      | next s1 =>
        simp only
        exact ih _ (by have := step_next_lt hstep; omega) s1 rfl
      | stop s1 e => cases e <;> simp
      | undefined => simp

theorem run_cursor (s : State) :
    ∀ tok, run s = .ok tok →
      tok.line.length ≤ s.line.length ∧
        (tok.line.length = s.line.length → tok.tag = s.tag) := by
  generalize hn : s.line.length = n
  induction n using Nat.strong_induction_on generalizing s with
  | _ n ih =>
    intro tok h
    rw [run_eq] at h
    split at h
    · injection h with h; subst h; simp [hn]
    · cases hstep : step s with
      | next s1 =>
        rw [hstep] at h
        simp only at h
        have h1 := step_next_lt hstep
        have := (ih _ (by omega) s1 rfl tok h).1
        constructor <;> intros <;> omega
      | stop s1 e =>
        rw [hstep] at h
        cases e with
        | none =>
          simp only at h
          injection h with h; subst h
          have h1 := step_stop_lt hstep
          simp only
          constructor <;> intros <;> omega
        | some e => simp at h
      | undefined => rw [hstep] at h; simp at h

theorem next_tag_cursor {line : List Char} {comment : Bool} {tag : HTMLTag}
    {rest : List Char} {c : Bool}
    (h : next_tag line comment = .ok ⟨some tag, rest, c⟩) :
    rest.length < line.length := by
  have h1 := run_cursor (init line comment) _ h
  simp only [init] at h1
  rcases Nat.lt_or_ge rest.length line.length with h2 | h2
  · exact h2
  · have := h1.2 (by omega)
    simp at this

theorem line_loop_irrel (n : Nat) :
    ∀ (line : List Char) (b : Builder), line.length < n →
      line_loop n line b = line_loop (line.length + 1) line b := by
  induction n using Nat.strong_induction_on with
  | _ n ih =>
    intro line b hs
    cases n with
    | zero => omega
    | succ n =>
      by_cases heq : line.length = n
      · rw [heq]
      · have hlt : line.length < n := by omega
        unfold line_loop
        split
        · rfl
        · cases htok : next_tag line b.COMMENT_OPENED with
          | ok tok =>
            obtain ⟨tag, rest, c⟩ := tok
            cases tag with
            | none => rfl
            | some tag =>
              have h1 := next_tag_cursor htok
              simp only
              cases handle_tag b.current_tag tag with
              | ok cur =>
                simp only
                rw [ih n (by omega) rest _ (by omega), ih line.length (by omega) rest _ h1]
              | exit e => rfl
              | undefined => rfl
              | fuel => rfl
          | exit e => rfl
          | undefined => rfl
          | fuel => rfl

theorem run_line_eq (line : List Char) (b : Builder) :
    run_line line b =
      if line.headD NUL = NUL then .ok b
      else
        match next_tag line b.COMMENT_OPENED with
        | .ok ⟨none, _, comment⟩ => .ok ⟨b.current_tag, comment⟩
        | .ok ⟨some tag, rest, comment⟩ =>
          match handle_tag b.current_tag tag with
          | .ok cur => run_line rest ⟨cur, comment⟩
          | .exit e => .exit e
          | .undefined => .undefined
          | .fuel => .fuel
        | .exit e => .exit e
        | .undefined => .undefined
        | .fuel => .fuel := by
  unfold run_line
  conv => lhs; unfold line_loop
  split
  · rfl
  · cases htok : next_tag line b.COMMENT_OPENED with
    | ok tok =>
      obtain ⟨tag, rest, c⟩ := tok
      cases tag with
      | none => rfl
      | some tag =>
        have h1 := next_tag_cursor htok
        simp only
        cases handle_tag b.current_tag tag with
        | ok cur =>
          simp only
          exact line_loop_irrel _ rest _ h1
        | exit e => rfl
        | undefined => rfl
        | fuel => rfl
    | exit e => rfl
    | undefined => rfl
    | fuel => rfl

theorem readline_split {stream line rest : List Char}
    (h : readline stream = some (line, rest)) :
    stream = line ++ rest ∧ line ≠ [] := by
  unfold readline at h
  simp only at h
  have hsplit := List.takeWhile_append_dropWhile (fun c => c != NL) stream
  have hdrop : stream.drop (stream.takeWhile (fun c => c != NL)).length
      = stream.dropWhile (fun c => c != NL) := by
    conv => lhs; arg 2; rw [← hsplit]
    rw [List.drop_left]
  rw [hdrop] at h
  split at h
  · rename_i hd
    split at h
    · cases h
    · injection h with h
      injection h with h1 h2
      subst h1 h2
      rw [hd] at hsplit
      rename_i hne
      exact ⟨hsplit.symm, hne⟩
  · rename_i c r hd
    injection h with h
    injection h with h1 h2
    subst h1 h2
    rw [hd] at hsplit
    exact ⟨by conv => lhs; rw [← hsplit]
              simp, by simp⟩

theorem readline_lt {stream line rest : List Char}
    (h : readline stream = some (line, rest)) : rest.length < stream.length := by
  obtain ⟨h1, h2⟩ := readline_split h
  subst h1
  have : 0 < line.length := List.length_pos.mpr h2
  simp only [List.length_append]
  omega

theorem stream_loop_irrel (n : Nat) :
    ∀ (stream : List Char) (b : Builder), stream.length < n →
      stream_loop n stream b = stream_loop (stream.length + 1) stream b := by
  induction n using Nat.strong_induction_on with
  | _ n ih =>
    intro stream b hs
    cases n with
    | zero => omega
    | succ n =>
      by_cases heq : stream.length = n
      · rw [heq]
      · have hlt : stream.length < n := by omega
        unfold stream_loop
        cases hr : readline stream with
        | none => rfl
        | some p =>
          obtain ⟨line, rest⟩ := p
          have h1 := readline_lt hr
          simp only
          cases line_loop (line.length + 1) line b with
          | ok b1 =>
            simp only
            rw [ih n (by omega) rest _ (by omega), ih stream.length (by omega) rest _ h1]
          | exit e => rfl
          | undefined => rfl
          | fuel => rfl

theorem run_stream_eq (stream : List Char) (b : Builder) :
    run_stream stream b =
      match readline stream with
      | none =>
        match b.current_tag with
        | [] => .undefined
        | cur :: parents => .ok (cur :: parents)
      | some (line, rest) =>
        match run_line line b with
        | .ok b1 => run_stream rest b1
        | .exit e => .exit e
        | .undefined => .undefined
        | .fuel => .fuel := by
  unfold run_stream run_line
  conv => lhs; unfold stream_loop
  cases hr : readline stream with
  | none => rfl
  | some p =>
    obtain ⟨line, rest⟩ := p
    have h1 := readline_lt hr
    simp only
    cases line_loop (line.length + 1) line b with
    | ok b1 =>
      simp only
      exact stream_loop_irrel _ rest _ h1
    | exit e => rfl
    | undefined => rfl
    | fuel => rfl

theorem parse_tags_eq_run (stream : List Char) :
    parse_tags stream = run_stream stream ⟨[], false⟩ := rfl

/-! ## The tokenizer on a tag without attributes -/

theorem buf_write_end (cap : Nat) (buf : List Char) (c : Char) (h : buf.length < cap) :
    buf_write cap buf buf.length c = some (buf ++ [c]) := by
  simp [buf_write, h]

theorem buf_str_of_no_nul (cap : Nat) (buf : List Char) (h : buf.length < cap)
    (hn : ∀ c ∈ buf, c ≠ NUL) : buf_str cap buf = some buf := by
  have : buf.takeWhile (fun c => c != NUL) = buf := by
    rw [List.takeWhile_eq_self_iff]
    intro c hc
    simpa using hn c hc
  simp [buf_str, this, h]

theorem name_char_ne {c : Char} (h : name_char c = true) :
    c ≠ NL ∧ c ≠ NUL ∧ c ≠ '<' ∧ c ≠ '>' ∧ c ≠ ' ' := by
  refine ⟨?_, ?_, ?_, ?_, ?_⟩ <;> (intro hc; subst hc; revert h; decide)

theorem not_ends {c : Char} (h1 : c ≠ NL) (h2 : c ≠ EOF_BYTE) :
    ¬ (c = EOF_BYTE ∨ c = NL) :=
  fun h => h.elim h2 h1

theorem name_char_eof {c : Char} (h : name_char c = true) : c ≠ EOF_BYTE := by
  intro hc; subst hc; revert h; decide

/-- Text in front of a tag: the characters are stored one by one, the spaces
that come while nothing is stored yet are skipped. -/
theorem run_open_text (an av : List Char) (tag : Option HTMLTag) (tn : List Char)
    (t : List Char) :
    ∀ (tc rest : List Char),
      (∀ c ∈ t, c ≠ '<' ∧ c ≠ NL ∧ c ≠ NUL ∧ c ≠ EOF_BYTE) →
      (∀ c ∈ tc, c ≠ NUL) →
      (if tc = [] then strip_spaces t else tc ++ t).length < 1024 →
      run ⟨.open_tag, an, av, tag, tn, tc, t ++ rest, tc.length, false⟩ =
        run ⟨.open_tag, an, av, tag, tn,
          (if tc = [] then strip_spaces t else tc ++ t), rest,
          (if tc = [] then strip_spaces t else tc ++ t).length, false⟩ := by
  induction t with
  | nil =>
    intro tc rest _ _ _
    by_cases h : tc = [] <;> simp [h, strip_spaces]
  | cons c t ih =>
    intro tc rest ht htc hlen
    have hc := ht c (List.mem_cons_self _ _)
    have ht1 : ∀ c ∈ t, c ≠ '<' ∧ c ≠ NL ∧ c ≠ NUL ∧ c ≠ EOF_BYTE :=
      fun x hx => ht x (List.mem_cons_of_mem _ hx)
    rw [run_eq]
    by_cases hsp : c = ' ' ∧ tc = []
    · obtain ⟨h1, h2⟩ := hsp
      subst h1 h2
      have e : step ⟨.open_tag, an, av, tag, tn, [], ' ' :: t ++ rest, 0, false⟩ =
          .next ⟨.open_tag, an, av, tag, tn, [], t ++ rest, 0, false⟩ := by
        simp [step, advance, buf_str]
      simp only [List.cons_append, List.headD_cons, List.length_nil] at e ⊢
      rw [if_neg (by decide), e]
      simp only
      have := ih [] rest ht1 (by simp)
        (by simpa [strip_spaces] using hlen)
      simp only [List.length_nil, if_true] at this
      rw [this]
      simp [strip_spaces]
    · have hlen2 : (tc ++ c :: t).length < 1024 := by
        by_cases h2 : tc = []
        · subst h2
          have h1 : c ≠ ' ' := fun h => hsp ⟨h, rfl⟩
          simpa [strip_spaces, List.dropWhile_cons, h1] using hlen
        · simpa [h2] using hlen
      simp only [List.length_append, List.length_cons] at hlen2
      have hstr : buf_str 1024 tc = some tc := buf_str_of_no_nul _ _ (by omega) htc
      have e : step ⟨.open_tag, an, av, tag, tn, tc, c :: t ++ rest, tc.length, false⟩ =
          .next ⟨.open_tag, an, av, tag, tn, tc ++ [c], t ++ rest, (tc ++ [c]).length, false⟩ := by
        by_cases h1 : c = ' '
        · have h2 : tc ≠ [] := fun h => hsp ⟨h1, h⟩
          subst h1
          simp [step, advance, hstr, h2, buf_write_end 1024 tc ' ' (by omega)]
        · simp [step, advance, hc.1, h1, buf_write_end 1024 tc c (by omega)]
      simp only [List.cons_append, List.headD_cons] at e ⊢
      rw [if_neg (not_ends hc.2.1 hc.2.2.2), e]
      simp only
      have := ih (tc ++ [c]) rest ht1
        (by intro x hx; rcases List.mem_append.mp hx with h | h
            · exact htc x h
            · simp at h; subst h; exact hc.2.2.1)
        (by simp; omega)
      rw [this]
      have hne : tc ++ [c] ≠ [] := by simp
      simp only [hne, if_false, List.append_assoc, List.singleton_append]
      by_cases h2 : tc = []
      · subst h2
        have h1 : c ≠ ' ' := fun h => hsp ⟨h, rfl⟩
        simp [strip_spaces, List.dropWhile_cons, h1]
      · simp [h2]

theorem run_open_bracket (an av : List Char) (tag : Option HTMLTag) (tn tc rest : List Char)
    (off : Nat) :
    run ⟨.open_tag, an, av, tag, tn, tc, '<' :: rest, off, false⟩ =
      run ⟨.tag_name, an, av, tag, tn, tc, rest, 0, false⟩ := by
  rw [run_eq]
  have e : step ⟨.open_tag, an, av, tag, tn, tc, '<' :: rest, off, false⟩ =
      .next ⟨.tag_name, an, av, tag, tn, tc, rest, 0, false⟩ := by
    simp [step, advance]
  simp only [List.headD_cons]
  rw [if_neg (by decide), e]

/-- The characters of a tag name are stored one by one. -/
theorem run_name_chars (an av : List Char) (tag : Option HTMLTag) (tc : List Char)
    (w : List Char) :
    ∀ (tn rest : List Char),
      (∀ c ∈ w, name_char c = true) →
      (tn ++ w).length < 128 →
      run ⟨.tag_name, an, av, tag, tn, tc, w ++ rest, tn.length, false⟩ =
        run ⟨.tag_name, an, av, tag, tn ++ w, tc, rest, (tn ++ w).length, false⟩ := by
  induction w with
  | nil => intro tn rest _ _; simp
  | cons c w ih =>
    intro tn rest hw hlen
    have hc := hw c (List.mem_cons_self _ _)
    have hne := name_char_ne hc
    simp only [List.length_append, List.length_cons] at hlen
    rw [run_eq]
    have hc2 : c.isAlphanum = true ∨ c = '/' := by
      simpa [name_char] using hc
    have e : step ⟨.tag_name, an, av, tag, tn, tc, c :: w ++ rest, tn.length, false⟩ =
        .next ⟨.tag_name, an, av, tag, tn ++ [c], tc, w ++ rest, (tn ++ [c]).length, false⟩ := by
      simp [step, advance, hc2, buf_write_end 128 tn c (by omega)]
    simp only [List.cons_append, List.headD_cons] at e ⊢
    rw [if_neg (not_ends hne.1 (name_char_eof hc)), e]
    simp only
    rw [ih (tn ++ [c]) rest (fun x hx => hw x (List.mem_cons_of_mem _ hx)) (by simp; omega)]
    simp

/-- The closing bracket after a name: the tag is created and returned. -/
theorem run_name_close (an av : List Char) (tag : Option HTMLTag) (tn tc rest : List Char)
    (off : Nat) (hlen : tn.length < 128) (hpos : tn ≠ [])
    (hn : ∀ c ∈ tn, name_char c = true)
    (hclen : tc.length < 1024) (hc : ∀ c ∈ tc, c ≠ NUL) :
    run ⟨.tag_name, an, av, tag, tn, tc, '>' :: rest, off, false⟩ =
      .ok ⟨some (.mk tn (if tn.head? = some '/' then some tc else none) [] []),
        rest, false⟩ := by
  rw [run_eq]
  have hstr : buf_str 128 tn = some tn :=
    buf_str_of_no_nul _ _ hlen (fun c h => (name_char_ne (hn c h)).2.1)
  have hcs : buf_str 1024 tc = some tc := buf_str_of_no_nul _ _ hclen hc
  have hp : 0 < tn.length := List.length_pos.mpr hpos
  simp only [List.headD_cons]
  rw [if_neg (by decide)]
  by_cases hs : tn.head? = some '/'
  · have e : step ⟨.tag_name, an, av, tag, tn, tc, '>' :: rest, off, false⟩ =
        .stop ⟨.tag_name, an, av, some (.mk tn (some tc) [] []), tn, tc, rest, off, false⟩
          none := by
      simp [step, hstr, hcs, hp, hs, create_tag_from_string, hpos]
    rw [e]; simp [hs]
  · have e : step ⟨.tag_name, an, av, tag, tn, tc, '>' :: rest, off, false⟩ =
        .stop ⟨.tag_name, an, av, some (.mk tn none [] []), tn, tc, rest, off, false⟩
          none := by
      simp [step, hstr, hp, hs, create_tag_from_string, hpos]
    rw [e]; simp [hs]

/-- The tokenizer on text followed by a tag without attributes. -/
theorem next_tag_plain (t w rest : List Char)
    (ht : ∀ c ∈ t, c ≠ '<' ∧ c ≠ NL ∧ c ≠ NUL ∧ c ≠ EOF_BYTE)
    (htlen : (strip_spaces t).length < 1024)
    (hw : ∀ c ∈ w, name_char c = true) (hpos : w ≠ []) (hwlen : w.length < 128) :
    next_tag (t ++ '<' :: (w ++ '>' :: rest)) false =
      .ok ⟨some (.mk w (if w.head? = some '/' then some (strip_spaces t) else none) [] []),
        rest, false⟩ := by
  rw [next_tag_eq_run]
  unfold init
  have h1 := run_open_text [] [] none [] t [] ('<' :: (w ++ '>' :: rest)) ht (by simp)
    (by simpa using htlen)
  simp only [List.length_nil, if_true] at h1
  rw [h1, run_open_bracket]
  have h2 := run_name_chars [] [] none (strip_spaces t) w [] ('>' :: rest) hw (by simpa using hwlen)
  simp only [List.length_nil, List.nil_append] at h2
  rw [h2]
  apply run_name_close _ _ _ _ _ _ _ hwlen hpos hw htlen
  intro c hc
  have : c ∈ t := (List.dropWhile_sublist _).subset hc
  exact (ht c this).2.2.1

/-! ## The tokenizer on a tag with attributes -/

theorem char_in_eq_decide (str : List Char) (c : Char) :
    char_in str c = decide (c ∈ str) := by
  induction str with
  | nil => simp [char_in]
  | cons x str ih =>
    by_cases h : x = c
    · simp [char_in, h]
    · have h2 : ¬ c = x := fun e => h e.symm
      simp [char_in, h, h2, ih]

theorem value_char_code {c : Char} (h : value_char c = true) :
    c.isAlphanum = true ∨ char_in VALID_ATTR_SPECIAL_CHARS c = true := by
  rw [char_in_eq_decide]
  simp only [value_char, Bool.or_eq_true, List.contains_eq_any_beq, List.any_eq_true,
    beq_iff_eq] at h
  rcases h with h | ⟨x, hx, hxc⟩
  · exact Or.inl h
  · right
    subst hxc
    simp only [decide_eq_true_eq, VALID_ATTR_SPECIAL_CHARS]
    simp only [List.mem_cons, List.mem_singleton, List.not_mem_nil, or_false] at hx ⊢
    tauto

theorem value_char_ne {c : Char} (h : value_char c = true) :
    c ≠ NL ∧ c ≠ NUL ∧ c ≠ DQUOTE := by
  refine ⟨?_, ?_, ?_⟩ <;> (intro hc; subst hc; revert h; decide)

theorem alpha_ne {c : Char} (h : c.isAlpha = true) : c ≠ NL ∧ c ≠ NUL := by
  refine ⟨?_, ?_⟩ <;> (intro hc; subst hc; revert h; decide)

theorem alpha_eof {c : Char} (h : c.isAlpha = true) : c ≠ EOF_BYTE := by
  intro hc; subst hc; revert h; decide

theorem value_char_eof {c : Char} (h : value_char c = true) : c ≠ EOF_BYTE := by
  intro hc; subst hc; revert h; decide

/-- The space after a tag name: the tag is created and attribute names are
expected. -/
theorem run_name_space (an av : List Char) (tag : Option HTMLTag) (tn tc rest : List Char)
    (off : Nat) (hlen : tn.length < 128) (hpos : tn ≠ [])
    (hn : ∀ c ∈ tn, name_char c = true) :
    run ⟨.tag_name, an, av, tag, tn, tc, ' ' :: rest, off, false⟩ =
      run ⟨.attr_name, an, av, some (.mk tn none [] []), tn, tc, rest, 0, false⟩ := by
  rw [run_eq]
  have hstr : buf_str 128 tn = some tn :=
    buf_str_of_no_nul _ _ hlen (fun c h => (name_char_ne (hn c h)).2.1)
  have hp : 0 < tn.length := List.length_pos.mpr hpos
  have e : step ⟨.tag_name, an, av, tag, tn, tc, ' ' :: rest, off, false⟩ =
      .next ⟨.attr_name, an, av, some (.mk tn none [] []), tn, tc, rest, 0, false⟩ := by
    simp [step, advance, hstr, hp, create_tag_from_string, hpos]
  simp only [List.headD_cons]
  rw [if_neg (by decide), e]

/-- The letters of an attribute name are stored one by one. -/
theorem run_attr_name_chars (av : List Char) (tag : Option HTMLTag) (tn tc : List Char)
    (w : List Char) :
    ∀ (an rest : List Char),
      (∀ c ∈ w, c.isAlpha = true) →
      (an ++ w).length < 128 →
      run ⟨.attr_name, an, av, tag, tn, tc, w ++ rest, an.length, false⟩ =
        run ⟨.attr_name, an ++ w, av, tag, tn, tc, rest, (an ++ w).length, false⟩ := by
  induction w with
  | nil => intro an rest _ _; simp
  | cons c w ih =>
    intro an rest hw hlen
    have hc := hw c (List.mem_cons_self _ _)
    have hne := alpha_ne hc
    simp only [List.length_append, List.length_cons] at hlen
    rw [run_eq]
    have e : step ⟨.attr_name, an, av, tag, tn, tc, c :: w ++ rest, an.length, false⟩ =
        .next ⟨.attr_name, an ++ [c], av, tag, tn, tc, w ++ rest, (an ++ [c]).length, false⟩ := by
      simp [step, advance, hc, buf_write_end 128 an c (by omega)]
    simp only [List.cons_append, List.headD_cons] at e ⊢
    rw [if_neg (not_ends hne.1 (alpha_eof hc)), e]
    simp only
    rw [ih (an ++ [c]) rest (fun x hx => hw x (List.mem_cons_of_mem _ hx)) (by simp; omega)]
    simp

/-- The equals sign and the opening quote after an attribute name. -/
theorem run_attr_equals (an av : List Char) (tag : Option HTMLTag) (tn tc rest : List Char)
    (off : Nat) (hlen : an.length < 128) (hpos : an ≠ [])
    (hn : ∀ c ∈ an, c.isAlpha = true) :
    run ⟨.attr_name, an, av, tag, tn, tc, '=' :: DQUOTE :: rest, off, false⟩ =
      run ⟨.attr_value, an, av, tag, tn, tc, rest, 0, false⟩ := by
  have hstr : buf_str 128 an = some an :=
    buf_str_of_no_nul _ _ hlen (fun c h => (alpha_ne (hn c h)).2)
  have hp : 0 < an.length := List.length_pos.mpr hpos
  rw [run_eq]
  have e : step ⟨.attr_name, an, av, tag, tn, tc, '=' :: DQUOTE :: rest, off, false⟩ =
      .next ⟨.attr_value_open, an, av, tag, tn, tc, DQUOTE :: rest, 0, false⟩ := by
    simp [step, advance, hstr, hp, hpos]
  simp only [List.headD_cons]
  rw [if_neg (by decide), e]
  simp only
  rw [run_eq]
  have e2 : step ⟨.attr_value_open, an, av, tag, tn, tc, DQUOTE :: rest, 0, false⟩ =
      .next ⟨.attr_value, an, av, tag, tn, tc, rest, 0, false⟩ := by
    simp [step, advance]
  simp only [List.headD_cons]
  rw [if_neg (by decide), e2]

/-- The characters of an attribute value are stored one by one. -/
theorem run_attr_value_chars (an : List Char) (tag : Option HTMLTag) (tn tc : List Char)
    (w : List Char) :
    ∀ (av rest : List Char),
      (∀ c ∈ w, value_char c = true) →
      (av ++ w).length < 128 →
      run ⟨.attr_value, an, av, tag, tn, tc, w ++ rest, av.length, false⟩ =
        run ⟨.attr_value, an, av ++ w, tag, tn, tc, rest, (av ++ w).length, false⟩ := by
  induction w with
  | nil => intro av rest _ _; simp
  | cons c w ih =>
    intro av rest hw hlen
    have hc := hw c (List.mem_cons_self _ _)
    have hne := value_char_ne hc
    have hcode := value_char_code hc
    simp only [List.length_append, List.length_cons] at hlen
    rw [run_eq]
    have e : step ⟨.attr_value, an, av, tag, tn, tc, c :: w ++ rest, av.length, false⟩ =
        .next ⟨.attr_value, an, av ++ [c], tag, tn, tc, w ++ rest, (av ++ [c]).length, false⟩ := by
      simp [step, advance, hcode, buf_write_end 128 av c (by omega)]
    simp only [List.cons_append, List.headD_cons] at e ⊢
    rw [if_neg (not_ends hne.1 (value_char_eof hc)), e]
    simp only
    rw [ih (av ++ [c]) rest (fun x hx => hw x (List.mem_cons_of_mem _ hx)) (by simp; omega)]
    simp

/-- The closing quote of a value: the attribute is created and attached. -/
theorem run_attr_quote_close (an av : List Char) (tag : HTMLTag) (tn tc rest : List Char)
    (off : Nat) (hlen : an.length < 128) (hn : ∀ c ∈ an, c.isAlpha = true)
    (hvlen : av.length < 128) (hv : ∀ c ∈ av, value_char c = true) :
    run ⟨.attr_value, an, av, some tag, tn, tc, DQUOTE :: rest, off, false⟩ =
      run ⟨.attr_separator_or_close_tag, [], [], some (add_attribute tag ⟨an, av⟩), tn, tc,
        rest, 0, false⟩ := by
  have hstr : buf_str 128 an = some an :=
    buf_str_of_no_nul _ _ hlen (fun c h => (alpha_ne (hn c h)).2)
  have hvs : buf_str 128 av = some av :=
    buf_str_of_no_nul _ _ hvlen (fun c h => (value_char_ne (hv c h)).2.1)
  rw [run_eq]
  have e : step ⟨.attr_value, an, av, some tag, tn, tc, DQUOTE :: rest, off, false⟩ =
      .next ⟨.attr_separator_or_close_tag, [], [], some (add_attribute tag ⟨an, av⟩), tn, tc,
        rest, 0, false⟩ := by
    have h1 : ¬ (DQUOTE.isAlphanum = true ∨ char_in VALID_ATTR_SPECIAL_CHARS DQUOTE = true) := by
      decide
    simp only [step, List.headD_cons]
    simp [h1, advance, hstr, hvs, create_attribute]
  simp only [List.headD_cons]
  rw [if_neg (by decide), e]

/-- One attribute, from its name to its closing quote. -/
theorem run_attribute (tag : HTMLTag) (tn tc rest : List Char) (a : Attribute)
    (hn : ∀ c ∈ a.name, c.isAlpha = true) (hpos : a.name ≠ []) (hlen : a.name.length < 128)
    (hv : ∀ c ∈ a.value, value_char c = true) (hvlen : a.value.length < 128) :
    run ⟨.attr_name, [], [], some tag, tn, tc,
        a.name ++ '=' :: DQUOTE :: (a.value ++ DQUOTE :: rest), 0, false⟩ =
      run ⟨.attr_separator_or_close_tag, [], [], some (add_attribute tag a), tn, tc,
        rest, 0, false⟩ := by
  have h1 := run_attr_name_chars [] (some tag) tn tc a.name []
    ('=' :: DQUOTE :: (a.value ++ DQUOTE :: rest)) hn (by simpa using hlen)
  simp only [List.length_nil, List.nil_append] at h1
  rw [h1, run_attr_equals _ _ _ _ _ _ _ hlen hpos hn]
  have h2 := run_attr_value_chars a.name (some tag) tn tc a.value [] (DQUOTE :: rest) hv
    (by simpa using hvlen)
  simp only [List.length_nil, List.nil_append] at h2
  rw [h2, run_attr_quote_close _ _ _ _ _ _ _ hlen hn hvlen hv]

/-- The attributes that follow the first one, up to the closing bracket. -/
theorem run_attributes (tn tc rest : List Char) (attrs : List Attribute) :
    ∀ (tag : HTMLTag), (∀ a ∈ attrs, attr_ok a) →
      run ⟨.attr_separator_or_close_tag, [], [], some tag, tn, tc,
          attrs_text attrs ++ '>' :: rest, 0, false⟩ =
        .ok ⟨some (.mk tag.name tag.content (tag.attributes ++ attrs) tag.children),
          rest, false⟩ := by
  induction attrs with
  | nil =>
    intro tag _
    rw [run_eq]
    have e : step ⟨.attr_separator_or_close_tag, [], [], some tag, tn, tc, '>' :: rest, 0, false⟩ =
        .stop ⟨.attr_separator_or_close_tag, [], [], some tag, tn, tc, rest, 0, false⟩ none := by
      simp [step]
    simp only [attrs_text, List.nil_append, List.headD_cons]
    rw [if_neg (by decide), e]
    cases tag
    simp [HTMLTag.name, HTMLTag.content, HTMLTag.attributes, HTMLTag.children]
  | cons a attrs ih =>
    intro tag h
    obtain ⟨hpos, hn, hlen, hv, hvlen⟩ := h a (List.mem_cons_self _ _)
    have hline : attrs_text (a :: attrs) ++ '>' :: rest =
        ' ' :: (a.name ++ '=' :: DQUOTE :: (a.value ++ DQUOTE :: (attrs_text attrs ++ '>' :: rest))) := by
      simp [attrs_text, attr_text]
    rw [hline, run_eq]
    have e : step ⟨.attr_separator_or_close_tag, [], [], some tag, tn, tc,
        ' ' :: (a.name ++ '=' :: DQUOTE :: (a.value ++ DQUOTE :: (attrs_text attrs ++ '>' :: rest))),
        0, false⟩ =
        .next ⟨.attr_name, [], [], some tag, tn, tc,
          a.name ++ '=' :: DQUOTE :: (a.value ++ DQUOTE :: (attrs_text attrs ++ '>' :: rest)),
          0, false⟩ := by
      simp [step, advance]
    simp only [List.headD_cons]
    rw [if_neg (by decide), e]
    simp only
    rw [run_attribute tag tn tc _ a hn hpos hlen hv hvlen,
      ih (add_attribute tag a) (fun x hx => h x (List.mem_cons_of_mem _ hx))]
    cases tag
    simp [add_attribute, HTMLTag.name, HTMLTag.content, HTMLTag.attributes, HTMLTag.children]

/-- The tokenizer on a tag with at least one attribute. -/
theorem next_tag_attrs (w rest : List Char) (attrs : List Attribute)
    (hw : ∀ c ∈ w, name_char c = true) (hpos : w ≠ []) (hwlen : w.length < 128)
    (hk : attrs ≠ []) (ha : ∀ a ∈ attrs, attr_ok a) :
    next_tag ('<' :: (w ++ (attrs_text attrs ++ '>' :: rest))) false =
      .ok ⟨some (.mk w none attrs []), rest, false⟩ := by
  cases attrs with
  | nil => exact absurd rfl hk
  | cons a attrs =>
    obtain ⟨hapos, hn, hlen, hv, hvlen⟩ := ha a (List.mem_cons_self _ _)
    have hline : attrs_text (a :: attrs) ++ '>' :: rest =
        ' ' :: (a.name ++ '=' :: DQUOTE :: (a.value ++ DQUOTE :: (attrs_text attrs ++ '>' :: rest))) := by
      simp [attrs_text, attr_text]
    rw [next_tag_eq_run, hline]
    unfold init
    rw [run_open_bracket]
    have h2 := run_name_chars [] [] none [] w [] (' ' :: (a.name ++ '=' :: DQUOTE ::
      (a.value ++ DQUOTE :: (attrs_text attrs ++ '>' :: rest)))) hw (by simpa using hwlen)
    simp only [List.length_nil, List.nil_append] at h2
    rw [h2, run_name_space _ _ _ _ _ _ _ hwlen hpos hw,
      run_attribute _ _ _ _ a hn hapos hlen hv hvlen,
      run_attributes _ _ _ attrs _ (fun x hx => ha x (List.mem_cons_of_mem _ hx))]
    simp [add_attribute, HTMLTag.name, HTMLTag.content, HTMLTag.attributes, HTMLTag.children]

/-! ## Properties of the tokenizer -/

/-- While the tag name, the attribute names and the attribute values fit
their buffers, `next_tag` on a tag with attributes followed by any rest
returns the tag with content none, no children and exactly these attributes
in this order, and leaves the cursor at the rest. -/
theorem next_tag_attribute_roundtrip (w rest : List Char) (attrs : List Attribute)
    (hw : ∀ c ∈ w, c.isAlphanum = true) (hpos : w ≠ []) (hwlen : w.length ≤ 127)
    (hk : 1 ≤ attrs.length) (ha : ∀ a ∈ attrs, attr_ok a) :
    next_tag ('<' :: (w ++ (attrs_text attrs ++ '>' :: rest))) false =
      .ok ⟨some (.mk w none attrs []), rest, false⟩ := by
  apply next_tag_attrs w rest attrs _ hpos (by omega) _ ha
  · intro c hc
    simp [name_char, hw c hc]
  · intro h
    rw [h] at hk
    simp at hk

/-- The tag div with the attribute class = "a b", and a tag with a repeated
attribute name. -/
theorem next_tag_attribute_roundtrip_witness :
    next_tag ("<div class=".toList ++ DQUOTE :: "a b".toList ++ [DQUOTE, '>']) false =
        .ok ⟨some (.mk "div".toList none [⟨"class".toList, "a b".toList⟩] []), [], false⟩ ∧
    next_tag ("<a id=".toList ++ DQUOTE :: "x".toList ++ DQUOTE :: " id=".toList ++
        DQUOTE :: "y".toList ++ DQUOTE :: "><b>".toList) false =
      .ok ⟨some (.mk "a".toList none
        [⟨"id".toList, "x".toList⟩, ⟨"id".toList, "y".toList⟩] []), "<b>".toList, false⟩ :=
  ⟨next_tag_attribute_roundtrip "div".toList [] [⟨"class".toList, "a b".toList⟩]
      (by decide) (by decide) (by decide) (by decide) (by decide),
    next_tag_attribute_roundtrip "a".toList "<b>".toList
      [⟨"id".toList, "x".toList⟩, ⟨"id".toList, "y".toList⟩]
      (by decide) (by decide) (by decide) (by decide) (by decide)⟩

set_option maxRecDepth 100000 in
/-- C4: on `<div class="` followed by 128 letters a and `">`, a tag within the
terms of the round trip, the value fills the 128 bytes of `attr_value`, which
is written without a test of its size, and the read of the value at the
closing quote runs past the buffer: `next_tag` returns no tag. -/
theorem next_tag_attribute_value_overrun :
    (∀ c ∈ "div".toList, c.isAlphanum = true) ∧
    (∀ c ∈ "class".toList, c.isAlpha = true) ∧
    (∀ c ∈ List.replicate 128 'a', value_char c = true) ∧
    next_tag ('<' :: ("div".toList ++
        (attrs_text [⟨"class".toList, List.replicate 128 'a'⟩] ++ ['>']))) false =
      .undefined :=
  ⟨by decide, by decide, by decide, rfl⟩

/-- While the name and the text fit their buffers, `next_tag` on a text
followed by a tag without attributes and any rest returns a tag with that
name, no attributes and no children and leaves the cursor at the rest; the
content is none when the name does not start with a slash, and the text
without its leading spaces when the name starts with a slash and that text is
not empty. -/
theorem next_tag_plain_tag (t w rest : List Char)
    (hw : ∀ c ∈ w, name_char c = true) (hpos : w ≠ []) (hwlen : w.length ≤ 127)
    (ht : ∀ c ∈ t, c ≠ '<' ∧ c ≠ NL ∧ c ≠ NUL ∧ c ≠ EOF_BYTE)
    (htlen : (strip_spaces t).length ≤ 1023) :
    ∃ tag : HTMLTag,
      next_tag (t ++ '<' :: (w ++ '>' :: rest)) false = .ok ⟨some tag, rest, false⟩ ∧
      tag.name = w ∧ tag.attributes = [] ∧ tag.children = [] ∧
      (w.head? ≠ some '/' → tag.content = none) ∧
      (w.head? = some '/' → strip_spaces t ≠ [] → tag.content = some (strip_spaces t)) := by
  refine ⟨_, next_tag_plain t w rest ht (by omega) hw hpos (by omega), rfl, rfl, rfl, ?_, ?_⟩
  · intro h; simp [HTMLTag.content, h]
  · intro h _; simp [HTMLTag.content, h]

/-- The example of the comment above `next_tag`, and a closing tag with text
in front of it. -/
theorem next_tag_plain_tag_witness :
    (∃ tag : HTMLTag,
      next_tag "<span><a></a></span>".toList false =
        .ok ⟨some tag, "<a></a></span>".toList, false⟩ ∧
      tag.name = "span".toList ∧ tag.attributes = [] ∧ tag.children = [] ∧
      ("span".toList.head? ≠ some '/' → tag.content = none) ∧
      ("span".toList.head? = some '/' → strip_spaces [] ≠ [] →
        tag.content = some (strip_spaces []))) ∧
    (∃ tag : HTMLTag,
      next_tag "  hi there</p><b>".toList false = .ok ⟨some tag, "<b>".toList, false⟩ ∧
      tag.name = "/p".toList ∧ tag.attributes = [] ∧ tag.children = [] ∧
      ("/p".toList.head? ≠ some '/' → tag.content = none) ∧
      ("/p".toList.head? = some '/' → strip_spaces "  hi there".toList ≠ [] →
        tag.content = some (strip_spaces "  hi there".toList))) ∧
    strip_spaces "  hi there".toList = "hi there".toList :=
  ⟨next_tag_plain_tag [] "span".toList "<a></a></span>".toList
      (by decide) (by decide) (by decide) (by decide) (by decide),
    next_tag_plain_tag "  hi there".toList "/p".toList "<b>".toList
      (by decide) (by decide) (by decide) (by decide) (by decide),
    by decide⟩

set_option maxRecDepth 100000 in
/-- C5: on `<` followed by 128 letters a and `>`, a tag within the terms of
the claim, the name fills the 128 bytes of `tag_name`, which is written
without a test of its size, and the read of the name at the closing bracket
runs past the buffer: `next_tag` returns no tag. -/
theorem next_tag_plain_tag_overrun :
    (∀ c ∈ List.replicate 128 'a', name_char c = true) ∧
    List.replicate 128 'a' ≠ [] ∧
    next_tag ([] ++ '<' :: (List.replicate 128 'a' ++ '>' :: [])) false = .undefined :=
  ⟨by decide, by decide, rfl⟩

/-! ## Comments -/

theorem strlength_three (a b c : Char) (rest : List Char)
    (ha : a ≠ NUL) (hb : b ≠ NUL) (hc : c ≠ NUL) :
    3 ≤ strlength (a :: b :: c :: rest) := by
  simp [strlength, List.takeWhile_cons, ha, hb, hc]

/-- Inside a comment the characters in front of the closing sequence are
passed over. -/
theorem run_comment_body (e : Expected) (an av : List Char) (tag : Option HTMLTag)
    (tn tc : List Char) (off : Nat) (c : List Char) :
    ∀ rest : List Char,
      (∀ x ∈ c, x ≠ NL ∧ x ≠ EOF_BYTE) →
      ¬ ['-', '-', '>'] <:+: c →
      run ⟨e, an, av, tag, tn, tc, c ++ '-' :: '-' :: '>' :: rest, off, true⟩ =
        run ⟨e, an, av, tag, tn, tc, '-' :: '-' :: '>' :: rest, off, true⟩ := by
  induction c with
  | nil => intro rest _ _; rfl
  | cons x c ih =>
    intro rest hnl hno
    have hx := hnl x (List.mem_cons_self _ _)
    have hno1 : ¬ ['-', '-', '>'] <:+: c :=
      fun h => hno (h.trans (List.suffix_cons x c).isInfix)
    rw [run_eq]
    have hcond : ¬ (x = '-' ∧ 3 ≤ strlength (x :: (c ++ '-' :: '-' :: '>' :: rest)) ∧
        (x :: (c ++ '-' :: '-' :: '>' :: rest)).getD 1 NUL = '-' ∧
        (x :: (c ++ '-' :: '-' :: '>' :: rest)).getD 2 NUL = '>') := by
      rintro ⟨h0, _, h1, h2⟩
      cases c with
      | nil => simp at h2
      | cons y c =>
        cases c with
        | nil => simp at h2
        | cons z c =>
          simp at h1 h2
          subst h0 h1 h2
          exact hno ((List.prefix_append ['-', '-', '>'] c).isInfix)
    have e1 : step ⟨e, an, av, tag, tn, tc, x :: (c ++ '-' :: '-' :: '>' :: rest), off, true⟩ =
        .next ⟨e, an, av, tag, tn, tc, c ++ '-' :: '-' :: '>' :: rest, off, true⟩ := by
      simp only [step, List.headD_cons]
      rw [if_pos trivial, if_neg hcond]
      rfl
    simp only [List.cons_append, List.headD_cons] at e1 ⊢
    rw [if_neg (not_ends hx.1 hx.2), e1]
    exact ih rest (fun y hy => hnl y (List.mem_cons_of_mem _ hy)) hno1

/-- The closing sequence of a comment clears the flag and restores the first
expected token. -/
theorem run_comment_close (e : Expected) (an av : List Char) (tag : Option HTMLTag)
    (tn tc rest : List Char) (off : Nat) :
    run ⟨e, an, av, tag, tn, tc, '-' :: '-' :: '>' :: rest, off, true⟩ =
      run ⟨.open_tag, an, av, tag, tn, tc, rest, off, false⟩ := by
  rw [run_eq]
  have h3 := strlength_three '-' '-' '>' rest (by decide) (by decide) (by decide)
  have e1 : step ⟨e, an, av, tag, tn, tc, '-' :: '-' :: '>' :: rest, off, true⟩ =
      .next ⟨.open_tag, an, av, tag, tn, tc, rest, off, false⟩ := by
    simp only [step, List.headD_cons]
    simp [h3]
  simp only [List.headD_cons]
  rw [if_neg (by decide), e1]

/-- The opening sequence of a comment while a tag name is expected. -/
theorem run_comment_open (an av : List Char) (tag : Option HTMLTag)
    (tn tc rest : List Char) (off : Nat) :
    run ⟨.tag_name, an, av, tag, tn, tc, '!' :: '-' :: '-' :: rest, off, false⟩ =
      run ⟨.tag_name, an, av, tag, tn, tc, rest, off, true⟩ := by
  rw [run_eq]
  have h3 := strlength_three '!' '-' '-' rest (by decide) (by decide) (by decide)
  have e1 : step ⟨.tag_name, an, av, tag, tn, tc, '!' :: '-' :: '-' :: rest, off, false⟩ =
      .next ⟨.tag_name, an, av, tag, tn, tc, rest, off, true⟩ := by
    simp only [step, List.headD_cons]
    simp [h3]
  simp only [List.headD_cons]
  rw [if_neg (by decide), e1]

/-- With the comment flag clear, for every comment body without the closing
sequence, without a newline and without the byte 0xFF, `next_tag` on the
comment followed by a rest gives what `next_tag` gives on the rest alone: the
same returned tag or none, the same cursor, the same flag, the same
failure. -/
theorem next_tag_skips_comment (c rest : List Char)
    (hnl : ∀ x ∈ c, x ≠ NL ∧ x ≠ EOF_BYTE) (hno : ¬ ['-', '-', '>'] <:+: c) :
    next_tag ('<' :: '!' :: '-' :: '-' :: (c ++ '-' :: '-' :: '>' :: rest)) false =
      next_tag rest false := by
  rw [next_tag_eq_run, next_tag_eq_run]
  unfold init
  rw [run_open_bracket, run_comment_open, run_comment_body _ _ _ _ _ _ _ c rest hnl hno,
    run_comment_close]

/-- Instance: the comment of the line `<div><!-- <p> --></div>` is
skipped in front of `</div>`, and the line parses to a root div without
children. -/
theorem next_tag_skips_comment_witness :
    next_tag "<!-- <p> --></div>".toList false = next_tag "</div>".toList false ∧
    next_tag "</div>".toList false =
      .ok ⟨some (.mk "/div".toList (some []) [] []), [], false⟩ ∧
    parse_tags ("<div><!-- <p> --></div>".toList ++ [NL]) =
      .ok [.mk "div".toList none [] []] :=
  ⟨next_tag_skips_comment " <p> ".toList "</div>".toList (by decide) (by decide), rfl, rfl⟩

/-- C9: a comment body that is the byte 0xFF holds neither the closing
sequence nor a newline, but the loop test reads the byte as EOF: on
`<!--`, the byte, `--><p>` the function `next_tag` stops at the byte with no
tag and the flag set, while on the rest `<p>` alone it returns the tag p with
the flag clear. -/
theorem next_tag_comment_eof_byte :
    (∀ x ∈ [EOF_BYTE], x ≠ NL) ∧ ¬ ['-', '-', '>'] <:+: [EOF_BYTE] ∧
    next_tag ('<' :: '!' :: '-' :: '-' :: ([EOF_BYTE] ++ '-' :: '-' :: '>' :: "<p>".toList))
        false =
      .ok ⟨none, EOF_BYTE :: "--><p>".toList, true⟩ ∧
    next_tag "<p>".toList false = .ok ⟨some (.mk "p".toList none [] []), [], false⟩ :=
  ⟨by decide, by decide, rfl, rfl⟩

/-! ## The chain of tests of the builder -/

theorem get_tag_type_of_name {t1 t2 : HTMLTag} (h : t1.name = t2.name) :
    get_tag_type t1 = get_tag_type t2 := by
  rw [get_tag_type_eq, get_tag_type_eq, h]

theorem handle_tag_invalid (current : List HTMLTag) (tag : HTMLTag)
    (h : get_tag_type tag = .exit .InvalidTag) :
    handle_tag current tag = .exit .InvalidTag := by
  cases current <;> simp [handle_tag, is_opening_tag, h, Outcome.bind]

theorem handle_tag_opening (current : List HTMLTag) (tag : HTMLTag)
    (h : get_tag_type tag = .ok .opening) :
    handle_tag current tag = .ok (tag :: current) := by
  cases current <;> simp [handle_tag, is_opening_tag, h, Outcome.bind]

theorem handle_tag_void (cur : HTMLTag) (parents : List HTMLTag) (tag : HTMLTag)
    (h : get_tag_type tag = .ok .non_closing) :
    handle_tag (cur :: parents) tag = .ok (add_child cur tag :: parents) := by
  simp [handle_tag, is_opening_tag, is_non_closing_tag, h, Outcome.bind]

theorem handle_tag_void_unset (tag : HTMLTag) (h : get_tag_type tag = .ok .non_closing) :
    handle_tag [] tag = .ok [] := by
  simp [handle_tag, is_opening_tag, is_closing_tag, h, Outcome.bind]

theorem handle_tag_closing_unset (tag : HTMLTag) (h : get_tag_type tag = .ok .closing) :
    handle_tag [] tag = .exit .UnmatchedClose := by
  simp [handle_tag, is_opening_tag, is_closing_tag, h, Outcome.bind]

theorem handle_tag_closing (cur : HTMLTag) (parents : List HTMLTag) (tag : HTMLTag)
    (h : get_tag_type tag = .ok .closing) :
    handle_tag (cur :: parents) tag =
      match open_close_tags_match cur.name tag.name with
      | none => .undefined
      | some true =>
        match parents with
        | [] => .ok [cur]
        | parent :: rest =>
          .ok (add_child parent
            (match tag.content with
              | some text => .mk cur.name (some text) cur.attributes cur.children
              | none => cur) :: rest)
      | some false => .exit .TagMismatch := by
  simp [handle_tag, is_opening_tag, is_non_closing_tag, is_closing_tag, h, Outcome.bind]

theorem open_close_tags_match_slash (o n : List Char) :
    open_close_tags_match o ('/' :: n) = some (decide (o = n)) := by
  by_cases h : o = n <;> simp [open_close_tags_match, remove_chr_head, strequals, h]

/-- One pass of the inner loop of `parse_tags` that gets a tag. -/
theorem run_line_token {line rest : List Char} {b : Builder} {tag : HTMLTag} {c : Bool}
    (hl : line.headD NUL ≠ NUL)
    (h : next_tag line b.COMMENT_OPENED = .ok ⟨some tag, rest, c⟩) :
    run_line line b =
      match handle_tag b.current_tag tag with
      | .ok cur => run_line rest ⟨cur, c⟩
      | .exit e => .exit e
      | .undefined => .undefined
      | .fuel => .fuel := by
  rw [run_line_eq, if_neg hl, h]

/-- One pass of the inner loop of `parse_tags` that gets no tag. -/
theorem run_line_none {line rest : List Char} {b : Builder} {c : Bool}
    (hl : line.headD NUL ≠ NUL)
    (h : next_tag line b.COMMENT_OPENED = .ok ⟨none, rest, c⟩) :
    run_line line b = .ok ⟨b.current_tag, c⟩ := by
  rw [run_line_eq, if_neg hl, h]

/-- A line on which the inner loop fails makes `parse_tags` fail. -/
theorem run_stream_exit {stream line more : List Char} {b : Builder} {e : Fatal}
    (hr : readline stream = some (line, more)) (h : run_line line b = .exit e) :
    run_stream stream b = .exit e := by
  rw [run_stream_eq, hr]
  simp only
  rw [h]

/-! ## Properties of the builder -/

/-- C6: when `current_tag` is set, with name o, and the token is a closing
token named slash n, `open_close_tags_match` is true exactly when o = n, the
chain of tests goes on exactly when n = o, and when n differs from o it ends
with the fatal TagMismatch error, and so do the line loop and `parse_tags` on
a line that delivers this token. -/
theorem closing_tag_matching (cur : HTMLTag) (parents : List HTMLTag) (tag : HTMLTag)
    (n : List Char) (hname : tag.name = '/' :: n)
    (hcl : get_tag_type tag = .ok .closing) :
    open_close_tags_match cur.name ('/' :: n) = some (decide (cur.name = n)) ∧
    ((∃ s, handle_tag (cur :: parents) tag = .ok s) ↔ n = cur.name) ∧
    (n ≠ cur.name →
      handle_tag (cur :: parents) tag = .exit .TagMismatch ∧
      ∀ (line rest : List Char) (c : Bool) (b : Builder),
        b.current_tag = cur :: parents → line.headD NUL ≠ NUL →
        next_tag line b.COMMENT_OPENED = .ok ⟨some tag, rest, c⟩ →
        run_line line b = .exit .TagMismatch ∧
        ∀ stream more : List Char, readline stream = some (line, more) →
          run_stream stream b = .exit .TagMismatch) := by
  have hm := open_close_tags_match_slash cur.name n
  have hh := handle_tag_closing cur parents tag hcl
  rw [hname, hm] at hh
  refine ⟨hm, ?_, ?_⟩
  · by_cases h : cur.name = n
    · simp only [h, decide_True] at hh
      constructor
      · intro _; exact h.symm
      · intro _
        cases parents with
        | nil => exact ⟨_, hh⟩
        | cons p ps => exact ⟨_, hh⟩
    · simp only [h, decide_False] at hh
      constructor
      · rintro ⟨s, hs⟩
        rw [hh] at hs
        cases hs
      · intro h2; exact absurd h2.symm h
  · intro hne
    have h : ¬ cur.name = n := fun h => hne h.symm
    simp only [h, decide_False] at hh
    refine ⟨hh, ?_⟩
    intro line rest c b hb hl htok
    have hline : run_line line b = .exit .TagMismatch := by
      rw [run_line_token hl htok, hb, hh]
    exact ⟨hline, fun stream more hr => run_stream_exit hr hline⟩

/-- Witness for C6: on the line `<div><p></div>` the closing token /div
arrives while p is open, and `parse_tags` ends with TagMismatch. -/
theorem closing_tag_matching_witness :
    parse_tags ("<div><p></div>".toList ++ [NL]) = .exit .TagMismatch ∧
    (open_close_tags_match "p".toList ('/' :: "div".toList) =
        some (decide ("p".toList = "div".toList)) ∧
      ((∃ s, handle_tag [.mk "p".toList none [] [], .mk "div".toList none [] []]
          (.mk "/div".toList (some []) [] []) = .ok s) ↔ "div".toList = "p".toList) ∧
      ("div".toList ≠ "p".toList →
        handle_tag [.mk "p".toList none [] [], .mk "div".toList none [] []]
          (.mk "/div".toList (some []) [] []) = .exit .TagMismatch ∧
        ∀ (line rest : List Char) (c : Bool) (b : Builder),
          b.current_tag = [.mk "p".toList none [] [], .mk "div".toList none [] []] →
          line.headD NUL ≠ NUL →
          next_tag line b.COMMENT_OPENED =
            .ok ⟨some (.mk "/div".toList (some []) [] []), rest, c⟩ →
          run_line line b = .exit .TagMismatch ∧
          ∀ stream more : List Char, readline stream = some (line, more) →
            run_stream stream b = .exit .TagMismatch)) :=
  ⟨rfl, closing_tag_matching (.mk "p".toList none [] []) [.mk "div".toList none [] []]
    (.mk "/div".toList (some []) [] []) "div".toList rfl rfl⟩

/-- C7: when the first tag that `next_tag` returns on the input is a closing
token of a valid name, `current_tag` is still unset when it arrives and
`parse_tags` ends with the fatal UnmatchedClose error; no tag is returned. -/
theorem unmatched_close (stream : List Char) (comment : Bool)
    (h : FirstTokenClosing stream comment) :
    run_stream stream ⟨[], comment⟩ = .exit .UnmatchedClose ∧
    (comment = false → parse_tags stream = .exit .UnmatchedClose) := by
  have key : run_stream stream ⟨[], comment⟩ = .exit .UnmatchedClose := by
    induction h with
    | here stream line more rest comment c tag hr hl htok hcl =>
      apply run_stream_exit hr
      rw [run_line_token hl htok, handle_tag_closing_unset tag hcl]
    | no_tag stream line more rest comment c hr hl htok _ ih =>
      rw [run_stream_eq, hr]
      simp only
      rw [run_line_none hl htok]
      exact ih
    | no_call stream line more comment hr hl _ ih =>
      rw [run_stream_eq, hr]
      simp only
      rw [run_line_eq, if_pos hl]
      exact ih
  refine ⟨key, ?_⟩
  intro hc
  subst hc
  exact key

/-- Witness for C7: the line `</p>`, also after an empty line. -/
theorem unmatched_close_witness :
    parse_tags ("</p>".toList ++ [NL]) = .exit .UnmatchedClose ∧
    parse_tags (NL :: "</p>".toList ++ [NL]) = .exit .UnmatchedClose :=
  ⟨(unmatched_close ("</p>".toList ++ [NL]) false
      (.here _ ("</p>".toList ++ [NL]) [] [NL] false false (.mk "/p".toList (some []) [] [])
        rfl (by decide) rfl rfl)).2 rfl,
    (unmatched_close (NL :: "</p>".toList ++ [NL]) false
      (.no_tag _ [NL] ("</p>".toList ++ [NL]) [NL] false false rfl (by decide) rfl
        (.here _ ("</p>".toList ++ [NL]) [] [NL] false false (.mk "/p".toList (some []) [] [])
          rfl (by decide) rfl rfl))).2 rfl⟩

/-- C10: a tag returned by `next_tag` whose name, with one leading slash
removed, is not in the vocabulary ends the chain of tests with the fatal
InvalidTag error whatever `current_tag` is, and with it the line loop and
`parse_tags`; the tag is neither attached nor made `current_tag`. -/
theorem invalid_tag_fatal (tag : HTMLTag) (h : strip_slash tag.name ∉ vocabulary) :
    (∀ current : List HTMLTag, handle_tag current tag = .exit .InvalidTag) ∧
    ∀ (line rest : List Char) (c : Bool) (b : Builder),
      line.headD NUL ≠ NUL →
      next_tag line b.COMMENT_OPENED = .ok ⟨some tag, rest, c⟩ →
      run_line line b = .exit .InvalidTag ∧
      ∀ stream more : List Char, readline stream = some (line, more) →
        run_stream stream b = .exit .InvalidTag ∧
        (b = ⟨[], false⟩ → parse_tags stream = .exit .InvalidTag) := by
  have ht : get_tag_type tag = .exit .InvalidTag := by
    rw [get_tag_type_eq, if_neg h]
  refine ⟨fun current => handle_tag_invalid current tag ht, ?_⟩
  intro line rest c b hl htok
  have hline : run_line line b = .exit .InvalidTag := by
    rw [run_line_token hl htok, handle_tag_invalid _ tag ht]
  refine ⟨hline, fun stream more hr => ⟨run_stream_exit hr hline, ?_⟩⟩
  intro hb
  subst hb
  exact run_stream_exit hr hline

/-- Witness for C10: the name foo as the first tag and inside an open div, and
the closing token /foo. -/
theorem invalid_tag_fatal_witness :
    parse_tags ("<foo>".toList ++ [NL]) = .exit .InvalidTag ∧
    parse_tags ("<div><foo>".toList ++ [NL]) = .exit .InvalidTag ∧
    parse_tags ("<div></foo>".toList ++ [NL]) = .exit .InvalidTag ∧
    (∀ current : List HTMLTag,
      handle_tag current (.mk "foo".toList none [] []) = .exit .InvalidTag) :=
  ⟨rfl, rfl, rfl, (invalid_tag_fatal (.mk "foo".toList none [] []) (by decide)).1⟩

theorem add_child_name (p c : HTMLTag) : (add_child p c).name = p.name := rfl

/-- The chain of tests keeps every open tag classified `opening`. -/
theorem handle_tag_keeps_opening {s s1 : List HTMLTag} {tag : HTMLTag}
    (hs : ∀ t ∈ s, get_tag_type t = .ok .opening) (h : handle_tag s tag = .ok s1) :
    ∀ t ∈ s1, get_tag_type t = .ok .opening := by
  cases hty : get_tag_type tag with
  | ok ty =>
    cases ty with
    | opening =>
      rw [handle_tag_opening s tag hty] at h
      injection h with h; subst h
      intro t ht
      rcases List.mem_cons.mp ht with h1 | h1
      · subst h1; exact hty
      · exact hs t h1
    | non_closing =>
      cases s with
      | nil =>
        rw [handle_tag_void_unset tag hty] at h
        injection h with h; subst h
        intro t ht; cases ht
      | cons cur parents =>
        rw [handle_tag_void cur parents tag hty] at h
        injection h with h; subst h
        intro t ht
        rcases List.mem_cons.mp ht with h1 | h1
        · subst h1
          rw [get_tag_type_of_name (add_child_name cur tag)]
          exact hs cur (List.mem_cons_self _ _)
        · exact hs t (List.mem_cons_of_mem _ h1)
    | closing =>
      cases s with
      | nil => rw [handle_tag_closing_unset tag hty] at h; cases h
      | cons cur parents =>
        rw [handle_tag_closing cur parents tag hty] at h
        split at h
        · cases h
        · cases parents with
          | nil =>
            simp only at h
            injection h with h; subst h
            exact hs
          | cons parent rest =>
            simp only at h
            injection h with h; subst h
            intro t ht
            rcases List.mem_cons.mp ht with h1 | h1
            · subst h1
              rw [get_tag_type_of_name (add_child_name parent _)]
              exact hs parent (List.mem_cons_of_mem _ (List.mem_cons_self _ _))
            · exact hs t (List.mem_cons_of_mem _ (List.mem_cons_of_mem _ h1))
        · cases h
  | exit e =>
    have : handle_tag s tag = .exit e := by
      cases s <;> simp [handle_tag, is_opening_tag, hty, Outcome.bind]
    rw [this] at h; cases h
  | undefined =>
    have : handle_tag s tag = .undefined := by
      cases s <;> simp [handle_tag, is_opening_tag, hty, Outcome.bind]
    rw [this] at h; cases h
  | fuel =>
    have : handle_tag s tag = .fuel := by
      cases s <;> simp [handle_tag, is_opening_tag, hty, Outcome.bind]
    rw [this] at h; cases h

theorem reachable_opening {s : List HTMLTag} (h : Reachable s) :
    ∀ t ∈ s, get_tag_type t = .ok .opening := by
  induction h with
  | start => intro t ht; cases ht
  | token s s1 tag _ hstep ih => exact handle_tag_keeps_opening ih hstep

/-- The value of `current_tag` after a line is reachable when it was before. -/
theorem run_line_reachable (line : List Char) :
    ∀ (b b1 : Builder), Reachable b.current_tag → run_line line b = .ok b1 →
      Reachable b1.current_tag := by
  generalize hn : line.length = n
  induction n using Nat.strong_induction_on generalizing line with
  | _ n ih =>
    intro b b1 hb h
    rw [run_line_eq] at h
    split at h
    · injection h with h; subst h; exact hb
    · cases htok : next_tag line b.COMMENT_OPENED with
      | ok tok =>
        obtain ⟨tag, rest, c⟩ := tok
        rw [htok] at h
        cases tag with
        | none =>
          simp only at h
          injection h with h; subst h; exact hb
        | some tag =>
          simp only at h
          have hlt := next_tag_cursor htok
          cases hh : handle_tag b.current_tag tag with
          | ok cur =>
            rw [hh] at h
            simp only at h
            exact ih rest.length (by omega) rest rfl ⟨cur, c⟩ b1
              (.token _ _ tag hb hh) h
          | exit e => rw [hh] at h; cases h
          | undefined => rw [hh] at h; cases h
          | fuel => rw [hh] at h; cases h
      | exit e => rw [htok] at h; cases h
      | undefined => rw [htok] at h; cases h
      | fuel => rw [htok] at h; cases h

/-- The tag that `parse_tags` returns and its parent chain are reachable. -/
theorem run_stream_reachable (stream : List Char) :
    ∀ (b : Builder) (r : List HTMLTag), Reachable b.current_tag →
      run_stream stream b = .ok r → Reachable r := by
  generalize hn : stream.length = n
  induction n using Nat.strong_induction_on generalizing stream with
  | _ n ih =>
    intro b r hb h
    rw [run_stream_eq] at h
    cases hr : readline stream with
    | none =>
      rw [hr] at h
      simp only at h
      split at h
      · cases h
      · rename_i cur parents hcur
        injection h with h; subst h
        rw [← hcur]; exact hb
    | some p =>
      obtain ⟨line, more⟩ := p
      rw [hr] at h
      simp only at h
      have hlt := readline_lt hr
      cases hl : run_line line b with
      | ok b1 =>
        rw [hl] at h
        simp only at h
        exact ih more.length (by omega) more rfl b1 r (run_line_reachable line b b1 hb hl) h
      | exit e => rw [hl] at h; cases h
      | undefined => rw [hl] at h; cases h
      | fuel => rw [hl] at h; cases h

/-- C8: when `current_tag` is set and the token is a void tag (br, img,
input, with any attributes), the token becomes the last child of
`current_tag`, which stays the current tag with its name, content, attributes
and parent chain; and in every reachable value of `current_tag`, and in what
`parse_tags` returns, every open tag is classified `opening`. -/
theorem void_tags_are_leaves :
    (∀ (cur : HTMLTag) (parents : List HTMLTag) (tag : HTMLTag),
      tag.name ∈ void_names →
      get_tag_type tag = .ok .non_closing ∧
      handle_tag (cur :: parents) tag = .ok (add_child cur tag :: parents) ∧
      (add_child cur tag).children = cur.children ++ [tag] ∧
      (add_child cur tag).name = cur.name ∧
      (add_child cur tag).content = cur.content ∧
      (add_child cur tag).attributes = cur.attributes) ∧
    (∀ s : List HTMLTag, Reachable s → ∀ t ∈ s, get_tag_type t = .ok .opening) ∧
    (∀ (stream : List Char) (r : List HTMLTag), parse_tags stream = .ok r →
      Reachable r ∧ ∀ t ∈ r, get_tag_type t = .ok .opening) := by
  refine ⟨?_, fun s hs => reachable_opening hs, ?_⟩
  · intro cur parents tag hv
    have hty : get_tag_type tag = .ok .non_closing := by
      rw [get_tag_type_eq]
      have h1 : strip_slash tag.name ∈ vocabulary :=
        (by decide : ∀ u ∈ void_names, strip_slash u ∈ vocabulary) _ hv
      simp [h1, hv]
    exact ⟨hty, handle_tag_void cur parents tag hty, rfl, rfl, rfl, rfl⟩
  · intro stream r h
    have hr := run_stream_reachable stream ⟨[], false⟩ r .start h
    exact ⟨hr, reachable_opening hr⟩

/-- Witness for C8: an img with an attribute and a br inside a div. -/
theorem void_tags_are_leaves_witness :
    parse_tags ("<div><img src=".toList ++ DQUOTE :: "a.png".toList ++
        DQUOTE :: "><br></div>".toList ++ [NL]) =
      .ok [.mk "div".toList none []
        [.mk "img".toList none [⟨"src".toList, "a.png".toList⟩] [],
          .mk "br".toList none [] []]] ∧
    handle_tag [.mk "div".toList none [] []] (.mk "br".toList none [] []) =
      .ok [add_child (.mk "div".toList none [] []) (.mk "br".toList none [] [])] ∧
    (∀ t ∈ [HTMLTag.mk "div".toList none [] []], get_tag_type t = .ok .opening) :=
  ⟨rfl,
    (void_tags_are_leaves.1 (.mk "div".toList none [] []) [] (.mk "br".toList none [] [])
      (by decide)).2.1,
    void_tags_are_leaves.2.1 _ (.token [] _ (.mk "div".toList none [] []) .start rfl)⟩

/-! ## Well-formed documents -/

theorem vocabulary_names :
    ∀ u ∈ vocabulary, (∀ c ∈ u, name_char c = true) ∧ u ≠ [] ∧ u.length < 127 ∧
      u.head? ≠ some '/' ∧ (∀ c ∈ u, c ≠ NL) := by
  decide

theorem void_names_vocabulary : ∀ u ∈ void_names, u ∈ vocabulary := by
  decide

/-- The tokenizer on an opening tag of the vocabulary. -/
theorem next_tag_open_name {n : List Char} (hn : n ∈ vocabulary) (rest : List Char) :
    next_tag ('<' :: (n ++ '>' :: rest)) false =
      .ok ⟨some (.mk n none [] []), rest, false⟩ := by
  obtain ⟨h1, h2, h3, h4, _⟩ := vocabulary_names n hn
  have := next_tag_plain [] n rest (by simp) (by simp [strip_spaces]) h1 h2 (by omega)
  simpa [h4] using this

/-- The tokenizer on a closing tag of the vocabulary with nothing in front. -/
theorem next_tag_close_name {n : List Char} (hn : n ∈ vocabulary) (rest : List Char) :
    next_tag ('<' :: '/' :: (n ++ '>' :: rest)) false =
      .ok ⟨some (.mk ('/' :: n) (some []) [] []), rest, false⟩ := by
  obtain ⟨h1, h2, h3, h4, _⟩ := vocabulary_names n hn
  have := next_tag_plain [] ('/' :: n) rest (by simp) (by simp [strip_spaces])
    (by intro c hc
        rcases List.mem_cons.mp hc with h | h
        · subst h; decide
        · exact h1 c h)
    (by simp) (by simp; omega)
  simpa [strip_spaces] using this

theorem get_tag_type_open_name {n : List Char} (hn : n ∈ vocabulary) (hv : n ∉ void_names)
    (c : Option (List Char)) (a : List Attribute) (ch : List HTMLTag) :
    get_tag_type (.mk n c a ch) = .ok .opening := by
  obtain ⟨_, _, _, h4, _⟩ := vocabulary_names n hn
  have hs : strip_slash n = n := by
    unfold strip_slash
    split
    · rename_i h; simp at h4
    · rfl
  rw [get_tag_type_eq]
  simp [HTMLTag.name, hs, hn, hv, h4]

theorem get_tag_type_close_name {n : List Char} (hn : n ∈ vocabulary)
    (c : Option (List Char)) (a : List Attribute) (ch : List HTMLTag) :
    get_tag_type (.mk ('/' :: n) c a ch) = .ok .closing := by
  have hv : ('/' :: n) ∉ void_names := fun h =>
    (by decide : ∀ u ∈ void_names, u.head? ≠ some '/') _ h rfl
  rw [get_tag_type_eq]
  simp [HTMLTag.name, strip_slash, hn, hv]

theorem get_tag_type_void_name {n : List Char} (hv : n ∈ void_names)
    (c : Option (List Char)) (a : List Attribute) (ch : List HTMLTag) :
    get_tag_type (.mk n c a ch) = .ok .non_closing := by
  have hn := void_names_vocabulary n hv
  obtain ⟨_, _, _, h4, _⟩ := vocabulary_names n hn
  have hs : strip_slash n = n := by
    unfold strip_slash
    split
    · rename_i h; simp at h4
    · rfl
  rw [get_tag_type_eq]
  simp [HTMLTag.name, hs, hn, hv]

theorem bracket_head (l : List Char) : ('<' :: l).headD NUL ≠ NUL := by
  simp only [List.headD_cons]
  decide

mutual
/-- The line loop on the text of a well-formed tree under an open tag: the
tree becomes the last child of the open tag. -/
theorem run_line_tree : ∀ (t : Node), well_formed t = true →
    ∀ (cur : HTMLTag) (parents : List HTMLTag) (rest : List Char),
      run_line (render t ++ rest) ⟨cur :: parents, false⟩ =
        run_line rest ⟨add_child cur (built t) :: parents, false⟩
  | .node n cs, hwf, cur, parents, rest => by
    by_cases hv : n ∈ void_names
    · have hn := void_names_vocabulary n hv
      have hr : render (.node n cs) ++ rest = '<' :: (n ++ '>' :: rest) := by
        simp [render, hv]
      have hb : built (.node n cs) = .mk n none [] [] := by
        simp [built, hv]
      rw [hr, hb, run_line_token (bracket_head _) (next_tag_open_name hn rest),
        handle_tag_void cur parents _ (get_tag_type_void_name hv _ _ _)]
    · have hwf2 : n ∈ vocabulary ∧ well_formed_list cs = true := by
        simpa [well_formed, hv] using hwf
      obtain ⟨hn, hcs⟩ := hwf2
      have hr : render (.node n cs) ++ rest =
          '<' :: (n ++ '>' :: (render_list cs ++ '<' :: '/' :: (n ++ '>' :: rest))) := by
        simp [render, hv]
      have hb : built (.node n cs) = .mk n (some []) [] (built_list cs) := by
        simp [built, hv]
      rw [hr, hb, run_line_token (bracket_head _) (next_tag_open_name hn _),
        handle_tag_opening _ _ (get_tag_type_open_name hn hv _ _ _)]
      simp only
      rw [run_line_trees cs hcs]
      rw [run_line_token (bracket_head _) (next_tag_close_name hn rest),
        handle_tag_closing _ _ _ (get_tag_type_close_name hn _ _ _)]
      simp [HTMLTag.name, HTMLTag.content, HTMLTag.attributes, HTMLTag.children,
        open_close_tags_match_slash]
/-- The line loop on the text of a list of well-formed trees under an open
tag: the trees become its last children, in their order. -/
theorem run_line_trees : ∀ (ts : List Node), well_formed_list ts = true →
    ∀ (cur : HTMLTag) (parents : List HTMLTag) (rest : List Char),
      run_line (render_list ts ++ rest) ⟨cur :: parents, false⟩ =
        run_line rest
          ⟨.mk cur.name cur.content cur.attributes (cur.children ++ built_list ts) :: parents,
            false⟩
  | [], _, cur, parents, rest => by
    cases cur
    simp [render_list, built_list, HTMLTag.name, HTMLTag.content, HTMLTag.attributes,
      HTMLTag.children]
  | t :: ts, hwf, cur, parents, rest => by
    have hwf2 : well_formed t = true ∧ well_formed_list ts = true := by
      simpa [well_formed_list] using hwf
    have hr : render_list (t :: ts) ++ rest = render t ++ (render_list ts ++ rest) := by
      simp [render_list]
    rw [hr, run_line_tree t hwf2.1, run_line_trees ts hwf2.2]
    simp [add_child, built_list, HTMLTag.name, HTMLTag.content, HTMLTag.attributes,
      HTMLTag.children]
end

mutual
theorem render_no_newline : ∀ (t : Node), well_formed t = true → ∀ c ∈ render t, c ≠ NL
  | .node n cs, hwf => by
    by_cases hv : n ∈ void_names
    · obtain ⟨_, _, _, _, h5⟩ := vocabulary_names n (void_names_vocabulary n hv)
      intro c hc
      simp only [render, hv, if_true, List.mem_cons, List.mem_append, List.mem_singleton,
        List.not_mem_nil, or_false] at hc
      rcases hc with h | h | h
      · subst h; decide
      · exact h5 c h
      · subst h; decide
    · have hwf2 : n ∈ vocabulary ∧ well_formed_list cs = true := by
        simpa [well_formed, hv] using hwf
      obtain ⟨_, _, _, _, h5⟩ := vocabulary_names n hwf2.1
      have ih := render_list_no_newline cs hwf2.2
      intro c hc
      simp only [render, hv, if_false, List.mem_cons, List.mem_append, List.mem_singleton,
        List.not_mem_nil, or_false] at hc
      rcases hc with h | h | h | h | h | h | h | h
      · subst h; decide
      · exact h5 c h
      · subst h; decide
      · exact ih c h
      · subst h; decide
      · subst h; decide
      · exact h5 c h
      · subst h; decide
theorem render_list_no_newline : ∀ (ts : List Node), well_formed_list ts = true →
    ∀ c ∈ render_list ts, c ≠ NL
  | [], _ => by intro c hc; simp [render_list] at hc
  | t :: ts, hwf => by
    have hwf2 : well_formed t = true ∧ well_formed_list ts = true := by
      simpa [well_formed_list] using hwf
    intro c hc
    simp only [render_list, List.mem_append] at hc
    rcases hc with h | h
    · exact render_no_newline t hwf2.1 c h
    · exact render_list_no_newline ts hwf2.2 c h
end

mutual
theorem names_of_built : ∀ (t : Node), well_formed t = true → names_of (built t) = t
  | .node n cs, hwf => by
    by_cases hv : n ∈ void_names
    · have : cs = [] := by simpa [well_formed, hv] using hwf
      subst this
      simp [built, hv, names_of, names_of_list]
    · have hwf2 : n ∈ vocabulary ∧ well_formed_list cs = true := by
        simpa [well_formed, hv] using hwf
      simp [built, hv, names_of, names_of_list_built cs hwf2.2]
theorem names_of_list_built : ∀ (ts : List Node), well_formed_list ts = true →
    names_of_list (built_list ts) = ts
  | [], _ => by simp [built_list, names_of_list]
  | t :: ts, hwf => by
    have hwf2 : well_formed t = true ∧ well_formed_list ts = true := by
      simpa [well_formed_list] using hwf
    simp [built_list, names_of_list, names_of_built t hwf2.1, names_of_list_built ts hwf2.2]
end

theorem readline_one_line (l : List Char) (h : ∀ c ∈ l, c ≠ NL) :
    readline (l ++ [NL]) = some (l ++ [NL], []) := by
  have h1 : (l ++ [NL]).takeWhile (fun c => c != NL) = l := by
    rw [List.takeWhile_append_of_pos (by intro c hc; simpa using h c hc)]
    simp
  unfold readline
  simp only [h1, List.drop_left]

/-- The whole of `parse_tags` on one line that holds a well-formed document
whose root is not a void tag. -/
theorem parse_tags_render (n : List Char) (cs : List Node)
    (hn : n ∈ vocabulary) (hv : n ∉ void_names) (hcs : well_formed_list cs = true) :
    parse_tags (render (.node n cs) ++ [NL]) = .ok [.mk n none [] (built_list cs)] := by
  have hwf : well_formed (.node n cs) = true := by
    simp [well_formed, hv, hn, hcs]
  rw [parse_tags_eq_run, run_stream_eq,
    readline_one_line _ (render_no_newline _ hwf)]
  simp only
  have hr : render (.node n cs) ++ [NL] =
      '<' :: (n ++ '>' :: (render_list cs ++ '<' :: '/' :: (n ++ '>' :: [NL]))) := by
    simp [render, hv]
  have hlast : run_line [NL] ⟨[.mk n none [] (built_list cs)], false⟩ =
      .ok ⟨[.mk n none [] (built_list cs)], false⟩ := by
    rw [run_line_eq, if_neg (by decide)]
    rfl
  rw [hr, run_line_token (bracket_head _) (next_tag_open_name hn _),
    handle_tag_opening _ _ (get_tag_type_open_name hn hv _ _ _)]
  simp only
  rw [run_line_trees cs hcs,
    run_line_token (bracket_head _) (next_tag_close_name hn _),
    handle_tag_closing _ _ _ (get_tag_type_close_name hn _ _ _)]
  simp only [HTMLTag.name, HTMLTag.content, HTMLTag.attributes, HTMLTag.children,
    open_close_tags_match_slash, decide_True, List.nil_append]
  rw [hlast]
  simp only
  rw [run_stream_eq]
  rfl

/-- C3: for every finite tree whose root and inner nodes carry non-void
vocabulary names and whose void-named nodes are leaves, `parse_tags` on the
tree written on one newline-terminated line returns, without error, a root
with the same name whose children, recursively, have the same names in the
same order; the returned root has no parent and its content is unset. -/
theorem parse_tags_tree_roundtrip (n : List Char) (cs : List Node)
    (hn : n ∈ vocabulary) (hv : n ∉ void_names) (hcs : well_formed_list cs = true) :
    ∃ root : HTMLTag,
      parse_tags (render (.node n cs) ++ [NL]) = .ok [root] ∧
      names_of root = .node n cs ∧ root.content = none :=
  ⟨_, parse_tags_render n cs hn hv hcs,
    by simp [names_of, names_of_list_built cs hcs], rfl⟩

/-- Witness for C3: the line `<div><p></p></div>` gives the root div with
the one child p and no content, and a document with void leaves keeps their
order. -/
theorem parse_tags_tree_roundtrip_witness :
    render (.node "div".toList [.node "p".toList []]) = "<div><p></p></div>".toList ∧
    (∃ root : HTMLTag,
      parse_tags (render (.node "div".toList [.node "p".toList []]) ++ [NL]) = .ok [root] ∧
      names_of root = .node "div".toList [.node "p".toList []] ∧ root.content = none) ∧
    parse_tags ("<div><p></p></div>".toList ++ [NL]) =
      .ok [.mk "div".toList none [] [.mk "p".toList (some []) [] []]] ∧
    render (.node "ul".toList [.node "br".toList [], .node "li".toList [.node "img".toList []],
        .node "input".toList []]) = "<ul><br><li><img></li><input></ul>".toList ∧
    (∃ root : HTMLTag,
      parse_tags (render (.node "ul".toList [.node "br".toList [],
          .node "li".toList [.node "img".toList []], .node "input".toList []]) ++ [NL]) =
        .ok [root] ∧
      names_of root = .node "ul".toList [.node "br".toList [],
          .node "li".toList [.node "img".toList []], .node "input".toList []] ∧
      root.content = none) :=
  ⟨by decide,
    parse_tags_tree_roundtrip "div".toList [.node "p".toList []]
      (by decide) (by decide) (by decide),
    rfl, by decide,
    parse_tags_tree_roundtrip "ul".toList [.node "br".toList [],
      .node "li".toList [.node "img".toList []], .node "input".toList []]
      (by decide) (by decide) (by decide)⟩

/-! ## Failures inside the attributes -/

theorem value_char_iff_code (c : Char) :
    value_char c = true ↔
      (c.isAlphanum = true ∨ char_in VALID_ATTR_SPECIAL_CHARS c = true) := by
  constructor
  · exact value_char_code
  · rw [char_in_eq_decide]
    simp only [value_char, Bool.or_eq_true, List.contains_eq_any_beq, List.any_eq_true,
      beq_iff_eq, decide_eq_true_eq, VALID_ATTR_SPECIAL_CHARS]
    rintro (h | h)
    · exact Or.inl h
    · right
      refine ⟨c, ?_, rfl⟩
      simp only [List.mem_cons, List.mem_singleton, List.not_mem_nil, or_false] at h ⊢
      tauto

/-- Inside a quoted value, a character that is neither a value character nor
the closing quote ends `next_tag` with the Bad tag diagnostic. -/
theorem run_attr_value_bad (s : State) (he : s.expected_token = .attr_value)
    (hc : s.COMMENT_OPENED = false) (h1 : value_char (s.line.headD NUL) = false)
    (h2 : s.line.headD NUL ≠ DQUOTE) (h3 : s.line.headD NUL ≠ NL)
    (h4 : s.line.headD NUL ≠ EOF_BYTE) :
    run s = .exit .BadTagSyntax := by
  have hcode : ¬ ((s.line.headD NUL).isAlphanum = true ∨
      char_in VALID_ATTR_SPECIAL_CHARS (s.line.headD NUL) = true) := by
    rw [← value_char_iff_code, h1]; simp
  have e : step s = .stop s (some .BadTagSyntax) := by
    unfold step
    simp only [hc, he, Bool.false_eq_true, if_false]
    rw [if_neg hcode, if_neg h2]
  rw [run_eq, if_neg (not_ends h3 h4), e]

/-- After the equals sign of an attribute, a character other than the opening
quote ends `next_tag` with the missing quote diagnostic. -/
theorem run_attr_value_open_bad (s : State) (he : s.expected_token = .attr_value_open)
    (hc : s.COMMENT_OPENED = false)
    (h2 : s.line.headD NUL ≠ DQUOTE) (h3 : s.line.headD NUL ≠ NL)
    (h4 : s.line.headD NUL ≠ EOF_BYTE) :
    run s = .exit .MissingAttributeQuote := by
  have e : step s = .stop s (some .MissingAttributeQuote) := by
    unfold step
    simp only [hc, he, Bool.false_eq_true, if_false]
    rw [if_neg h2]
  rw [run_eq, if_neg (not_ends h3 h4), e]

/-- Where an attribute name is expected, a character that is not a letter and
is not an equals sign after a stored name ends `next_tag` with the Bad tag
diagnostic. -/
theorem run_attr_name_bad (s : State) (he : s.expected_token = .attr_name)
    (hc : s.COMMENT_OPENED = false) (h1 : (s.line.headD NUL).isAlpha = false)
    (h2 : s.line.headD NUL = '=' → s.attr_name = [])
    (h3 : s.line.headD NUL ≠ NL) (h4 : s.line.headD NUL ≠ EOF_BYTE) :
    run s = .exit .BadTagSyntax := by
  have e : step s = .stop s (some .BadTagSyntax) := by
    unfold step
    simp only [hc, he, Bool.false_eq_true, if_false, h1]
    by_cases heq : s.line.headD NUL = '='
    · rw [if_pos heq, h2 heq]
      simp [buf_str]
    · rw [if_neg heq]
  rw [run_eq, if_neg (not_ends h3 h4), e]

theorem run_separator_space (tag : Option HTMLTag) (an av tn tc rest : List Char) (off : Nat) :
    run ⟨.attr_separator_or_close_tag, an, av, tag, tn, tc, ' ' :: rest, off, false⟩ =
      run ⟨.attr_name, [], [], tag, tn, tc, rest, off, false⟩ := by
  rw [run_eq]
  have e : step ⟨.attr_separator_or_close_tag, an, av, tag, tn, tc, ' ' :: rest, off, false⟩ =
      .next ⟨.attr_name, [], [], tag, tn, tc, rest, off, false⟩ := by
    simp [step, advance]
  simp only [List.headD_cons]
  rw [if_neg (by decide), e]

/-- The attributes after the first one, up to the space in front of the next
attribute name. -/
theorem run_attributes_front (tn tc rest : List Char) (attrs : List Attribute) :
    ∀ (tag : HTMLTag), (∀ a ∈ attrs, attr_ok a) →
      run ⟨.attr_separator_or_close_tag, [], [], some tag, tn, tc,
          attrs_text attrs ++ ' ' :: rest, 0, false⟩ =
        run ⟨.attr_name, [], [],
          some (.mk tag.name tag.content (tag.attributes ++ attrs) tag.children),
          tn, tc, rest, 0, false⟩ := by
  induction attrs with
  | nil =>
    intro tag _
    simp only [attrs_text, List.nil_append, List.append_nil]
    rw [run_separator_space]
    cases tag
    rfl
  | cons a attrs ih =>
    intro tag h
    obtain ⟨hpos, hn, hlen, hv, hvlen⟩ := h a (List.mem_cons_self _ _)
    have hline : attrs_text (a :: attrs) ++ ' ' :: rest =
        ' ' :: (a.name ++ '=' :: DQUOTE :: (a.value ++ DQUOTE :: (attrs_text attrs ++ ' ' :: rest))) := by
      simp [attrs_text, attr_text]
    rw [hline, run_separator_space, run_attribute tag tn tc _ a hn hpos hlen hv hvlen,
      ih (add_attribute tag a) (fun x hx => h x (List.mem_cons_of_mem _ hx))]
    cases tag
    simp [add_attribute, HTMLTag.name, HTMLTag.content, HTMLTag.attributes, HTMLTag.children]

/-- The tokenizer on a tag name and complete attributes, up to the space in
front of the next attribute name. -/
theorem next_tag_attr_front (w rest : List Char) (attrs : List Attribute)
    (hw : ∀ c ∈ w, name_char c = true) (hpos : w ≠ []) (hwlen : w.length < 128)
    (ha : ∀ a ∈ attrs, attr_ok a) :
    next_tag ('<' :: (w ++ (attrs_text attrs ++ ' ' :: rest))) false =
      run ⟨.attr_name, [], [], some (.mk w none attrs []), w, [], rest, 0, false⟩ := by
  rw [next_tag_eq_run]
  unfold init
  rw [run_open_bracket]
  have h2 := run_name_chars [] [] none [] w [] (attrs_text attrs ++ ' ' :: rest) hw
    (by simpa using hwlen)
  simp only [List.length_nil, List.nil_append] at h2
  rw [h2]
  cases attrs with
  | nil =>
    simp only [attrs_text, List.nil_append]
    rw [run_name_space _ _ _ _ _ _ _ hwlen hpos hw]
  | cons a attrs =>
    obtain ⟨hapos, hn, hlen, hv, hvlen⟩ := ha a (List.mem_cons_self _ _)
    have hline : attrs_text (a :: attrs) ++ ' ' :: rest =
        ' ' :: (a.name ++ '=' :: DQUOTE :: (a.value ++ DQUOTE :: (attrs_text attrs ++ ' ' :: rest))) := by
      simp [attrs_text, attr_text]
    rw [hline, run_name_space _ _ _ _ _ _ _ hwlen hpos hw,
      run_attribute _ _ _ _ a hn hapos hlen hv hvlen,
      run_attributes_front _ _ _ attrs _ (fun x hx => ha x (List.mem_cons_of_mem _ hx))]
    simp [add_attribute, HTMLTag.name, HTMLTag.content, HTMLTag.attributes, HTMLTag.children]

/-- Where `next_tag` expects an attribute name (after a tag name and a space,
or after an attribute and a space), a character before the end of the line,
other than the byte 0xFF, that is not a letter, and is not an equals sign
that follows at least one letter of the name, ends `next_tag` with the fatal
Bad tag diagnostic; no tag is returned. -/
theorem attr_name_rejects :
    (∀ s : State, s.expected_token = .attr_name → s.COMMENT_OPENED = false →
      (s.line.headD NUL).isAlpha = false →
      (s.line.headD NUL = '=' → s.attr_name = []) →
      s.line.headD NUL ≠ NL → s.line.headD NUL ≠ EOF_BYTE →
      run s = .exit .BadTagSyntax) ∧
    (∀ (w a rest : List Char) (attrs : List Attribute) (c : Char),
      (∀ x ∈ w, name_char x = true) → w ≠ [] → w.length ≤ 127 →
      (∀ x ∈ attrs, attr_ok x) →
      (∀ x ∈ a, x.isAlpha = true) → a.length ≤ 127 →
      c.isAlpha = false → (c = '=' → a = []) → c ≠ NL → c ≠ EOF_BYTE →
      next_tag ('<' :: (w ++ (attrs_text attrs ++ ' ' :: (a ++ c :: rest)))) false =
        .exit .BadTagSyntax) := by
  refine ⟨run_attr_name_bad, ?_⟩
  intro w a rest attrs c hw hpos hwlen ha hal halen hc heq hnl heof
  rw [next_tag_attr_front w _ attrs hw hpos (by omega) ha]
  have h1 := run_attr_name_chars [] (some (.mk w none attrs [])) w [] a [] (c :: rest) hal
    (by simp; omega)
  simp only [List.length_nil, List.nil_append] at h1
  rw [h1]
  exact run_attr_name_bad _ rfl rfl hc heq hnl heof

/-- Instances: the lines `<div >`, `<br />`, `<div  class="a">`, `<a ="x">`
and `<a data-x="1">`. -/
theorem attr_name_rejects_witness :
    next_tag "<div >".toList false = .exit .BadTagSyntax ∧
    next_tag "<br />".toList false = .exit .BadTagSyntax ∧
    next_tag ("<div  class=".toList ++ DQUOTE :: "a".toList ++ [DQUOTE, '>']) false =
      .exit .BadTagSyntax ∧
    next_tag ("<a =".toList ++ DQUOTE :: "x".toList ++ [DQUOTE, '>']) false =
      .exit .BadTagSyntax ∧
    next_tag ("<a data-x=".toList ++ DQUOTE :: "1".toList ++ [DQUOTE, '>']) false =
      .exit .BadTagSyntax :=
  ⟨attr_name_rejects.2 "div".toList [] [] [] '>'
      (by decide) (by decide) (by decide) (by decide) (by decide) (by decide)
      (by decide) (by decide) (by decide) (by decide),
    attr_name_rejects.2 "br".toList [] ['>'] [] '/'
      (by decide) (by decide) (by decide) (by decide) (by decide) (by decide)
      (by decide) (by decide) (by decide) (by decide),
    rfl,
    attr_name_rejects.2 "a".toList [] (DQUOTE :: "x".toList ++ [DQUOTE, '>']) [] '='
      (by decide) (by decide) (by decide) (by decide) (by decide) (by decide)
      (by decide) (by decide) (by decide) (by decide),
    attr_name_rejects.2 "a".toList "data".toList ("x=".toList ++ DQUOTE :: "1".toList ++ [DQUOTE, '>'])
      [] '-'
      (by decide) (by decide) (by decide) (by decide) (by decide) (by decide)
      (by decide) (by decide) (by decide) (by decide)⟩

/-- C19: in `<a ` followed by the byte 0xFF the byte is not a letter and not
an equals sign, but the loop test reads it as EOF and `next_tag` returns the
tag a without a fatal error. -/
theorem attr_name_eof_byte :
    EOF_BYTE.isAlpha = false ∧ EOF_BYTE ≠ '=' ∧ EOF_BYTE ≠ NL ∧
    next_tag ("<a ".toList ++ [EOF_BYTE, '>']) false =
      .ok ⟨some (.mk "a".toList none [] []), [EOF_BYTE, '>'], false⟩ :=
  ⟨by decide, by decide, by decide, rfl⟩

/-- Where `next_tag` expects the opening quote of a value (after an attribute
name and the equals sign), a character before the end of the line other than
the double quote and the byte 0xFF ends `next_tag` with the fatal missing
quote diagnostic; no tag is returned. -/
theorem missing_opening_quote :
    (∀ s : State, s.expected_token = .attr_value_open → s.COMMENT_OPENED = false →
      s.line.headD NUL ≠ DQUOTE → s.line.headD NUL ≠ NL →
      s.line.headD NUL ≠ EOF_BYTE →
      run s = .exit .MissingAttributeQuote) ∧
    (∀ (w a rest : List Char) (attrs : List Attribute) (c : Char),
      (∀ x ∈ w, name_char x = true) → w ≠ [] → w.length ≤ 127 →
      (∀ x ∈ attrs, attr_ok x) →
      (∀ x ∈ a, x.isAlpha = true) → a ≠ [] → a.length ≤ 127 →
      c ≠ DQUOTE → c ≠ NL → c ≠ EOF_BYTE →
      next_tag ('<' :: (w ++ (attrs_text attrs ++ ' ' :: (a ++ '=' :: c :: rest)))) false =
        .exit .MissingAttributeQuote) := by
  refine ⟨run_attr_value_open_bad, ?_⟩
  intro w a rest attrs c hw hpos hwlen ha hal hapos halen hc hnl heof
  rw [next_tag_attr_front w _ attrs hw hpos (by omega) ha]
  have h1 := run_attr_name_chars [] (some (.mk w none attrs [])) w [] a [] ('=' :: c :: rest) hal
    (by simp; omega)
  simp only [List.length_nil, List.nil_append] at h1
  rw [h1, run_eq]
  have hstr : buf_str 128 a = some a :=
    buf_str_of_no_nul _ _ (by omega) (fun x h => (alpha_ne (hal x h)).2)
  have hp : 0 < a.length := List.length_pos.mpr hapos
  have e : step ⟨.attr_name, a, [], some (.mk w none attrs []), w, [], '=' :: c :: rest,
      a.length, false⟩ =
      .next ⟨.attr_value_open, a, [], some (.mk w none attrs []), w, [], c :: rest, 0, false⟩ := by
    simp [step, advance, hstr, hp, hapos]
  simp only [List.headD_cons]
  rw [if_neg (by decide), e]
  exact run_attr_value_open_bad _ rfl rfl hc hnl heof

/-- Instance: the line `<a href=x>`. -/
theorem missing_opening_quote_witness :
    next_tag "<a href=x>".toList false = .exit .MissingAttributeQuote :=
  missing_opening_quote.2 "a".toList "href".toList ['>'] [] 'x'
    (by decide) (by decide) (by decide) (by decide) (by decide) (by decide) (by decide)
    (by decide) (by decide) (by decide)

/-- C17: in `<a href=` followed by the byte 0xFF the byte is not the double
quote, but the loop test reads it as EOF and `next_tag` returns the tag a
without a fatal error. -/
theorem missing_quote_eof_byte :
    EOF_BYTE ≠ DQUOTE ∧ EOF_BYTE ≠ NL ∧
    next_tag ("<a href=".toList ++ [EOF_BYTE, '>']) false =
      .ok ⟨some (.mk "a".toList none [] []), [EOF_BYTE, '>'], false⟩ :=
  ⟨by decide, by decide, rfl⟩

/-- While `next_tag` is inside a quoted attribute value, a character before
the end of the line, other than the byte 0xFF, that is not alphanumeric, not
one of the listed punctuation characters or the space, and not the closing
double quote ends `next_tag` with the fatal Bad tag diagnostic; no tag is
returned. -/
theorem attr_value_character_set :
    (∀ c : Char, value_char c = true ↔
      (c.isAlphanum = true ∨ char_in VALID_ATTR_SPECIAL_CHARS c = true)) ∧
    (∀ s : State, s.expected_token = .attr_value → s.COMMENT_OPENED = false →
      value_char (s.line.headD NUL) = false →
      s.line.headD NUL ≠ DQUOTE → s.line.headD NUL ≠ NL →
      s.line.headD NUL ≠ EOF_BYTE →
      run s = .exit .BadTagSyntax) ∧
    (∀ (w a v rest : List Char) (attrs : List Attribute) (c : Char),
      (∀ x ∈ w, name_char x = true) → w ≠ [] → w.length ≤ 127 →
      (∀ x ∈ attrs, attr_ok x) →
      (∀ x ∈ a, x.isAlpha = true) → a ≠ [] → a.length ≤ 127 →
      (∀ x ∈ v, value_char x = true) → v.length ≤ 127 →
      value_char c = false → c ≠ DQUOTE → c ≠ NL → c ≠ EOF_BYTE →
      next_tag ('<' :: (w ++ (attrs_text attrs ++
          ' ' :: (a ++ '=' :: DQUOTE :: (v ++ c :: rest))))) false =
        .exit .BadTagSyntax) := by
  refine ⟨value_char_iff_code, run_attr_value_bad, ?_⟩
  intro w a v rest attrs c hw hpos hwlen ha hal hapos halen hv hvlen hc hq hnl heof
  rw [next_tag_attr_front w _ attrs hw hpos (by omega) ha]
  have h1 := run_attr_name_chars [] (some (.mk w none attrs [])) w [] a []
    ('=' :: DQUOTE :: (v ++ c :: rest)) hal (by simp; omega)
  simp only [List.length_nil, List.nil_append] at h1
  rw [h1, run_attr_equals _ _ _ _ _ _ _ (by omega) hapos hal]
  have h2 := run_attr_value_chars a (some (.mk w none attrs [])) w [] v [] (c :: rest) hv
    (by simp; omega)
  simp only [List.length_nil, List.nil_append] at h2
  rw [h2]
  exact run_attr_value_bad _ rfl rfl hc hq hnl heof

/-- Instances: the opening bracket and the underscore inside a value. -/
theorem attr_value_character_set_witness :
    next_tag ("<a href=".toList ++ DQUOTE :: '<' :: DQUOTE :: ['>']) false =
      .exit .BadTagSyntax ∧
    next_tag ("<div class=".toList ++ DQUOTE :: "my_class".toList ++ [DQUOTE, '>']) false =
      .exit .BadTagSyntax :=
  ⟨attr_value_character_set.2.2 "a".toList "href".toList [] [DQUOTE, '>'] [] '<'
      (by decide) (by decide) (by decide) (by decide) (by decide) (by decide) (by decide)
      (by decide) (by decide) (by decide) (by decide) (by decide) (by decide),
    attr_value_character_set.2.2 "div".toList "class".toList "my".toList
      ("class".toList ++ [DQUOTE, '>']) [] '_'
      (by decide) (by decide) (by decide) (by decide) (by decide) (by decide) (by decide)
      (by decide) (by decide) (by decide) (by decide) (by decide) (by decide)⟩

/-- C11: inside the value of `<a href="` the byte 0xFF is neither a value
character nor the closing quote, but the loop test reads it as EOF and
`next_tag` returns the tag a, without the attribute and without a fatal
error. -/
theorem attr_value_eof_byte :
    value_char EOF_BYTE = false ∧ EOF_BYTE ≠ DQUOTE ∧ EOF_BYTE ≠ NL ∧
    next_tag ("<a href=".toList ++ DQUOTE :: EOF_BYTE :: DQUOTE :: ['>']) false =
      .ok ⟨some (.mk "a".toList none [] []), EOF_BYTE :: DQUOTE :: ['>'], false⟩ :=
  ⟨by decide, by decide, by decide, rfl⟩

/-! ## The opening of a comment -/

/-- C18: while `next_tag` reads a tag name, an exclamation mark followed by
two hyphens sets the comment flag and moves the cursor past these three
characters; an exclamation mark that is not followed by two hyphens ends
`next_tag` with the fatal comment syntax diagnostic. -/
theorem comment_open_marker :
    (∀ (s : State) (rest : List Char), s.expected_token = .tag_name →
      s.COMMENT_OPENED = false → s.line = '!' :: '-' :: '-' :: rest →
      step s = .next { s with COMMENT_OPENED := true, line := rest }) ∧
    (∀ (s : State) (rest : List Char), s.expected_token = .tag_name →
      s.COMMENT_OPENED = false → s.line = '!' :: rest →
      (¬ ∃ rest1, rest = '-' :: '-' :: rest1) →
      run s = .exit .BadCommentSyntax) ∧
    (∀ (w rest : List Char), (∀ x ∈ w, name_char x = true) → w.length ≤ 127 →
      (¬ ∃ rest1, rest = '-' :: '-' :: rest1) →
      next_tag ('<' :: (w ++ '!' :: rest)) false = .exit .BadCommentSyntax) := by
  have hbad : ∀ (s : State) (rest : List Char), s.expected_token = .tag_name →
      s.COMMENT_OPENED = false → s.line = '!' :: rest →
      (¬ ∃ rest1, rest = '-' :: '-' :: rest1) →
      run s = .exit .BadCommentSyntax := by
    intro s rest he hc hl hno
    have hcond : ¬ (s.line.getD 1 NUL = '-' ∧ s.line.getD 2 NUL = '-') := by
      rintro ⟨h1, h2⟩
      rw [hl] at h1 h2
      cases rest with
      | nil =>
        have h3 : NUL = '-' := h1
        exact absurd h3 (by decide)
      | cons y rest =>
        cases rest with
        | nil =>
          have h3 : NUL = '-' := h2
          exact absurd h3 (by decide)
        | cons z rest =>
          simp at h1 h2
          subst h1 h2
          exact hno ⟨rest, rfl⟩
    have e : step s = .stop s (some .BadCommentSyntax) := by
      unfold step
      simp only [hc, he, Bool.false_eq_true, if_false]
      have hh : s.line.headD NUL = '!' := by rw [hl]; rfl
      rw [hh, if_neg (by decide), if_neg (by decide), if_neg (by decide), if_pos rfl]
      split_ifs <;> rfl
    have hh : s.line.headD NUL = '!' := by rw [hl]; rfl
    rw [run_eq, hh, if_neg (by decide), e]
  refine ⟨?_, hbad, ?_⟩
  · intro s rest he hc hl
    have h3 := strlength_three '!' '-' '-' rest (by decide) (by decide) (by decide)
    unfold step
    simp only [hc, he, Bool.false_eq_true, if_false, hl, List.headD_cons]
    simp [h3]
  · intro w rest hw hwlen hno
    rw [next_tag_eq_run]
    unfold init
    rw [run_open_bracket]
    have h2 := run_name_chars [] [] none [] w [] ('!' :: rest) hw (by simp; omega)
    simp only [List.length_nil, List.nil_append] at h2
    rw [h2]
    exact hbad _ rest rfl rfl rfl hno

/-- Witness for C18: a comment that opens and closes, and the two lines that
fail. -/
theorem comment_open_marker_witness :
    step ⟨.tag_name, [], [], none, [], [], "!-- x -->".toList, 0, false⟩ =
      .next ⟨.tag_name, [], [], none, [], [], " x -->".toList, 0, true⟩ ∧
    next_tag ("<!-- x -->".toList ++ [NL]) false = .ok ⟨none, [NL], false⟩ ∧
    next_tag "<!DOCTYPE html>".toList false = .exit .BadCommentSyntax ∧
    next_tag "<!->".toList false = .exit .BadCommentSyntax :=
  ⟨comment_open_marker.1 ⟨.tag_name, [], [], none, [], [], "!-- x -->".toList, 0, false⟩
      " x -->".toList rfl rfl rfl,
    rfl,
    comment_open_marker.2.2 [] "DOCTYPE html>".toList (by decide) (by decide)
      (by rintro ⟨r, h⟩
          have h1 : "DOCTYPE html>".toList.head? = some '-' := congrArg List.head? h
          exact absurd h1 (by decide)),
    comment_open_marker.2.2 [] "->".toList (by decide) (by decide)
      (by rintro ⟨r, h⟩
          have h1 : "->".toList.tail.head? = some '-' :=
            congrArg (fun l => l.tail.head?) h
          exact absurd h1 (by decide))⟩

/-! ## Tags returned by the tokenizer have no children -/

theorem advance_tag {s s1 : State} (h : advance s = .next s1) : s1.tag = s.tag := by
  unfold advance at h
  split at h
  · cases h
  · injection h with h
    subst h
    rfl

theorem childless_attr (o : Option HTMLTag) (a : Attribute)
    (h : ∀ t, o = some t → t.children = []) :
    ∀ t, o.map (fun t => add_attribute t a) = some t → t.children = [] := by
  intro t ht
  cases o with
  | none => cases ht
  | some u =>
    simp only [Option.map_some'] at ht
    injection ht with ht
    subst ht
    exact h u rfl

theorem step_childless {s : State} (hs : ∀ t, s.tag = some t → t.children = []) :
    (∀ s1, step s = .next s1 → ∀ t, s1.tag = some t → t.children = []) ∧
    (∀ s1 e, step s = .stop s1 e → ∀ t, s1.tag = some t → t.children = []) := by
  constructor
  · intro s1 h
    unfold step at h
    simp only at h
    repeat' split at h
    all_goals first
      | cases h; done
      | (have h2 := advance_tag h
         simp only at h2
         rw [h2]
         first
           | exact hs
           | exact childless_attr _ _ hs
           | (intro t ht; injection ht with ht; subst ht; rfl))
      | (injection h with h; subst h; exact hs)
  · intro s1 e h
    unfold step at h
    simp only at h
    repeat' split at h
    all_goals first
      | cases h; done
      | (unfold advance at h; split at h <;> cases h)
      | (injection h with h _; subst h; first
           | exact hs
           | (intro t ht; injection ht with ht; subst ht; rfl))

theorem run_childless (s : State) :
    (∀ t, s.tag = some t → t.children = []) →
    ∀ tok, run s = .ok tok → ∀ t, tok.tag = some t → t.children = [] := by
  generalize hn : s.line.length = n
  induction n using Nat.strong_induction_on generalizing s with
  | _ n ih =>
    intro hs tok h
    rw [run_eq] at h
    split at h
    · injection h with h; subst h; exact hs
    · cases hstep : step s with
      | next s1 =>
        rw [hstep] at h
        simp only at h
        have h1 := step_next_lt hstep
        exact ih _ (by omega) s1 rfl ((step_childless hs).1 s1 hstep) tok h
      | stop s1 e =>
        rw [hstep] at h
        cases e with
        | none =>
          simp only at h
          injection h with h; subst h
          exact (step_childless hs).2 s1 none hstep
        | some e => simp at h
      | undefined => rw [hstep] at h; simp at h

/-- A tag returned by `next_tag` has no children. -/
theorem next_tag_childless {line rest : List Char} {comment c : Bool} {tag : HTMLTag}
    (h : next_tag line comment = .ok ⟨some tag, rest, c⟩) : tag.children = [] :=
  run_childless (init line comment) (by intro t ht; cases ht) _ h tag rfl

/-! ## Invariants of the builder -/

/-- A property of `current_tag` that the chain of tests keeps for tags
without children is kept by the line loop. -/
theorem run_line_invariant (I : List HTMLTag → Prop)
    (hI : ∀ s s1 tag, I s → tag.children = [] → handle_tag s tag = .ok s1 → I s1)
    (line : List Char) :
    ∀ (b b1 : Builder), I b.current_tag → run_line line b = .ok b1 → I b1.current_tag := by
  generalize hn : line.length = n
  induction n using Nat.strong_induction_on generalizing line with
  | _ n ih =>
    intro b b1 hb h
    rw [run_line_eq] at h
    split at h
    · injection h with h; subst h; exact hb
    · cases htok : next_tag line b.COMMENT_OPENED with
      | ok tok =>
        obtain ⟨tag, rest, c⟩ := tok
        rw [htok] at h
        cases tag with
        | none =>
          simp only at h
          injection h with h; subst h; exact hb
        | some tag =>
          simp only at h
          have hlt := next_tag_cursor htok
          cases hh : handle_tag b.current_tag tag with
          | ok cur =>
            rw [hh] at h
            simp only at h
            exact ih rest.length (by omega) rest rfl ⟨cur, c⟩ b1
              (hI _ _ tag hb (next_tag_childless htok) hh) h
          | exit e => rw [hh] at h; cases h
          | undefined => rw [hh] at h; cases h
          | fuel => rw [hh] at h; cases h
      | exit e => rw [htok] at h; cases h
      | undefined => rw [htok] at h; cases h
      | fuel => rw [htok] at h; cases h

/-- Such a property holds of what `parse_tags` returns. -/
theorem run_stream_invariant (I : List HTMLTag → Prop)
    (hI : ∀ s s1 tag, I s → tag.children = [] → handle_tag s tag = .ok s1 → I s1)
    (stream : List Char) :
    ∀ (b : Builder) (r : List HTMLTag), I b.current_tag →
      run_stream stream b = .ok r → I r := by
  generalize hn : stream.length = n
  induction n using Nat.strong_induction_on generalizing stream with
  | _ n ih =>
    intro b r hb h
    rw [run_stream_eq] at h
    cases hr : readline stream with
    | none =>
      rw [hr] at h
      simp only at h
      split at h
      · cases h
      · rename_i cur parents hcur
        injection h with h; subst h
        rw [← hcur]; exact hb
    | some p =>
      obtain ⟨line, more⟩ := p
      rw [hr] at h
      simp only at h
      have hlt := readline_lt hr
      cases hl : run_line line b with
      | ok b1 =>
        rw [hl] at h
        simp only at h
        exact ih more.length (by omega) more rfl b1 r
          (run_line_invariant I hI line b b1 hb hl) h
      | exit e => rw [hl] at h; cases h
      | undefined => rw [hl] at h; cases h
      | fuel => rw [hl] at h; cases h

theorem closing_free_mk (n : List Char) (c : Option (List Char)) (a : List Attribute)
    (cs : List HTMLTag) :
    closing_free (.mk n c a cs) =
      (decide (get_tag_type (.mk n none [] []) ≠ .ok .closing) && closing_free_list cs) := by
  rw [closing_free, @get_tag_type_of_name (.mk n c a cs) (.mk n none [] []) rfl]

theorem closing_free_list_append (l1 l2 : List HTMLTag) :
    closing_free_list (l1 ++ l2) = (closing_free_list l1 && closing_free_list l2) := by
  induction l1 with
  | nil => simp [closing_free_list]
  | cons t l1 ih => simp [closing_free_list, ih, Bool.and_assoc]

theorem closing_free_add_child (p c : HTMLTag) (hp : closing_free p = true)
    (hc : closing_free c = true) : closing_free (add_child p c) = true := by
  cases p with
  | mk n ct a cs =>
    rw [closing_free_mk] at hp
    simp only [add_child, HTMLTag.name, HTMLTag.content, HTMLTag.attributes, HTMLTag.children]
    rw [closing_free_mk, closing_free_list_append]
    simp only [Bool.and_eq_true] at hp ⊢
    exact ⟨hp.1, hp.2, by simp [closing_free_list, hc]⟩

theorem closing_free_token (tag : HTMLTag) (hch : tag.children = [])
    (hty : get_tag_type tag ≠ .ok .closing) : closing_free tag = true := by
  cases tag with
  | mk n ct a cs =>
    simp only [HTMLTag.children] at hch
    subst hch
    simp [closing_free, closing_free_list, hty]

/-- The chain of tests keeps closing tokens out of the open tags and of what
is below them. -/
theorem handle_tag_closing_free (s s1 : List HTMLTag) (tag : HTMLTag)
    (hs : ∀ t ∈ s, closing_free t = true) (hch : tag.children = [])
    (h : handle_tag s tag = .ok s1) : ∀ t ∈ s1, closing_free t = true := by
  cases hty : get_tag_type tag with
  | ok ty =>
    cases ty with
    | opening =>
      rw [handle_tag_opening s tag hty] at h
      injection h with h; subst h
      intro t ht
      rcases List.mem_cons.mp ht with h1 | h1
      · subst h1; exact closing_free_token _ hch (by rw [hty]; simp)
      · exact hs t h1
    | non_closing =>
      cases s with
      | nil =>
        rw [handle_tag_void_unset tag hty] at h
        injection h with h; subst h
        intro t ht; cases ht
      | cons cur parents =>
        rw [handle_tag_void cur parents tag hty] at h
        injection h with h; subst h
        intro t ht
        rcases List.mem_cons.mp ht with h1 | h1
        · subst h1
          exact closing_free_add_child _ _ (hs cur (List.mem_cons_self _ _))
            (closing_free_token _ hch (by rw [hty]; simp))
        · exact hs t (List.mem_cons_of_mem _ h1)
    | closing =>
      cases s with
      | nil => rw [handle_tag_closing_unset tag hty] at h; cases h
      | cons cur parents =>
        rw [handle_tag_closing cur parents tag hty] at h
        split at h
        · cases h
        · cases parents with
          | nil =>
            simp only at h
            injection h with h; subst h
            exact hs
          | cons parent rest =>
            simp only at h
            injection h with h; subst h
            intro t ht
            rcases List.mem_cons.mp ht with h1 | h1
            · subst h1
              apply closing_free_add_child _ _
                (hs parent (List.mem_cons_of_mem _ (List.mem_cons_self _ _)))
              have hcur := hs cur (List.mem_cons_self _ _)
              cases cur with
              | mk n ct a cs =>
                rw [closing_free_mk] at hcur
                cases tag.content <;>
                  simp only [HTMLTag.name, HTMLTag.attributes, HTMLTag.children] <;>
                  rw [closing_free_mk] <;> exact hcur
            · exact hs t (List.mem_cons_of_mem _ (List.mem_cons_of_mem _ h1))
        · cases h
  | exit e =>
    have : handle_tag s tag = .exit e := by
      cases s <;> simp [handle_tag, is_opening_tag, hty, Outcome.bind]
    rw [this] at h; cases h
  | undefined =>
    have : handle_tag s tag = .undefined := by
      cases s <;> simp [handle_tag, is_opening_tag, hty, Outcome.bind]
    rw [this] at h; cases h
  | fuel =>
    have : handle_tag s tag = .fuel := by
      cases s <;> simp [handle_tag, is_opening_tag, hty, Outcome.bind]
    rw [this] at h; cases h

/-! ## Content of the elements -/

theorem text_head_ne (t rest : List Char) (ht : ∀ c ∈ t, c ≠ '<' ∧ c ≠ NL ∧ c ≠ NUL ∧ c ≠ EOF_BYTE) :
    (t ++ '<' :: rest).headD NUL ≠ NUL := by
  cases t with
  | nil => exact bracket_head rest
  | cons c t =>
    simp only [List.cons_append, List.headD_cons]
    exact (ht c (List.mem_cons_self _ _)).2.2.1

/-- A text in front of a closing tag that matches `current_tag` under a
parent becomes, without its leading spaces, the content of the closed
element, which becomes the last child of its parent. -/
theorem run_line_content_transfer (t n more : List Char) (cur parent : HTMLTag)
    (rest : List HTMLTag) (hn : n ∈ vocabulary) (hcur : cur.name = n)
    (ht : ∀ c ∈ t, c ≠ '<' ∧ c ≠ NL ∧ c ≠ NUL ∧ c ≠ EOF_BYTE)
    (htlen : (strip_spaces t).length ≤ 1023) :
    run_line (t ++ '<' :: '/' :: (n ++ '>' :: more)) ⟨cur :: parent :: rest, false⟩ =
      run_line more
        ⟨add_child parent (.mk cur.name (some (strip_spaces t)) cur.attributes cur.children)
          :: rest, false⟩ := by
  obtain ⟨h1, h2, h3, h4, _⟩ := vocabulary_names n hn
  have htok := next_tag_plain t ('/' :: n) more ht (by omega)
    (by intro c hc
        rcases List.mem_cons.mp hc with h | h
        · subst h; decide
        · exact h1 c h)
    (by simp) (by simp; omega)
  simp only [List.cons_append, List.head?_cons, if_true] at htok
  have hA : ∀ tag : HTMLTag, tag.name = '/' :: n → get_tag_type tag = .ok .closing →
      tag.content = some (strip_spaces t) →
      handle_tag (cur :: parent :: rest) tag =
        .ok (add_child parent
          (.mk cur.name (some (strip_spaces t)) cur.attributes cur.children) :: rest) := by
    intro tag hname hcl hcontent
    rw [handle_tag_closing cur (parent :: rest) tag hcl, hname, open_close_tags_match_slash,
      hcontent]
    simp [hcur]
  rw [run_line_token (text_head_ne t _ ht) htok,
    hA (.mk ('/' :: n) (some (strip_spaces t)) [] []) rfl
      (get_tag_type_close_name hn _ _ _) rfl]

/-- C12 (as amended): for every closing token that matches `current_tag`
while `current_tag` has a parent, the content captured by the closing token
becomes the content of the opening tag it matches, and that tag becomes the
last child of its parent; and no tag classified `closing` is in what
`parse_tags` returns or below it. -/
theorem content_transfer :
    (∀ (cur parent : HTMLTag) (rest : List HTMLTag) (tag : HTMLTag) (n text : List Char),
      tag.name = '/' :: n → get_tag_type tag = .ok .closing → cur.name = n →
      tag.content = some text →
      handle_tag (cur :: parent :: rest) tag =
        .ok (add_child parent (.mk cur.name (some text) cur.attributes cur.children) :: rest)) ∧
    (∀ (stream : List Char) (r : List HTMLTag), parse_tags stream = .ok r →
      ∀ x ∈ r, closing_free x = true) := by
  constructor
  · intro cur parent rest tag n text hname hcl hcur hcontent
    rw [handle_tag_closing cur (parent :: rest) tag hcl, hname, open_close_tags_match_slash,
      hcontent]
    simp [hcur]
  · intro stream r h
    exact run_stream_invariant (fun s => ∀ t ∈ s, closing_free t = true)
      (fun s s1 tag hs hch hh => handle_tag_closing_free s s1 tag hs hch hh)
      stream ⟨[], false⟩ r (by intro t ht; cases ht) h

/-- Witness for C12: in the line `<div><p>hello</p></div>` the element p ends
with the content hello, and the result holds no closing token. -/
theorem content_transfer_witness :
    parse_tags ("<div><p>hello</p></div>".toList ++ [NL]) =
      .ok [.mk "div".toList none [] [.mk "p".toList (some "hello".toList) [] []]] ∧
    handle_tag [.mk "p".toList none [] [], .mk "div".toList none [] []]
        (.mk "/p".toList (some "hello".toList) [] []) =
      .ok [add_child (.mk "div".toList none [] [])
        (.mk "p".toList (some "hello".toList) [] [])] ∧
    (∀ x ∈ [HTMLTag.mk "div".toList none [] [.mk "p".toList (some "hello".toList) [] []]],
      closing_free x = true) :=
  ⟨rfl,
    content_transfer.1 (.mk "p".toList none [] []) (.mk "div".toList none [] []) []
      (.mk "/p".toList (some "hello".toList) [] []) "p".toList "hello".toList rfl rfl rfl rfl,
    content_transfer.2 ("<div><p>hello</p></div>".toList ++ [NL]) _ rfl⟩

/-- Counterexample to C12 as stated: in the line `<div>hello</div>` the
closing token captures the text hello, and the root div ends without
content. -/
theorem content_transfer_root :
    next_tag "hello</div>".toList false =
      .ok ⟨some (.mk "/div".toList (some "hello".toList) [] []), [], false⟩ ∧
    parse_tags ("<div>hello</div>".toList ++ [NL]) = .ok [.mk "div".toList none [] []] :=
  ⟨rfl, rfl⟩

/-- C16 (as amended): for every tag name n of the vocabulary, the closing
token `</n>`, written without attributes, with no text in front of its
opening bracket, or with spaces only, has the empty string as content, not
none, and the element it closes under a parent ends with the empty string as
content and becomes the last child of that parent. -/
theorem empty_content_is_empty_string :
    (∀ (t n rest : List Char), n ∈ vocabulary → (∀ c ∈ t, c = ' ') →
      next_tag (t ++ '<' :: '/' :: (n ++ '>' :: rest)) false =
        .ok ⟨some (.mk ('/' :: n) (some []) [] []), rest, false⟩) ∧
    (∀ (t n more : List Char) (cur parent : HTMLTag) (rest : List HTMLTag),
      n ∈ vocabulary → cur.name = n → (∀ c ∈ t, c = ' ') →
      run_line (t ++ '<' :: '/' :: (n ++ '>' :: more)) ⟨cur :: parent :: rest, false⟩ =
        run_line more
          ⟨add_child parent (.mk cur.name (some []) cur.attributes cur.children) :: rest,
            false⟩) ∧
    (∀ (r n : List Char), r ∈ vocabulary → r ∉ void_names →
      n ∈ vocabulary → n ∉ void_names →
      parse_tags ('<' :: (r ++ '>' :: '<' :: (n ++ '>' :: '<' :: '/' :: (n ++
          '>' :: '<' :: '/' :: (r ++ ['>', NL]))))) =
        .ok [.mk r none [] [.mk n (some []) [] []]]) := by
  have hs : ∀ t : List Char, (∀ c ∈ t, c = ' ') → strip_spaces t = [] := by
    intro t ht
    unfold strip_spaces
    rw [List.dropWhile_eq_nil_iff]
    intro c hc
    simp [ht c hc]
  refine ⟨?_, ?_, ?_⟩
  · intro t n rest hn ht
    obtain ⟨h1, h2, h3, h4, _⟩ := vocabulary_names n hn
    have htok := next_tag_plain t ('/' :: n) rest
      (by intro c hc; rw [ht c hc]; decide) (by rw [hs t ht]; simp)
      (by intro c hc
          rcases List.mem_cons.mp hc with h | h
          · subst h; decide
          · exact h1 c h)
      (by simp) (by simp; omega)
    simpa [hs t ht] using htok
  · intro t n more cur parent rest hn hcur ht
    have h := run_line_content_transfer t n more cur parent rest hn hcur
      (by intro c hc; rw [ht c hc]; decide) (by rw [hs t ht]; simp)
    rw [hs t ht] at h
    exact h
  · intro r n hr hrv hn hnv
    have h := parse_tags_render r [.node n []] hr hrv
      (by simp [well_formed_list, well_formed, hnv, hn])
    simpa [render, render_list, built_list, built, hrv, hnv] using h

/-- Witness for C16: the closing tag `</p>` alone and after spaces, the
element p closed under div, and the line `<div><p></p></div>`. -/
theorem empty_content_is_empty_string_witness :
    next_tag "</p>".toList false = .ok ⟨some (.mk "/p".toList (some []) [] []), [], false⟩ ∧
    next_tag "   </p>".toList false =
      .ok ⟨some (.mk "/p".toList (some []) [] []), [], false⟩ ∧
    run_line ("  ".toList ++ '<' :: '/' :: ("p".toList ++ '>' :: []))
        ⟨[.mk "p".toList none [] [], .mk "div".toList none [] []], false⟩ =
      run_line []
        ⟨[add_child (.mk "div".toList none [] []) (.mk "p".toList (some []) [] [])], false⟩ ∧
    parse_tags ("<div><p></p></div>".toList ++ [NL]) =
      .ok [.mk "div".toList none [] [.mk "p".toList (some []) [] []]] :=
  ⟨empty_content_is_empty_string.1 [] "p".toList [] (by decide) (by decide),
    empty_content_is_empty_string.1 "   ".toList "p".toList [] (by decide) (by decide),
    empty_content_is_empty_string.2.1 "  ".toList "p".toList []
      (.mk "p".toList none [] []) (.mk "div".toList none [] []) []
      (by decide) rfl (by decide),
    empty_content_is_empty_string.2.2 "div".toList "p".toList
      (by decide) (by decide) (by decide) (by decide)⟩

/-- Counterexample to C16 as stated: the content of the closing token `</p>`
is the empty string and not none, and so is the content of the element p of
the line `<div><p></p></div>`. -/
theorem empty_content_not_none :
    (∃ tag : HTMLTag, next_tag "</p>".toList false = .ok ⟨some tag, [], false⟩ ∧
      tag.content = some [] ∧ tag.content ≠ none) ∧
    (∃ root p : HTMLTag, parse_tags ("<div><p></p></div>".toList ++ [NL]) = .ok [root] ∧
      root.children = [p] ∧ p.name = "p".toList ∧ p.content = some [] ∧ p.content ≠ none) :=
  ⟨⟨.mk "/p".toList (some []) [] [], rfl, rfl, by simp [HTMLTag.content]⟩,
    ⟨.mk "div".toList none [] [.mk "p".toList (some []) [] []], .mk "p".toList (some []) [] [],
      rfl, rfl, rfl, rfl, by simp [HTMLTag.content]⟩⟩

/-! ## Inputs on which the code leaves its documented behaviour -/

/-- C13: on the line `<div><p>`, where the input ends while div and p are
still open, `parse_tags` raises no error: it returns p, whose parent link
points to div, and div has not received p as a child. -/
theorem parse_tags_unclosed :
    parse_tags ("<div><p>".toList ++ [NL]) =
      .ok [.mk "p".toList none [] [], .mk "div".toList none [] []] ∧
    parse_tags ("<div></div><p>".toList ++ [NL]) =
      .ok [.mk "p".toList none [] [], .mk "div".toList none [] []] :=
  ⟨rfl, rfl⟩

/-- C14: on the line `<div></div></div>` the second closing tag arrives after
the root was closed; `current_tag` still points to the root, the names match,
and `parse_tags` returns the root without an error. -/
theorem parse_tags_second_close :
    handle_tag [.mk "div".toList none [] []] (.mk "/div".toList (some []) [] []) =
      .ok [.mk "div".toList none [] []] ∧
    parse_tags ("<div></div></div>".toList ++ [NL]) = .ok [.mk "div".toList none [] []] :=
  ⟨rfl, rfl⟩

/-- C15: on the line `<div class="a"` that ends without the closing bracket,
`next_tag` returns the tag div with its attribute and leaves the cursor at
the newline; `parse_tags` makes it the root. -/
theorem next_tag_without_bracket :
    next_tag ("<div class=".toList ++ DQUOTE :: "a".toList ++ [DQUOTE, NL]) false =
      .ok ⟨some (.mk "div".toList none [⟨"class".toList, "a".toList⟩] []), [NL], false⟩ ∧
    next_tag ("<div ".toList ++ [NL]) false =
      .ok ⟨some (.mk "div".toList none [] []), [NL], false⟩ ∧
    parse_tags ("<div class=".toList ++ DQUOTE :: "a".toList ++ [DQUOTE, NL]) =
      .ok [.mk "div".toList none [⟨"class".toList, "a".toList⟩] []] :=
  ⟨rfl, rfl, rfl⟩

/-- C20: on `hello<!-- x -->ab</p>` the text after the comment is stored from
the start of the content buffer again, over the text in front of the comment:
the closing token has the content abllo, not helloab. -/
theorem next_tag_content_across_comment :
    next_tag "hello<!-- x -->ab</p>".toList false =
      .ok ⟨some (.mk "/p".toList (some "abllo".toList) [] []), [], false⟩ ∧
    "abllo".toList ≠ "hello".toList ++ "ab".toList :=
  ⟨rfl, by decide⟩

/-! ## A comment that stays open over a line -/

/-- With the comment flag set, a line without the closing sequence is passed
over up to its newline, whatever the local state is. -/
theorem run_comment_line (e : Expected) (an av : List Char) (tag : Option HTMLTag)
    (tn tc : List Char) (off : Nat) (c : List Char) :
    (∀ x ∈ c, x ≠ NL ∧ x ≠ EOF_BYTE) → ¬ ['-', '-', '>'] <:+: c →
    run ⟨e, an, av, tag, tn, tc, c ++ [NL], off, true⟩ = .ok ⟨tag, [NL], true⟩ := by
  induction c with
  | nil =>
    intro _ _
    rw [run_eq]
    simp
  | cons x c ih =>
    intro hnl hno
    have hx := hnl x (List.mem_cons_self _ _)
    have hno1 : ¬ ['-', '-', '>'] <:+: c :=
      fun h => hno (h.trans (List.suffix_cons x c).isInfix)
    rw [run_eq]
    have hcond : ¬ (x = '-' ∧ 3 ≤ strlength (x :: (c ++ [NL])) ∧
        (x :: (c ++ [NL])).getD 1 NUL = '-' ∧
        (x :: (c ++ [NL])).getD 2 NUL = '>') := by
      rintro ⟨h0, _, h1, h2⟩
      cases c with
      | nil =>
        have h3 : NL = '-' := h1
        exact absurd h3 (by decide)
      | cons y c =>
        cases c with
        | nil =>
          have h3 : NL = '>' := h2
          exact absurd h3 (by decide)
        | cons z c =>
          simp at h1 h2
          subst h0 h1 h2
          exact hno ((List.prefix_append ['-', '-', '>'] c).isInfix)
    have e1 : step ⟨e, an, av, tag, tn, tc, x :: (c ++ [NL]), off, true⟩ =
        .next ⟨e, an, av, tag, tn, tc, c ++ [NL], off, true⟩ := by
      simp only [step, List.headD_cons]
      rw [if_pos trivial, if_neg hcond]
      rfl
    simp only [List.cons_append, List.headD_cons] at e1 ⊢
    rw [if_neg (not_ends hx.1 hx.2), e1]
    exact ih (fun y hy => hnl y (List.mem_cons_of_mem _ hy)) hno1

/-- When the comment flag is set and `next_tag` is called on a
newline-terminated line without the closing sequence and without the byte
0xFF, it returns no tag, leaves the cursor at the newline of the line, raises
no error and leaves the flag set; the line loop then ends the line with
`current_tag` unchanged and the flag set. -/
theorem comment_flag_persists (c : List Char)
    (hnl : ∀ x ∈ c, x ≠ NL ∧ x ≠ EOF_BYTE) (hno : ¬ ['-', '-', '>'] <:+: c) :
    next_tag (c ++ [NL]) true = .ok ⟨none, [NL], true⟩ ∧
    ∀ current : List HTMLTag,
      run_line (c ++ [NL]) ⟨current, true⟩ = .ok ⟨current, true⟩ := by
  have h : next_tag (c ++ [NL]) true = .ok ⟨none, [NL], true⟩ := by
    rw [next_tag_eq_run]
    exact run_comment_line _ _ _ _ _ _ _ c hnl hno
  refine ⟨h, fun current => ?_⟩
  rw [run_line_eq]
  split
  · rfl
  · rw [h]

/-- Instances: the line `<p>` inside an open comment, and the comment over
three of the five lines of a document, which parses to a root div without
children. -/
theorem comment_flag_persists_witness :
    (next_tag ("<p>".toList ++ [NL]) true = .ok ⟨none, [NL], true⟩ ∧
      ∀ current : List HTMLTag,
        run_line ("<p>".toList ++ [NL]) ⟨current, true⟩ = .ok ⟨current, true⟩) ∧
    next_tag ("<!--".toList ++ [NL]) false = .ok ⟨none, [NL], true⟩ ∧
    parse_tags ("<div>".toList ++ NL :: "<!--".toList ++ NL :: "<p>".toList ++
        NL :: "-->".toList ++ NL :: "</div>".toList ++ [NL]) =
      .ok [.mk "div".toList none [] []] :=
  ⟨comment_flag_persists "<p>".toList (by decide) (by decide), rfl, rfl⟩

/-- C21: with the comment flag set, on the newline-terminated line made of
the byte 0xFF and the letter x, which holds no closing sequence, the loop test
reads the byte as EOF: `next_tag` returns no tag and leaves the flag set, but
it leaves the cursor at the byte, in front of the whole line, not at the
newline. -/
theorem comment_line_eof_byte :
    ¬ ['-', '-', '>'] <:+: [EOF_BYTE, 'x'] ∧ (∀ c ∈ [EOF_BYTE, 'x'], c ≠ NL) ∧
    next_tag ([EOF_BYTE, 'x'] ++ [NL]) true = .ok ⟨none, [EOF_BYTE, 'x', NL], true⟩ ∧
    [EOF_BYTE, 'x', NL] ≠ [NL] :=
  ⟨by decide, by decide, rfl, by decide⟩

/-! ## Closing tokens of void names, and tags after the root -/

/-- C24: in every reachable value of `current_tag`, unset or set, a token
named /br, /img or /input is classified `closing` and ends the chain of tests
with a fatal error: UnmatchedClose when `current_tag` is unset, TagMismatch
when it is set, because no open tag has a void name; the line loop and
`parse_tags` end with the same error. -/
theorem void_close_rejected (s : List HTMLTag) (tag : HTMLTag) (v : List Char)
    (hs : Reachable s) (hv : v ∈ void_names) (hname : tag.name = '/' :: v) :
    get_tag_type tag = .ok .closing ∧
    (∀ cur ∈ s, cur.name ∉ void_names) ∧
    (s = [] → handle_tag s tag = .exit .UnmatchedClose) ∧
    (s ≠ [] → handle_tag s tag = .exit .TagMismatch) ∧
    ∀ (line rest : List Char) (c : Bool) (b : Builder),
      b.current_tag = s → line.headD NUL ≠ NUL →
      next_tag line b.COMMENT_OPENED = .ok ⟨some tag, rest, c⟩ →
      ∃ e : Fatal, (e = .UnmatchedClose ∨ e = .TagMismatch) ∧
        run_line line b = .exit e ∧
        ∀ stream more : List Char, readline stream = some (line, more) →
          run_stream stream b = .exit e := by
  have hcl : get_tag_type tag = .ok .closing := by
    rw [@get_tag_type_of_name tag (.mk ('/' :: v) none [] []) hname]
    exact get_tag_type_close_name (void_names_vocabulary v hv) _ _ _
  have hopen := reachable_opening hs
  have hnv : ∀ cur ∈ s, cur.name ∉ void_names := by
    intro cur hcur hmem
    have h1 := hopen cur hcur
    rw [@get_tag_type_of_name cur (.mk cur.name none [] []) rfl,
      get_tag_type_void_name hmem] at h1
    cases h1
  have hunset : s = [] → handle_tag s tag = .exit .UnmatchedClose := by
    intro h; subst h; exact handle_tag_closing_unset tag hcl
  have hset : s ≠ [] → handle_tag s tag = .exit .TagMismatch := by
    intro h
    cases s with
    | nil => exact absurd rfl h
    | cons cur parents =>
      have hne : ¬ cur.name = v := fun e => hnv cur (List.mem_cons_self _ _) (e ▸ hv)
      rw [handle_tag_closing cur parents tag hcl, hname, open_close_tags_match_slash]
      simp [hne]
  refine ⟨hcl, hnv, hunset, hset, ?_⟩
  intro line rest c b hb hl htok
  by_cases he : s = []
  · have hline : run_line line b = .exit .UnmatchedClose := by
      rw [run_line_token hl htok, hb, hunset he]
    exact ⟨_, Or.inl rfl, hline, fun stream more hr => run_stream_exit hr hline⟩
  · have hline : run_line line b = .exit .TagMismatch := by
      rw [run_line_token hl htok, hb, hset he]
    exact ⟨_, Or.inr rfl, hline, fun stream more hr => run_stream_exit hr hline⟩

/-- Witness for C24: the line `<div><br></br></div>`, and the token /br while
div is open and while nothing is open. -/
theorem void_close_rejected_witness :
    parse_tags ("<div><br></br></div>".toList ++ [NL]) = .exit .TagMismatch ∧
    parse_tags ("</br>".toList ++ [NL]) = .exit .UnmatchedClose ∧
    handle_tag [.mk "div".toList none [] [.mk "br".toList none [] []]]
        (.mk "/br".toList (some []) [] []) = .exit .TagMismatch ∧
    handle_tag [] (.mk "/br".toList (some []) [] []) = .exit .UnmatchedClose :=
  ⟨rfl, rfl,
    (void_close_rejected [.mk "div".toList none [] [.mk "br".toList none [] []]]
      (.mk "/br".toList (some []) [] []) "br".toList
      (.token [.mk "div".toList none [] []] _ (.mk "br".toList none [] [])
        (.token [] _ (.mk "div".toList none [] []) .start rfl) rfl)
      (by decide) rfl).2.2.2.1 (by simp),
    (void_close_rejected [] (.mk "/br".toList (some []) [] []) "br".toList
      .start (by decide) rfl).2.2.1 rfl⟩

/-- C25: for all non-void vocabulary names r and n, `parse_tags` on the line
`<r></r><n></n>` returns, without error, the root r with the one child n, the
same tree as for `<r><n></n></r>`; the closing tag of the root leaves
`current_tag` at the root, so a later opening token is opened under it and a
later void token becomes its child. -/
theorem tags_after_root (r n : List Char)
    (hr : r ∈ vocabulary) (hrv : r ∉ void_names)
    (hn : n ∈ vocabulary) (hnv : n ∉ void_names) :
    parse_tags ('<' :: (r ++ '>' :: '<' :: '/' :: (r ++ '>' :: '<' :: (n ++
        '>' :: '<' :: '/' :: (n ++ ['>', NL]))))) =
      .ok [.mk r none [] [.mk n (some []) [] []]] ∧
    parse_tags ('<' :: (r ++ '>' :: '<' :: (n ++ '>' :: '<' :: '/' :: (n ++
        '>' :: '<' :: '/' :: (r ++ ['>', NL]))))) =
      .ok [.mk r none [] [.mk n (some []) [] []]] ∧
    (∀ (root : HTMLTag) (content : Option (List Char)), root.name = r →
      handle_tag [root] (.mk ('/' :: r) content [] []) = .ok [root]) ∧
    (∀ (root tag : HTMLTag), get_tag_type tag = .ok .opening →
      handle_tag [root] tag = .ok [tag, root]) ∧
    (∀ (root tag : HTMLTag), get_tag_type tag = .ok .non_closing →
      handle_tag [root] tag = .ok [add_child root tag]) := by
  have hclose : ∀ (root : HTMLTag) (content : Option (List Char)), root.name = r →
      handle_tag [root] (.mk ('/' :: r) content [] []) = .ok [root] := by
    intro root content hroot
    have hm : open_close_tags_match root.name ('/' :: r) = some true := by
      rw [open_close_tags_match_slash, hroot]
      simp
    rw [handle_tag_closing _ _ _ (get_tag_type_close_name hr _ _ _)]
    show (match open_close_tags_match root.name ('/' :: r) with
      | none => Outcome.undefined
      | some true => Outcome.ok [root]
      | some false => Outcome.exit Fatal.TagMismatch) = _
    rw [hm]
  refine ⟨?_, ?_, hclose, fun root tag h => handle_tag_opening _ _ h,
    fun root tag h => handle_tag_void _ _ _ h⟩
  · have hwf : well_formed (.node n []) = true := by
      simp [well_formed, well_formed_list, hnv, hn]
    have hline : '<' :: (r ++ '>' :: '<' :: '/' :: (r ++ '>' :: '<' :: (n ++
          '>' :: '<' :: '/' :: (n ++ ['>', NL])))) =
        ('<' :: (r ++ '>' :: '<' :: '/' :: (r ++ '>' :: render (.node n [])))) ++ [NL] := by
      simp [render, render_list, hnv]
    have hnonl : ∀ c ∈ '<' :: (r ++ '>' :: '<' :: '/' :: (r ++ '>' :: render (.node n []))),
        c ≠ NL := by
      obtain ⟨_, _, _, _, h5⟩ := vocabulary_names r hr
      have h6 := render_no_newline _ hwf
      intro c hc
      simp only [List.mem_cons, List.mem_append] at hc
      rcases hc with h | h | h | h | h | h | h | h
      · subst h; decide
      · exact h5 c h
      · subst h; decide
      · subst h; decide
      · subst h; decide
      · exact h5 c h
      · subst h; decide
      · exact h6 c h
    rw [hline, parse_tags_eq_run, run_stream_eq, readline_one_line _ hnonl]
    simp only
    have hl2 : ('<' :: (r ++ '>' :: '<' :: '/' :: (r ++ '>' :: render (.node n [])))) ++ [NL] =
        '<' :: (r ++ '>' :: '<' :: '/' :: (r ++ '>' :: (render (.node n []) ++ [NL]))) := by
      simp
    rw [hl2, run_line_token (bracket_head _) (next_tag_open_name hr _),
      handle_tag_opening _ _ (get_tag_type_open_name hr hrv _ _ _)]
    simp only
    rw [run_line_token (bracket_head _) (next_tag_close_name hr _),
      hclose (.mk r none [] []) _ rfl]
    simp only
    rw [run_line_tree _ hwf]
    have hlast : ∀ cur : List HTMLTag, run_line [NL] ⟨cur, false⟩ = .ok ⟨cur, false⟩ := by
      intro cur
      rw [run_line_eq, if_neg (by decide)]
      rfl
    rw [hlast]
    simp only
    rw [run_stream_eq]
    simp [readline, add_child, built, built_list, hnv, HTMLTag.name, HTMLTag.content,
      HTMLTag.attributes, HTMLTag.children]
  · have h := parse_tags_render r [.node n []] hr hrv
      (by simp [well_formed_list, well_formed, hnv, hn])
    simpa [render, render_list, built_list, built, hrv, hnv] using h

/-- Witness for C25: the lines `<div></div><p></p>` and `<div><p></p></div>`. -/
theorem tags_after_root_witness :
    parse_tags ("<div></div><p></p>".toList ++ [NL]) =
      .ok [.mk "div".toList none [] [.mk "p".toList (some []) [] []]] ∧
    parse_tags ("<div><p></p></div>".toList ++ [NL]) =
      .ok [.mk "div".toList none [] [.mk "p".toList (some []) [] []]] :=
  ⟨(tags_after_root "div".toList "p".toList
      (by decide) (by decide) (by decide) (by decide)).1,
    (tags_after_root "div".toList "p".toList
      (by decide) (by decide) (by decide) (by decide)).2.1⟩

/-! ## Progress of the token loop -/

theorem newline_terminated_tail {c : Char} {l : List Char}
    (h : newline_terminated (c :: l)) (hc : c ≠ NL) : newline_terminated l := by
  obtain ⟨body, hb⟩ := h
  cases body with
  | nil =>
    simp at hb
    exact absurd hb.1 hc
  | cons x body =>
    simp at hb
    exact ⟨body, hb.2⟩

theorem advance_line {s s1 : State} (h : advance s = .next s1) :
    ∃ c, s.line = c :: s1.line := by
  unfold advance at h
  split at h
  · cases h
  · rename_i c rest hl
    injection h with h
    subst h
    exact ⟨c, hl⟩

/-- How one pass of the scanning loop moves the cursor: by one character, or
by the three characters of a comment marker. -/
theorem step_line {s s1 : State} (h : step s = .next s1) :
    (∃ c, s.line = c :: s1.line) ∨
    (∃ c, s.line = c :: '-' :: '-' :: s1.line) ∨
    (∃ c, s.line = c :: '-' :: '>' :: s1.line) := by
  have hdrop : ∀ (l : List Char) (x : Char), 3 ≤ strlength l → l.getD 1 NUL = '-' →
      l.getD 2 NUL = x → ∃ c, l = c :: '-' :: x :: l.drop 3 := by
    intro l x h3 h1 h2
    have hlen := strlength_le l
    match l, hlen, h1, h2, h3 with
    | a :: b :: c :: l, _, h1, h2, _ =>
      simp at h1 h2
      subst h1 h2
      exact ⟨a, rfl⟩
    | [], hlen, _, _, h3 => simp at hlen; omega
    | [a], hlen, _, _, h3 => simp at hlen; omega
    | [a, b], hlen, _, _, h3 => simp at hlen; omega
  unfold step at h
  simp only at h
  repeat' split at h
  all_goals first
    | cases h; done
    | (left; have h2 := advance_line h; exact h2)
    | (right; right; injection h with h; subst h; rename_i hc
       exact hdrop _ _ hc.2.1 hc.2.2.1 hc.2.2.2)
    | (right; left; injection h with h; subst h; rename_i h3 hc
       exact hdrop _ _ h3 hc.1 hc.2)

theorem step_stop_line {s s1 : State} (h : step s = .stop s1 none) :
    ∃ c, s.line = c :: s1.line := by
  have hgt : s.line.headD NUL = '>' → ∃ c, s.line = c :: s.line.drop 1 := by
    intro hc
    cases hl : s.line with
    | nil => rw [hl] at hc; exact absurd hc (by decide)
    | cons a l => exact ⟨a, rfl⟩
  unfold step at h
  simp only at h
  repeat' split at h
  all_goals first
    | cases h; done
    | (unfold advance at h; split at h <;> cases h)
    | (injection h with h _; subst h; simp only; apply hgt; assumption)

theorem step_suffix {s s1 : State} (h : step s = .next s1)
    (hnl : s.line.headD NUL ≠ NL) :
    s1.line <:+ s.line ∧ (newline_terminated s.line → newline_terminated s1.line) := by
  rcases step_line h with ⟨c, hc⟩ | ⟨c, hc⟩ | ⟨c, hc⟩
  · rw [hc] at hnl ⊢
    exact ⟨List.suffix_cons _ _, fun hn => newline_terminated_tail hn hnl⟩
  · rw [hc] at hnl ⊢
    refine ⟨⟨[c, '-', '-'], rfl⟩, fun hn => ?_⟩
    exact newline_terminated_tail (newline_terminated_tail
      (newline_terminated_tail hn hnl) (by decide)) (by decide)
  · rw [hc] at hnl ⊢
    refine ⟨⟨[c, '-', '>'], rfl⟩, fun hn => ?_⟩
    exact newline_terminated_tail (newline_terminated_tail
      (newline_terminated_tail hn hnl) (by decide)) (by decide)

/-- The cursor that the scanning loop leaves is a suffix of the one it
started from, and it keeps the final newline. -/
theorem run_suffix (s : State) :
    ∀ tok, run s = .ok tok →
      tok.line <:+ s.line ∧ (newline_terminated s.line → newline_terminated tok.line) := by
  generalize hn : s.line.length = n
  induction n using Nat.strong_induction_on generalizing s with
  | _ n ih =>
    intro tok h
    rw [run_eq] at h
    split at h
    · injection h with h; subst h
      exact ⟨List.suffix_refl _, fun h => h⟩
    · rename_i hends
      have hnl := (not_or.mp hends).2
      cases hstep : step s with
      | next s1 =>
        rw [hstep] at h
        simp only at h
        have h1 := step_next_lt hstep
        have h2 := step_suffix hstep hnl
        have h3 := ih _ (by omega) s1 rfl tok h
        exact ⟨h3.1.trans h2.1, fun hn => h3.2 (h2.2 hn)⟩
      | stop s1 e =>
        rw [hstep] at h
        cases e with
        | none =>
          simp only at h
          injection h with h; subst h
          obtain ⟨c, hc⟩ := step_stop_line hstep
          simp only
          rw [hc] at hnl ⊢
          exact ⟨List.suffix_cons _ _, fun hn => newline_terminated_tail hn hnl⟩
        | some e => simp at h
      | undefined => rw [hstep] at h; simp at h

theorem handle_tag_ne_fuel (s : List HTMLTag) (tag : HTMLTag) : handle_tag s tag ≠ .fuel := by
  cases hty : get_tag_type tag with
  | ok ty =>
    cases ty with
    | opening => rw [handle_tag_opening s tag hty]; simp
    | non_closing =>
      cases s with
      | nil => rw [handle_tag_void_unset tag hty]; simp
      | cons cur parents => rw [handle_tag_void cur parents tag hty]; simp
    | closing =>
      cases s with
      | nil => rw [handle_tag_closing_unset tag hty]; simp
      | cons cur parents =>
        rw [handle_tag_closing cur parents tag hty]
        split
        · simp
        · cases parents <;> simp
        · simp
  | exit e =>
    have : handle_tag s tag = .exit e := by
      cases s <;> simp [handle_tag, is_opening_tag, hty, Outcome.bind]
    rw [this]; simp
  | undefined =>
    have : handle_tag s tag = .undefined := by
      cases s <;> simp [handle_tag, is_opening_tag, hty, Outcome.bind]
    rw [this]; simp
  | fuel =>
    rw [get_tag_type_eq] at hty
    split_ifs at hty

/-- The line loop ends within its bound. -/
theorem run_line_ne_fuel (line : List Char) : ∀ b : Builder, run_line line b ≠ .fuel := by
  generalize hn : line.length = n
  induction n using Nat.strong_induction_on generalizing line with
  | _ n ih =>
    intro b
    rw [run_line_eq]
    split
    · simp
    · cases htok : next_tag line b.COMMENT_OPENED with
      | ok tok =>
        obtain ⟨tag, rest, c⟩ := tok
        cases tag with
        | none => simp
        | some tag =>
          simp only
          have hlt := next_tag_cursor htok
          cases hh : handle_tag b.current_tag tag with
          | ok cur => exact ih rest.length (by omega) rest rfl _
          | exit e => simp
          | undefined => simp
          | fuel => exact absurd hh (handle_tag_ne_fuel _ _)
      | exit e => simp
      | undefined => simp
      | fuel =>
        rw [next_tag_eq_run] at htok
        exact absurd htok (run_ne_fuel _)

/-- On a newline-terminated line the line loop needs no more passes than the
line has characters. -/
theorem line_loop_length (line : List Char) :
    ∀ b : Builder, newline_terminated line →
      line_loop line.length line b = run_line line b := by
  generalize hn : line.length = n
  induction n using Nat.strong_induction_on generalizing line with
  | _ n ih =>
    intro b hnt
    cases n with
    | zero =>
      obtain ⟨body, hb⟩ := hnt
      rw [hb] at hn
      simp at hn
    | succ m =>
      rw [run_line_eq]
      unfold line_loop
      split
      · rfl
      · cases htok : next_tag line b.COMMENT_OPENED with
        | ok tok =>
          obtain ⟨tag, rest, c⟩ := tok
          cases tag with
          | none => rfl
          | some tag =>
            simp only
            have hlt := next_tag_cursor htok
            have hsuf := (run_suffix (init line b.COMMENT_OPENED) _ htok).2 hnt
            cases hh : handle_tag b.current_tag tag with
            | ok cur =>
              simp only
              by_cases heq : rest.length = m
              · have := ih rest.length (by omega) rest rfl ⟨cur, c⟩ hsuf
                rw [heq] at this
                exact this
              · exact line_loop_irrel m rest _ (by omega)
            | exit e => rfl
            | undefined => rfl
            | fuel => rfl
        | exit e => rfl
        | undefined => rfl
        | fuel => rfl

/-- C22: `next_tag` always ends; on a newline-terminated line, with either
value of the comment flag, the cursor it leaves is a part of the line that
still ends with the line's newline, and strictly shorter than the line when a
tag is returned; a call that returns no tag ends the line loop; hence the
line loop ends within as many passes, each with one call of `next_tag`, as the
line has characters. -/
theorem token_loop_progress :
    (∀ (line : List Char) (comment : Bool), next_tag line comment ≠ .fuel) ∧
    (∀ (line : List Char) (comment : Bool) (tok : Token),
      newline_terminated line → next_tag line comment = .ok tok →
      tok.line <:+ line ∧ newline_terminated tok.line ∧
      (∀ tag, tok.tag = some tag → tok.line.length < line.length)) ∧
    (∀ (line rest : List Char) (b : Builder) (c : Bool),
      line.headD NUL ≠ NUL → next_tag line b.COMMENT_OPENED = .ok ⟨none, rest, c⟩ →
      run_line line b = .ok ⟨b.current_tag, c⟩) ∧
    (∀ (line : List Char) (b : Builder) (n : Nat),
      newline_terminated line → line.length ≤ n →
      line_loop n line b = run_line line b ∧ line_loop n line b ≠ .fuel) := by
  refine ⟨fun line comment => run_ne_fuel _, ?_, ?_, ?_⟩
  · intro line comment tok hnt h
    have h1 := run_suffix (init line comment) tok h
    refine ⟨h1.1, h1.2 hnt, ?_⟩
    intro tag htag
    obtain ⟨t, l, c⟩ := tok
    simp only at htag
    subst htag
    exact next_tag_cursor h
  · intro line rest b c hl h
    exact run_line_none hl h
  · intro line b n hnt hlen
    have heq : line_loop n line b = run_line line b := by
      by_cases h : line.length = n
      · rw [← h]; exact line_loop_length line b hnt
      · exact line_loop_irrel n line b (by omega)
    exact ⟨heq, by rw [heq]; exact run_line_ne_fuel line b⟩

/-- Witness for C22: the line `<div><p>` with its newline: two tags, then no
tag at the newline; the line loop ends within the nine passes of its nine
characters. -/
theorem token_loop_progress_witness :
    next_tag ("<div><p>".toList ++ [NL]) false =
      .ok ⟨some (.mk "div".toList none [] []), "<p>".toList ++ [NL], false⟩ ∧
    ("<p>".toList ++ [NL] <:+ "<div><p>".toList ++ [NL] ∧
      newline_terminated ("<p>".toList ++ [NL]) ∧
      ∀ tag, (Token.mk (some (.mk "div".toList none [] [])) ("<p>".toList ++ [NL]) false).tag
          = some tag →
        ("<p>".toList ++ [NL]).length < ("<div><p>".toList ++ [NL]).length) ∧
    next_tag [NL] false = .ok ⟨none, [NL], false⟩ ∧
    (line_loop 9 ("<div><p>".toList ++ [NL]) ⟨[], false⟩ =
        run_line ("<div><p>".toList ++ [NL]) ⟨[], false⟩ ∧
      line_loop 9 ("<div><p>".toList ++ [NL]) ⟨[], false⟩ ≠ .fuel) :=
  ⟨rfl,
    token_loop_progress.2.1 ("<div><p>".toList ++ [NL]) false _ ⟨"<div><p>".toList, rfl⟩ rfl,
    rfl,
    token_loop_progress.2.2.2 ("<div><p>".toList ++ [NL]) ⟨[], false⟩ 9
      ⟨"<div><p>".toList, rfl⟩ (by decide)⟩

/-! ## Well-formed tokens -/

theorem buf_write_all (P : Char → Prop) {cap off : Nat} {buf b : List Char} {c : Char}
    (h : buf_write cap buf off c = some b) (hb : ∀ x ∈ buf, P x ∨ x = NUL) (hc : P c) :
    ∀ x ∈ b, P x ∨ x = NUL := by
  unfold buf_write at h
  split at h
  · split at h
    · injection h with h
      subst h
      intro x hx
      rcases List.mem_or_eq_of_mem_set hx with h1 | h1
      · exact hb x h1
      · subst h1; exact Or.inl hc
    · injection h with h
      subst h
      intro x hx
      simp only [List.mem_append, List.mem_replicate, List.mem_singleton] at hx
      rcases hx with (h1 | h1) | h1
      · exact hb x h1
      · exact Or.inr h1.2
      · subst h1; exact Or.inl hc
  · cases h

theorem buf_str_all (P : Char → Prop) {cap : Nat} {buf s : List Char}
    (h : buf_str cap buf = some s) (hb : ∀ x ∈ buf, P x ∨ x = NUL) :
    ∀ x ∈ s, P x := by
  unfold buf_str at h
  simp only at h
  split at h
  · injection h with h
    subst h
    intro x hx
    have h1 := List.mem_takeWhile_imp hx
    have h2 := (List.takeWhile_sublist _).subset hx
    rcases hb x h2 with h3 | h3
    · exact h3
    · subst h3; simp at h1
  · cases h

theorem buf_str_head {cap : Nat} {buf s : List Char} (h : buf_str cap buf = some s) :
    s ≠ [] ↔ buf.headD NUL ≠ NUL := by
  unfold buf_str at h
  simp only at h
  split at h
  · injection h with h
    subst h
    cases buf with
    | nil => simp
    | cons c l =>
      by_cases hc : c = NUL
      · simp [List.takeWhile_cons, hc]
      · simp [List.takeWhile_cons, hc]
  · cases h

theorem advance_scan_ok {s s1 : State} (h : advance s = .next s1) (hs : scan_ok s) :
    scan_ok s1 := by
  unfold advance at h
  split at h
  · cases h
  · injection h with h
    subst h
    exact hs

theorem step_scan_ok_comment {s : State} (hs : scan_ok s) (hc : s.COMMENT_OPENED = true) :
    (∀ s1, step s = .next s1 → scan_ok s1) ∧
    (∀ s1, step s = .stop s1 none → scan_ok s1) := by
  obtain ⟨h1, h2, h3, h4, h5⟩ := hs
  constructor
  · intro s1 h
    unfold step at h
    simp only [hc, if_true] at h
    split at h
    · injection h with h
      subst h
      exact ⟨h1, h2, h3, h4, by simp⟩
    · exact advance_scan_ok h ⟨h1, h2, h3, h4, h5⟩
  · intro s1 h
    unfold step at h
    simp only [hc, if_true] at h
    split at h
    · cases h
    · unfold advance at h
      split at h <;> cases h

theorem step_scan_ok_open {s : State} (hs : scan_ok s) (hc : s.COMMENT_OPENED = false)
    (he : s.expected_token = .open_tag) :
    (∀ s1, step s = .next s1 → scan_ok s1) ∧
    (∀ s1, step s = .stop s1 none → scan_ok s1) := by
  obtain ⟨h1, h2, h3, h4, h5⟩ := hs
  constructor
  · intro s1 h
    unfold step at h
    simp only [hc, he, Bool.false_eq_true, if_false] at h
    repeat' split at h
    all_goals first
      | contradiction
      | exact advance_scan_ok h ⟨h1, h2, h3, h4, h5⟩
      | exact advance_scan_ok h ⟨h1, h2, h3, h4, by simp⟩
  · intro s1 h
    unfold step at h
    simp only [hc, he, Bool.false_eq_true, if_false] at h
    repeat' split at h
    all_goals first
      | contradiction
      | (unfold advance at h; split at h <;> cases h)

theorem step_scan_ok_name {s : State} (hs : scan_ok s) (hc : s.COMMENT_OPENED = false)
    (he : s.expected_token = .tag_name) :
    (∀ s1, step s = .next s1 → scan_ok s1) ∧
    (∀ s1, step s = .stop s1 none → scan_ok s1) := by
  obtain ⟨h1, h2, h3, h4, h5⟩ := hs
  have hnew : ∀ (name : List Char) (content : Option (List Char)),
      buf_str 128 s.tag_name = some name → 0 < name.length →
      token_ok (create_tag_from_string name content) := by
    intro name content hstr hpos
    exact ⟨List.length_pos.mp hpos, buf_str_all (fun c => name_char c = true) hstr h1, rfl,
      by intro a ha; cases ha⟩
  constructor
  · intro s1 h
    unfold step at h
    simp only [hc, he, Bool.false_eq_true, if_false] at h
    repeat' split at h
    all_goals first
      | contradiction
      | (have hchr : (s.line.headD NUL).isAlphanum = true ∨ s.line.headD NUL = '/' := by
           assumption
         have hn : name_char (s.line.headD NUL) = true := by
           simpa [name_char] using hchr
         exact advance_scan_ok h
           ⟨buf_write_all (fun c => name_char c = true) (by assumption) h1 hn, h2, h3, h4,
             by simp⟩)
      | exact advance_scan_ok h ⟨h1, h2, h3,
           (by intro t ht; injection ht with ht; subst ht
               exact hnew _ _ (by assumption) (by assumption)),
           by simp⟩
      | (injection h with h; subst h; exact ⟨h1, h2, h3, h4, by simp [he]⟩)
  · intro s1 h
    unfold step at h
    simp only [hc, he, Bool.false_eq_true, if_false] at h
    repeat' split at h
    all_goals first
      | contradiction
      | (injection h with _ hx; contradiction)
      | (unfold advance at h; split at h <;> cases h)
      | (injection h with h _; subst h
         exact ⟨h1, h2, h3,
           (by intro t ht; injection ht with ht; subst ht
               exact hnew _ _ (by assumption) (by assumption)),
           by simp⟩)

theorem token_ok_add_attribute {t : HTMLTag} {name value : List Char} (ht : token_ok t)
    (hpos : name ≠ []) (hn : ∀ c ∈ name, c.isAlpha = true)
    (hv : ∀ c ∈ value, value_char c = true) :
    token_ok (add_attribute t (create_attribute name value)) := by
  obtain ⟨h1, h2, h3, h4⟩ := ht
  refine ⟨h1, h2, h3, ?_⟩
  intro a ha
  simp only [add_attribute, HTMLTag.attributes, List.mem_append, List.mem_singleton] at ha
  rcases ha with ha | ha
  · exact h4 a ha
  · subst ha
    exact ⟨hpos, hn, hv⟩

theorem step_scan_ok_attr_name {s : State} (hs : scan_ok s) (hc : s.COMMENT_OPENED = false)
    (he : s.expected_token = .attr_name) :
    (∀ s1, step s = .next s1 → scan_ok s1) ∧
    (∀ s1, step s = .stop s1 none → scan_ok s1) := by
  obtain ⟨h1, h2, h3, h4, h5⟩ := hs
  constructor
  · intro s1 h
    unfold step at h
    simp only [hc, he, Bool.false_eq_true, if_false] at h
    repeat' split at h
    all_goals first
      | contradiction
      | exact advance_scan_ok h
          ⟨h1, buf_write_all (fun c => c.isAlpha = true) (by assumption) h2 (by assumption),
            h3, h4, by simp⟩
      | exact advance_scan_ok h ⟨h1, h2, h3, h4, fun _ =>
          (buf_str_head (by assumption)).mp (List.length_pos.mp (by assumption))⟩
  · intro s1 h
    unfold step at h
    simp only [hc, he, Bool.false_eq_true, if_false] at h
    repeat' split at h
    all_goals first
      | contradiction
      | (injection h with _ hx; contradiction)
      | (unfold advance at h; split at h <;> cases h)

theorem step_scan_ok_attr_value_open {s : State} (hs : scan_ok s)
    (hc : s.COMMENT_OPENED = false) (he : s.expected_token = .attr_value_open) :
    (∀ s1, step s = .next s1 → scan_ok s1) ∧
    (∀ s1, step s = .stop s1 none → scan_ok s1) := by
  obtain ⟨h1, h2, h3, h4, h5⟩ := hs
  constructor
  · intro s1 h
    unfold step at h
    simp only [hc, he, Bool.false_eq_true, if_false] at h
    repeat' split at h
    all_goals first
      | contradiction
      | exact advance_scan_ok h ⟨h1, h2, h3, h4, fun _ => h5 (Or.inl he)⟩
  · intro s1 h
    unfold step at h
    simp only [hc, he, Bool.false_eq_true, if_false] at h
    repeat' split at h
    all_goals first
      | contradiction
      | (injection h with _ hx; contradiction)
      | (unfold advance at h; split at h <;> cases h)

theorem step_scan_ok_attr_value {s : State} (hs : scan_ok s)
    (hc : s.COMMENT_OPENED = false) (he : s.expected_token = .attr_value) :
    (∀ s1, step s = .next s1 → scan_ok s1) ∧
    (∀ s1, step s = .stop s1 none → scan_ok s1) := by
  obtain ⟨h1, h2, h3, h4, h5⟩ := hs
  have hhead := h5 (Or.inr he)
  constructor
  · intro s1 h
    unfold step at h
    simp only [hc, he, Bool.false_eq_true, if_false] at h
    repeat' split at h
    all_goals first
      | contradiction
      | exact advance_scan_ok h
          ⟨h1, h2, buf_write_all (fun c => value_char c = true) (by assumption) h3
            ((value_char_iff_code _).mpr (by assumption)), h4, fun _ => hhead⟩
      | (refine advance_scan_ok h ⟨h1, by simp, by simp, ?_, by simp⟩
         intro t ht
         simp only at ht
         cases hst : s.tag with
         | none => rw [hst] at ht; cases ht
         | some u =>
           rw [hst] at ht
           simp only [Option.map_some'] at ht
           injection ht with ht
           subst ht
           exact token_ok_add_attribute (h4 u hst)
             ((buf_str_head (by assumption)).mpr hhead)
             (buf_str_all (fun c => c.isAlpha = true) (by assumption) h2)
             (buf_str_all (fun c => value_char c = true) (by assumption) h3))
  · intro s1 h
    unfold step at h
    simp only [hc, he, Bool.false_eq_true, if_false] at h
    repeat' split at h
    all_goals first
      | contradiction
      | (injection h with _ hx; contradiction)
      | (unfold advance at h; split at h <;> cases h)

theorem step_scan_ok_separator {s : State} (hs : scan_ok s)
    (hc : s.COMMENT_OPENED = false) (he : s.expected_token = .attr_separator_or_close_tag) :
    (∀ s1, step s = .next s1 → scan_ok s1) ∧
    (∀ s1, step s = .stop s1 none → scan_ok s1) := by
  obtain ⟨h1, h2, h3, h4, h5⟩ := hs
  constructor
  · intro s1 h
    unfold step at h
    simp only [hc, he, Bool.false_eq_true, if_false] at h
    repeat' split at h
    all_goals first
      | contradiction
      | exact advance_scan_ok h ⟨h1, by simp, by simp, h4, by simp⟩
  · intro s1 h
    unfold step at h
    simp only [hc, he, Bool.false_eq_true, if_false] at h
    repeat' split at h
    all_goals first
      | contradiction
      | (injection h with _ hx; contradiction)
      | (unfold advance at h; split at h <;> cases h)
      | (injection h with h _; subst h; exact ⟨h1, h2, h3, h4, by simp [he]⟩)

/-- Every pass of the scanning loop keeps the well-formedness of the local
variables. -/
theorem step_scan_ok {s : State} (hs : scan_ok s) :
    (∀ s1, step s = .next s1 → scan_ok s1) ∧
    (∀ s1, step s = .stop s1 none → scan_ok s1) := by
  cases hc : s.COMMENT_OPENED with
  | true => exact step_scan_ok_comment hs hc
  | false =>
    cases he : s.expected_token with
    | open_tag => exact step_scan_ok_open hs hc he
    | tag_name => exact step_scan_ok_name hs hc he
    | attr_name => exact step_scan_ok_attr_name hs hc he
    | attr_value_open => exact step_scan_ok_attr_value_open hs hc he
    | attr_value => exact step_scan_ok_attr_value hs hc he
    | attr_separator_or_close_tag => exact step_scan_ok_separator hs hc he

theorem run_token_ok (s : State) :
    scan_ok s → ∀ tok, run s = .ok tok → ∀ t, tok.tag = some t → token_ok t := by
  generalize hn : s.line.length = n
  induction n using Nat.strong_induction_on generalizing s with
  | _ n ih =>
    intro hs tok h
    rw [run_eq] at h
    split at h
    · injection h with h; subst h; exact hs.2.2.2.1
    · cases hstep : step s with
      | next s1 =>
        rw [hstep] at h
        simp only at h
        have h1 := step_next_lt hstep
        exact ih _ (by omega) s1 rfl ((step_scan_ok hs).1 s1 hstep) tok h
      | stop s1 e =>
        rw [hstep] at h
        cases e with
        | none =>
          simp only at h
          injection h with h; subst h
          exact ((step_scan_ok hs).2 s1 hstep).2.2.2.1
        | some e => simp at h
      | undefined => rw [hstep] at h; simp at h

/-- C23: for every line and either value of the comment flag on which
`next_tag` returns a tag, the name of the tag is not empty and consists of
alphanumeric characters and slashes, the tag has no children, every attribute
name is not empty and alphabetic, and every attribute value consists of
alphanumeric characters, the listed punctuation characters and spaces; made
the root by the builder, the tag has no parent. -/
theorem emitted_tokens_well_formed (line rest : List Char) (comment c : Bool) (tag : HTMLTag)
    (h : next_tag line comment = .ok ⟨some tag, rest, c⟩) :
    tag.name ≠ [] ∧
    (∀ x ∈ tag.name, x.isAlphanum = true ∨ x = '/') ∧
    tag.children = [] ∧
    (∀ a ∈ tag.attributes, a.name ≠ [] ∧ (∀ x ∈ a.name, x.isAlpha = true) ∧
      (∀ x ∈ a.value, value_char x = true)) ∧
    (get_tag_type tag = .ok .opening → handle_tag [] tag = .ok [tag]) := by
  have hinit : scan_ok (init line comment) := by
    refine ⟨?_, ?_, ?_, ?_, ?_⟩ <;> simp [init]
  obtain ⟨h1, h2, h3, h4⟩ := run_token_ok (init line comment) hinit _ h tag rfl
  refine ⟨h1, ?_, h3, h4, fun ho => handle_tag_opening [] tag ho⟩
  intro x hx
  simpa [name_char] using h2 x hx

/-- Witness for C23: the tag of the line `<a href="x.html" id="k">`. -/
theorem emitted_tokens_well_formed_witness :
    next_tag ("<a href=".toList ++ DQUOTE :: "x.html".toList ++ DQUOTE :: " id=".toList ++
        DQUOTE :: "k".toList ++ [DQUOTE, '>']) false =
      .ok ⟨some (.mk "a".toList none
        [⟨"href".toList, "x.html".toList⟩, ⟨"id".toList, "k".toList⟩] []), [], false⟩ ∧
    ("a".toList ≠ [] ∧
      (∀ x ∈ "a".toList, x.isAlphanum = true ∨ x = '/') ∧
      (HTMLTag.mk "a".toList none
        [⟨"href".toList, "x.html".toList⟩, ⟨"id".toList, "k".toList⟩] []).children = [] ∧
      (∀ a ∈ [Attribute.mk "href".toList "x.html".toList, ⟨"id".toList, "k".toList⟩],
        a.name ≠ [] ∧ (∀ x ∈ a.name, x.isAlpha = true) ∧
        (∀ x ∈ a.value, value_char x = true)) ∧
      (get_tag_type (.mk "a".toList none
          [⟨"href".toList, "x.html".toList⟩, ⟨"id".toList, "k".toList⟩] []) = .ok .opening →
        handle_tag [] (.mk "a".toList none
          [⟨"href".toList, "x.html".toList⟩, ⟨"id".toList, "k".toList⟩] []) =
        .ok [.mk "a".toList none
          [⟨"href".toList, "x.html".toList⟩, ⟨"id".toList, "k".toList⟩] []])) :=
  ⟨rfl,
    emitted_tokens_well_formed
      ("<a href=".toList ++ DQUOTE :: "x.html".toList ++ DQUOTE :: " id=".toList ++
        DQUOTE :: "k".toList ++ [DQUOTE, '>']) [] false false
      (.mk "a".toList none [⟨"href".toList, "x.html".toList⟩, ⟨"id".toList, "k".toList⟩] [])
      rfl⟩

end HtmlParser
